import Mathlib

/-!
# Verification of the dagre layered-layout core

This file gives a shallow embedding, in Lean 4, of the core of the dagre
hierarchical layout library (`src/lib/layout.js`, which also contains the
ranking subsystem `rank.js`), together with theorems settling the stated
properties of the pipeline.

The embedding follows the JavaScript source closely:

* the internal working graph is a directed multigraph whose node and edge
  values carry the layout state (ranks, dummy markers, polyline points, ...);
  node and edge collections are kept in insertion order, as the `graphlib`
  structures iterate them;
* numbers are modelled as `Int` (all the quantities involved are integers);
* mutation is modelled by explicit state passing;
* fallible code (the `throw new Error(...)` paths) returns `Option`/`Except`;
* the auto-generated identifiers of `graphlib` (`addNode(null, ...)`,
  `addEdge(null, ...)`) are modelled by per-graph counters, and the dummy
  node names `"_D" + n` of `normalize` by a dedicated constructor, which is
  faithful to their freshness;
* stages of the pipeline that live outside this repository (the `acyclic`,
  `order` and `position` collaborators and the graphlib helpers) are
  modelled from the specification; each such definition carries a doc
  comment starting with `Modelled from the spec:`.
-/

/-! ## The initial feasible ranking (`initRank` in rank.js)

`initRank` is the Kahn-style initial ranking: a priority queue keyed by the
unresolved in-degree; repeatedly remove a node of minimum priority (fatal
error if that minimum is positive), assign it the accumulated `minRank`, and
push `rank + minLen` into the `minRank` of each successor while decrementing
its priority.  The embedding is generic in the node identifier type. -/

namespace RankCore

/-- An edge as `initRank` sees it: source, target and the `minLen`
(`"minLen" in value ? value.minLen : 1` is resolved by the caller). -/
structure REdge (α : Type) where
  src : α
  tgt : α
  len : Int
deriving DecidableEq, Repr

variable {α : Type} [DecidableEq α]

/-- Priority-queue minimum, starting from a first candidate.  The cp-data
binary heap returns some entry of minimal priority; ties are broken
deterministically here by taking the earliest entry. -/
def pqMinFrom (x : α × Nat) (xs : List (α × Nat)) : α × Nat :=
  xs.foldl (fun b y => if y.2 < b.2 then y else b) x

/-- `pq.min()` paired with its priority: an entry of minimal priority. -/
def pqMin : List (α × Nat) → Option (α × Nat)
  | [] => none
  | x :: xs => some (pqMinFrom x xs)

/-- `pq.removeMin()`: keys are unique on all reachable states, so removing
the minimum is removal by key. -/
def pqRemove (u : α) (pq : List (α × Nat)) : List (α × Nat) :=
  pq.filter (fun p => ¬ p.1 = u)

/-- `pq.decrease(v, pq.priority(v) - 1)`.  If `v` is no longer in the queue
the queue is returned unchanged; the invariant lemmas below show that on
the states `initRank` reaches, `v` is always present with positive
priority. -/
def pqDec (v : α) (pq : List (α × Nat)) : List (α × Nat) :=
  pq.map (fun p => if p.1 = v then (p.1, p.2 - 1) else p)

/-- The mutable state of `initRank`: the priority queue, the `minRank`
accumulator and the assigned ranks (`none` = not yet assigned). -/
structure St (α : Type) where
  pq : List (α × Nat)
  mr : α → Int
  rk : α → Option Int

/-- `g.outEdges(u)` restricted to what `initRank` reads. -/
def outE (edges : List (REdge α)) (u : α) : List (REdge α) :=
  edges.filter (fun e => e.src = u)

/-- `updateTargetNode(e)` for one out-edge of the node just ranked (whose
rank is `ru`): raise the target's `minRank` and decrement its priority. -/
def pushEdge (ru : Int) (s : (α → Int) × List (α × Nat)) (e : REdge α) :
    (α → Int) × List (α × Nat) :=
  (fun x => if x = e.tgt then max (s.1 e.tgt) (ru + e.len) else s.1 x,
   pqDec e.tgt s.2)

/-- One iteration of the `while` loop after the fatal-error test: remove the
minimum `u`, assign `rank(u) := minRank(u)`, and process the out-edges. -/
def step (edges : List (REdge α)) (u : α) (st : St α) : St α :=
  let r := st.mr u
  let s := (outE edges u).foldl (pushEdge r) (st.mr, pqRemove u st.pq)
  ⟨s.2, s.1, fun x => if x = u then some r else st.rk x⟩

/-- The `while (pq.size() > 0)` loop of `initRank`, by structural recursion
on a fuel argument (each iteration removes the minimum from the queue, so a
fuel equal to the initial queue size is always sufficient: at fuel 0 a
non-empty queue is treated as the fatal error, which a sufficient fuel
never reaches).  Returns `none` when the fatal
`Input graph is not acyclic` error is raised. -/
def loop (edges : List (REdge α)) : Nat → St α → Option (α → Option Int)
  | 0, st =>
      match pqMin st.pq with
      | none => some st.rk
      | some _ => none
  | fuel + 1, st =>
      match pqMin st.pq with
      | none => some st.rk
      | some up =>
          if 0 < up.2 then none
          else loop edges fuel (step edges up.1 st)

/-- `initRank(g)`: queue every node with its in-degree as priority,
`minRank[u] = 0`, then run the loop. -/
def initRank (nodes : List α) (edges : List (REdge α)) :
    Option (α → Option Int) :=
  loop edges nodes.length
    ⟨nodes.map (fun u => (u, (edges.filter (fun e => e.tgt = u)).length)),
     fun _ => 0, fun _ => none⟩

/-- The loop invariant of `initRank`: queue keys are the unranked nodes,
without duplicates; each priority counts the in-edges whose source is
still unranked; sources of ranked targets are ranked; and the `minRank`
accumulator dominates `rank(src) + len` for every edge out of a ranked
source into an unranked target, while ranked pairs are already feasible. -/
def RkInv (nodes : List α) (edges : List (REdge α)) (st : St α) : Prop :=
  ((st.pq.map (fun q => q.1)).Nodup) ∧
  (∀ q ∈ st.pq, q.1 ∈ nodes) ∧
  (∀ w ∈ nodes, (st.rk w = none ↔ w ∈ st.pq.map (fun q => q.1))) ∧
  (∀ q ∈ st.pq, q.2 = (edges.filter
      (fun e => decide (e.tgt = q.1) && (st.rk e.src).isNone)).length) ∧
  (∀ e ∈ edges, ∀ ru, st.rk e.src = some ru →
     (st.rk e.tgt = none → ru + e.len ≤ st.mr e.tgt) ∧
     (∀ rv, st.rk e.tgt = some rv → ru + e.len ≤ rv)) ∧
  (∀ e ∈ edges, (st.rk e.tgt).isSome = true → (st.rk e.src).isSome = true)

end RankCore

/-! ## The working graph of layout.js

The internal graph `W` built by `initLayoutGraph`.  Node and edge values
mirror the JavaScript attribute objects; absent attributes are modelled by
`Option` where a definition tests for presence (`prefRank`, `rank`, `index`,
`minLen`, the carried original id `e`) and by defaults where only the value
is ever read (dimensions, coordinates, the `reversed` flag).  Collections
are insertion-ordered lists, matching graphlib iteration order. -/

namespace Dagre

/-- Node identifiers of the working graph: names copied from the input
graph, the `"_D" + n` names generated by `normalize`, and the
auto-generated ids of `addNode(null, ...)` used for compound rank-group
nodes.  The generated names are fresh by construction, which models the
freshness of the generated graphlib ids. -/
inductive NId where
  | orig (s : String)
  | dum (n : Nat)
  | auto (n : Nat)
deriving DecidableEq, Repr

/-- A rank constraint from the input: an integer class, or "min"/"max". -/
inductive PrefRank where
  | int (k : Int)
  | min
  | max
deriving DecidableEq, Repr

/-- A polyline control point as written by `undoNormalize`. -/
structure Pt where
  x : Int := 0
  y : Int := 0
  ul : Int := 0
  ur : Int := 0
  dl : Int := 0
  dr : Int := 0
deriving DecidableEq, Repr

/-- An edge value of the working graph. -/
structure EdgeVal where
  e : Option String := none
  minLen : Option Int := none
  width : Int := 0
  height : Int := 0
  points : List Pt := []
  reversed : Bool := false
deriving DecidableEq, Repr

/-- The record a dummy node keeps about the original long edge it
subdivides (`edge: ... id, source, target, attrs ...` in `normalize`). -/
structure EdgeRef where
  id : Nat
  source : NId
  target : NId
  attrs : EdgeVal
deriving DecidableEq, Repr

/-- A node value of the working graph.  `origNodes` is the
`originalNodes` list of a compound rank-group node. -/
structure NodeVal where
  width : Int := 0
  height : Int := 0
  prefRank : Option PrefRank := none
  rank : Option Int := none
  dummy : Bool := false
  index : Option Nat := none
  edge : Option EdgeRef := none
  origNodes : List NId := []
  x : Int := 0
  y : Int := 0
  ul : Int := 0
  ur : Int := 0
  dl : Int := 0
  dr : Int := 0
deriving DecidableEq, Repr

/-- An edge of the working graph, with its graphlib id. -/
structure Edge where
  id : Nat
  src : NId
  tgt : NId
  val : EdgeVal
deriving DecidableEq, Repr

/-- The working graph.  `nextE` and `nextN` are the counters behind the
auto-generated edge and node ids; `compound` is the `compoundNodes` list
stored in the graph value by `combineRanks` (absent otherwise). -/
structure Graph where
  nodes : List (NId × NodeVal) := []
  edges : List Edge := []
  nextE : Nat := 0
  nextN : Nat := 0
  compound : Option (List NId) := none
deriving DecidableEq, Repr

namespace Graph

def node? (g : Graph) (u : NId) : Option NodeVal :=
  (g.nodes.find? (fun p => p.1 = u)).map (fun p => p.2)

def rankOf (g : Graph) (u : NId) : Option Int :=
  (g.node? u).bind (fun v => v.rank)

def addNode (g : Graph) (u : NId) (v : NodeVal) : Graph :=
  { g with nodes := g.nodes ++ [(u, v)] }

def setNode (g : Graph) (u : NId) (f : NodeVal → NodeVal) : Graph :=
  { g with nodes := g.nodes.map (fun p => if p.1 = u then (p.1, f p.2) else p) }

/-- `delNode` removes the node and every incident edge. -/
def delNode (g : Graph) (u : NId) : Graph :=
  { g with nodes := g.nodes.filter (fun p => ¬ p.1 = u),
           edges := g.edges.filter (fun e => ¬ e.src = u ∧ ¬ e.tgt = u) }

/-- `addEdge(null, u, v, val)`: a fresh auto-generated id. -/
def addEdgeAuto (g : Graph) (u v : NId) (val : EdgeVal) : Graph :=
  { g with edges := g.edges ++ [⟨g.nextE, u, v, val⟩], nextE := g.nextE + 1 }

/-- `addEdge(id, u, v, val)` with an explicit id (`undoNormalize`). -/
def addEdgeId (g : Graph) (i : Nat) (u v : NId) (val : EdgeVal) : Graph :=
  { g with edges := g.edges ++ [⟨i, u, v, val⟩] }

def delEdge (g : Graph) (i : Nat) : Graph :=
  { g with edges := g.edges.filter (fun e => ¬ e.id = i) }

def edge? (g : Graph) (i : Nat) : Option EdgeVal :=
  (g.edges.find? (fun e => e.id = i)).map (fun e => e.val)

def hasEdge (g : Graph) (i : Nat) : Bool :=
  g.edges.any (fun e => e.id = i)

def setEdgeVal (g : Graph) (i : Nat) (f : EdgeVal → EdgeVal) : Graph :=
  { g with edges := g.edges.map (fun e => if e.id = i then { e with val := f e.val } else e) }

def inEdges (g : Graph) (u : NId) : List Edge :=
  g.edges.filter (fun e => e.tgt = u)

def outEdges (g : Graph) (u : NId) : List Edge :=
  g.edges.filter (fun e => e.src = u)

end Graph

/-! ## The input graph and Build (`initLayoutGraph`) -/

/-- A node of the input graph: dimensions and the optional `rank`
constraint. -/
structure InNode where
  width : Int := 0
  height : Int := 0
  rank : Option PrefRank := none
deriving DecidableEq, Repr

/-- An edge of the input graph. -/
structure InEdge where
  id : String
  src : String
  tgt : String
  minLen : Option Int := none
  width : Option Int := none
  height : Option Int := none
deriving DecidableEq, Repr

/-- The input graph handed to `run`.  Cluster (subgraph) support is not
modelled: the inputs considered are flat, so the `parent` copying in
`initLayoutGraph` and the subgraph filter at the head of `rank` are
no-ops. -/
structure InputGraph where
  directed : Bool := true
  nodes : List (String × InNode) := []
  edges : List InEdge := []
deriving DecidableEq, Repr

/-- `initLayoutGraph`: build the working digraph.  Every node value is a
fresh copy (so the input graph is never mutated by the pipeline); each
edge value carries the original id in `e`, `minLen` defaulted to 1 by the
falsy test `value.minLen || 1`, dimensions defaulted to 0, and an empty
`points` list.  For an undirected input each edge is added in both
directions.  (In the JavaScript both directions share one value object;
the copies here agree with that on every property the modelled claims
read, since one of the two edges is deleted by `removeDupEdges` before
any stage writes to edge values other than the `minLen` doubling.) -/
def initLayoutGraph (ig : InputGraph) : Graph :=
  let g1 := ig.nodes.foldl
    (fun h p => h.addNode (NId.orig p.1)
      { width := p.2.width, height := p.2.height, prefRank := p.2.rank })
    {}
  ig.edges.foldl
    (fun h e =>
      let ml := e.minLen.getD 0
      let v : EdgeVal :=
        { e := some e.id,
          minLen := some (if ml = 0 then 1 else ml),
          width := e.width.getD 0,
          height := e.height.getD 0,
          points := [] }
      let h1 := h.addEdgeAuto (NId.orig e.src) (NId.orig e.tgt) v
      if ig.directed then h1 else h1.addEdgeAuto (NId.orig e.tgt) (NId.orig e.src) v)
    g1

/-- The `a.minLen *= 2` pass of `run` (making space for edge labels). -/
def doubleMinLen (g : Graph) : Graph :=
  { g with edges := g.edges.map (fun e =>
                      { e with val := { e.val with
                          minLen := e.val.minLen.map (fun m => 2 * m) } }) }

/-- Modelled from the spec: the `acyclic` collaborator reverses a feedback
edge set so that W becomes a DAG, marking every reversed edge with
`reversed = true`; the choice of the set is an unspecified heuristic, so
the model is parameterised by the list of reversed edge ids.  On an
already acyclic graph the empty list is the faithful choice (the DFS
heuristic finds no back edge). -/
def acyclicModel (flips : List Nat) (g : Graph) : Graph :=
  { g with edges := g.edges.map (fun e =>
                      if e.id ∈ flips
                      then ⟨e.id, e.tgt, e.src, { e.val with reversed := true }⟩
                      else e) }

/-- Modelled from the spec: `acyclic.undo` reverts every edge marked
`reversed` to its original orientation and clears the flag. -/
def acyclicUndoModel (g : Graph) : Graph :=
  { g with edges := g.edges.map (fun e =>
                      if e.val.reversed
                      then ⟨e.id, e.tgt, e.src, { e.val with reversed := false }⟩
                      else e) }

/-- `removeDupEdges`: scan edges in order, deleting any edge whose carried
original id `e` was already seen. -/
def removeDupEdges (g : Graph) : Graph :=
  (g.edges.foldl
    (fun (s : Graph × List (Option String)) e =>
      (if e.val.e ∈ s.2 then s.1.delEdge e.id else s.1, s.2 ++ [e.val.e]))
    (g, [])).1

/-! ## Normalize and Denormalize -/

/-- The value of the dummy node inserted at rank `r` for edge `e`
(width/height inherited from the edge, back reference to the original
edge, optional polyline index). -/
def dummyVal (e : Edge) (r : Int) (idx : Option Nat) : NodeVal :=
  { width := e.val.width, height := e.val.height,
    edge := some ⟨e.id, e.src, e.tgt, e.val⟩,
    rank := some r, dummy := true, index := idx }

/-- The inner `for` loop of `normalize`: create `k` more dummy nodes for
edge `e`, continuing the chain at node `u`, current rank `r`, chain
position `i`; the dummy counter is threaded in the state.  When the loop
ends the final segment to the target is added. -/
def chainGo (e : Edge) (tr : Int) : Nat → NId → Int → Nat → Graph × Nat → Graph × Nat
  | 0, u, _, _, s => (s.1.addEdgeAuto u e.tgt {}, s.2)
  | k+1, u, r, i, s =>
      let c := s.2 + 1
      let v := NId.dum c
      let idx : Option Nat := if i = 0 then some 0 else if r + 1 = tr then some 1 else none
      let h1 := (s.1.addNode v (dummyVal e r idx)).addEdgeAuto u v {}
      chainGo e tr k v (r + 1) (i + 1) (h1, c)

/-- Processing of one snapshot edge by `normalize`: if the edge spans more
than one rank, insert the dummy chain and delete the edge.  If either
endpoint has no rank the JavaScript comparison is false (NaN) and the edge
is left alone. -/
def normStep (s : Graph × Nat) (e : Edge) : Graph × Nat :=
  match s.1.rankOf e.src, s.1.rankOf e.tgt with
  | some sr, some tr =>
      if sr + 1 < tr then
        let s1 := chainGo e tr (tr - sr - 1).toNat e.src (sr + 1) 0 s
        (s1.1.delEdge e.id, s1.2)
      else s
  | _, _ => s

/-- `normalize`: fold the per-edge step over the snapshot of the edge
list, starting with dummy counter 0. -/
def normalize (g : Graph) : Graph :=
  (g.edges.foldl normStep (g, 0)).1

/-- The point record `x, y, ul, ur, dl, dr` built from a dummy node. -/
def mkPt (a : NodeVal) : Pt :=
  ⟨a.x, a.y, a.ul, a.ur, a.dl, a.dr⟩

/-- `points[i] = p` on a JavaScript array.  On the states `undoNormalize`
reaches `i ≤ length` always holds (index 0 is written before index 1). -/
def setPoint (ps : List Pt) (i : Nat) (p : Pt) : List Pt :=
  if i < ps.length then ps.set i p
  else ps ++ List.replicate (i - ps.length) ({} : Pt) ++ [p]

/-- Processing of one snapshot node by `undoNormalize`: a dummy node
carrying an `index` re-creates the original edge if it is missing, writes
its point record at `points[index]`, and is deleted (together with its
incident edges).  Dummy nodes without an `index` do not match the test
`a.dummy && "index" in a` and are left in place. -/
def undoStep (h : Graph) (p : NId × NodeVal) : Graph :=
  let a := p.2
  if a.dummy then
    match a.index, a.edge with
    | some idx, some er =>
        let h1 := if h.hasEdge er.id then h
                  else h.addEdgeId er.id er.source er.target er.attrs
        let h2 := h1.setEdgeVal er.id
          (fun v => { v with points := setPoint v.points idx (mkPt a) })
        h2.delNode p.1
    | _, _ => h
  else h

/-- `undoNormalize`: fold the per-node step over the snapshot of the node
list. -/
def undoNormalize (g : Graph) : Graph :=
  g.nodes.foldl undoStep g

/-- `fixupEdgePoints`: reverse the point list of every reversed edge. -/
def fixupEdgePoints (g : Graph) : Graph :=
  { g with edges := g.edges.map (fun e =>
                      if e.val.reversed
                      then { e with val := { e.val with points := e.val.points.reverse } }
                      else e) }

/-! ## Emit (`createFinalGraph`) -/

/-- Edge identifiers of the output graph: the carried original id when the
value has one, otherwise the internal id. -/
inductive OutEId where
  | orig (s : String)
  | internal (n : Nat)
deriving DecidableEq, Repr

/-- The output graph (directed when the input was). -/
structure OutGraph where
  directed : Bool
  nodes : List (NId × NodeVal) := []
  edges : List (OutEId × NId × NId × EdgeVal) := []
  compound : Option (List NId) := none
deriving DecidableEq, Repr

/-- `createFinalGraph`: copy every surviving node and edge; an edge is
emitted under its carried original id `e` when present, and `e` is deleted
from the emitted value. -/
def createFinalGraph (g : Graph) (isDirected : Bool) : OutGraph :=
  { directed := isDirected,
    nodes := g.nodes,
    compound := g.compound,
    edges := g.edges.map (fun e =>
      (match e.val.e with
       | some s => OutEId.orig s
       | none => OutEId.internal e.id,
       e.src, e.tgt, { e.val with e := none })) }

end Dagre

namespace Dagre

/-! ## The Rank stage (rank.js)

`rank(g)` as called from `run` (no second argument, so `useSimplex` is
falsy and the network-simplex refinement is skipped): reduce rank
constraints, run `initRank`, then per connected component build the
feasible tree and shift ranks so that the minimum is 0, and finally
broadcast compound ranks back (`expandRanks`).  The copy made by
`combineRanks` shares its node value objects with the original graph;
this sharing is modelled by copying the final reduced values back for
the surviving nodes before `expandRanks` runs. -/

/-- The in-edge redirection of `combineRanks` for one member node `u` of a
rank class with compound node `c`: every in-edge is re-attached to `c`
(reversed when the class is "min") and the old edge deleted. -/
def redirectIn (pr : PrefRank) (c : NId) (h : Graph) (u : NId) : Graph :=
  (h.inEdges u).foldl
    (fun h2 e =>
      let h3 := match pr with
        | .min => h2.addEdgeAuto c e.src e.val
        | _ => h2.addEdgeAuto e.src c e.val
      h3.delEdge e.id)
    h

/-- The out-edge redirection of `combineRanks` (reversed for "max"). -/
def redirectOut (pr : PrefRank) (c : NId) (h : Graph) (u : NId) : Graph :=
  (h.outEdges u).foldl
    (fun h2 e =>
      let h3 := match pr with
        | .max => h2.addEdgeAuto e.tgt c e.val
        | _ => h2.addEdgeAuto c e.tgt e.val
      h3.delEdge e.id)
    h

/-- The compound-node bookkeeping of `combineRanks` on first sight of a
rank class: allocate the auto id, add the compound node with an empty
`originalNodes` list, and record it in `compoundNodes`. -/
def freshCompound (h : Graph) : Graph :=
  let c := NId.auto h.nextN
  let h0 : Graph := { h with nextN := h.nextN + 1 }
  let h1 := h0.addNode c {}
  { h1 with compound := h1.compound.map (fun l => l ++ [c]) }

/-- Processing of one snapshot node by `combineRanks`: a node with a
`prefRank` is merged into the compound node of its class (created on
first sight and recorded in `compoundNodes`), its edges are redirected,
it is appended to the `originalNodes` of the compound, and it is removed
from the reduced graph. -/
def combineStep (s : Graph × List (PrefRank × NId)) (p : NId × NodeVal) :
    Graph × List (PrefRank × NId) :=
  match p.2.prefRank with
  | none => s
  | some pr =>
      let found := (s.2.find? (fun q => q.1 = pr)).map (fun q => q.2)
      let cst : NId × Graph × List (PrefRank × NId) :=
        match found with
        | some c => (c, s.1, s.2)
        | none =>
            let c := NId.auto s.1.nextN
            (c, freshCompound s.1, s.2 ++ [(pr, c)])
      let c := cst.1
      let h1 := redirectIn pr c cst.2.1 p.1
      let h2 := redirectOut pr c h1 p.1
      let h3 := h2.setNode c (fun v => { v with origNodes := v.origNodes ++ [p.1] })
      (h3.delNode p.1, cst.2.2)

/-- The zero-`minLen` edges from the "min" compound to every node and from
every node to the "max" compound. -/
def addMinMaxEdges (h : Graph) (pm : List (PrefRank × NId)) : Graph :=
  let h1 := match (pm.find? (fun q => q.1 = PrefRank.min)).map (fun q => q.2) with
    | some m => h.nodes.foldl (fun h2 p => h2.addEdgeAuto m p.1 { minLen := some 0 }) h
    | none => h
  match (pm.find? (fun q => q.1 = PrefRank.max)).map (fun q => q.2) with
  | some mx => h1.nodes.foldl (fun h2 p => h2.addEdgeAuto p.1 mx { minLen := some 0 }) h1
  | none => h1

/-- `combineRanks`: no-op without rank constraints; otherwise build the
condensed graph.  The final `acyclic` call is the spec-modelled stage,
parameterised by its chosen feedback set `flips2`. -/
def combineRanks (flips2 : List Nat) (g : Graph) : Graph :=
  if g.nodes.any (fun p => p.2.prefRank.isSome) then
    let g1 : Graph := { g with compound := some [] }
    let s := g1.nodes.foldl combineStep (g1, [])
    acyclicModel flips2 (addMinMaxEdges s.1 s.2)
  else g

/-- `expandRanks`: copy the rank assigned to each compound node to every
one of its original member nodes. -/
def expandRanks (reduced : Graph) (g : Graph) : Graph :=
  match reduced.compound with
  | some cs =>
      cs.foldl
        (fun h c =>
          match reduced.node? c with
          | some cv => cv.origNodes.foldl
              (fun h2 v => h2.setNode v (fun nv => { nv with rank := cv.rank })) h
          | none => h)
        g
  | none => g

/-- Undirected adjacency, for the connected-components helper. -/
def adjacent (g : Graph) (u : NId) : List NId :=
  ((g.edges.filter (fun e => e.src = u)).map (fun e => e.tgt)) ++
  ((g.edges.filter (fun e => e.tgt = u)).map (fun e => e.src))

/-- Fuel-bounded closure for one weakly-connected component. -/
def compGo (g : Graph) : Nat → List NId → List NId → List NId
  | 0, _, acc => acc
  | _ + 1, [], acc => acc
  | fuel + 1, u :: rest, acc =>
      if u ∈ acc then compGo g fuel rest acc
      else compGo g fuel (rest ++ adjacent g u) (acc ++ [u])

/-- Modelled from the spec: the graphlib `components` helper returns the
weakly-connected components of the graph; computed here by a bounded
closure, listing components in node insertion order. -/
def componentsOf (g : Graph) : List (List NId) :=
  let fuel := (g.nodes.length + 1) * (2 * g.edges.length + 2)
  (g.nodes.foldl
    (fun (s : List (List NId) × List NId) p =>
      if p.1 ∈ s.2 then s
      else
        let c := compGo g fuel [p.1] []
        (s.1 ++ [c], s.2 ++ c))
    ([], [])).1

/-- A collapsed multi-edge entry of `feasibleTree` (`minLen` array). -/
structure Mle where
  e : Nat
  u : NId
  v : NId
  len : Int
deriving DecidableEq, Repr

/-- Does the entry cover the unordered incidence pair of `u` and `v`
(the `incidenceId` grouping)? -/
def sameIncidence (m : Mle) (u v : NId) : Bool :=
  (m.u = u ∧ m.v = v) ∨ (m.u = v ∧ m.v = u)

/-- Collapse multi-edges: one entry per unordered incidence pair, created
with `len = 0` and raised to the maximum `minLen` over the group. -/
def buildMles (es : List Edge) : List Mle :=
  es.foldl
    (fun acc e =>
      let elen := e.val.minLen.getD 1
      if acc.any (fun m => sameIncidence m e.src e.tgt) then
        acc.map (fun m => if sameIncidence m e.src e.tgt
                          then { m with len := max m.len elen } else m)
      else acc ++ [⟨e.id, e.src, e.tgt, max 0 elen⟩])
    []

/-- `slack` in `feasibleTree`: absolute rank difference minus the entry
length, on the current ranks. -/
def mleSlack (h : Graph) (m : Mle) : Int :=
  |((h.rankOf m.u).getD 0) - ((h.rankOf m.v).getD 0)| - m.len

/-- A `findMinSlack` result: the tree-side node, the node to attach, and
the signed length to add to the rank of the tree node. -/
structure FtCand where
  treeNode : NId
  graphNode : NId
  len : Int
deriving DecidableEq, Repr

/-- `findMinSlack`: scan the entries, keeping the first strict minimum of
the slack among entries crossing the tree boundary. -/
def findMinSlack (h : Graph) (mles : List Mle) (remaining : List NId) :
    Option FtCand :=
  (mles.foldl
    (fun (s : Option FtCand × Option Int) m =>
      if decide (m.u ∈ remaining) ≠ decide (m.v ∈ remaining) then
        let sl := mleSlack h m
        let cand : FtCand :=
          if ¬ m.u ∈ remaining
          then ⟨m.u, m.v, m.len⟩
          else ⟨m.v, m.u, -m.len⟩
        match s.2 with
        | some best => if sl < best then (some cand, some sl) else s
        | none => (some cand, some sl)
      else s)
    (none, none)).1

/-- The growth loop of `feasibleTree`: attach the minimum-slack entry,
setting the rank of the attached node from the rank of its tree
neighbour; `none` models the crash on an unreachable node. -/
def ftLoop (mles : List Mle) : Nat → Graph → List NId → Option Graph
  | _, h, [] => some h
  | 0, _, _ => none
  | fuel + 1, h, remaining =>
      match findMinSlack h mles remaining with
      | none => none
      | some cand =>
          let r := ((h.rankOf cand.treeNode).getD 0) + cand.len
          let h1 := h.setNode cand.graphNode (fun v => { v with rank := some r })
          ftLoop mles fuel h1 (remaining.filter (fun x => ¬ x = cand.graphNode))

/-- `feasibleTree` on the subgraph induced by one component, keeping only
its effect on node ranks (the spanning tree itself is only consumed by
the network-simplex refinement, which the pipeline does not enable). -/
def feasibleTree (g : Graph) (cmpt : List NId) : Option Graph :=
  let ns := g.nodes.filter (fun p => p.1 ∈ cmpt)
  let mles := buildMles (g.edges.filter (fun e => e.src ∈ cmpt ∧ e.tgt ∈ cmpt))
  match ns with
  | [] => none
  | r :: _ =>
      let remaining := (ns.map (fun p => p.1)).filter (fun x => ¬ x = r.1)
      ftLoop mles remaining.length g remaining

/-- The rank normalization of rank.js: subtract the minimum rank within
the component. -/
def shiftComponent (g : Graph) (cmpt : List NId) : Graph :=
  let rs := (g.nodes.filter (fun p => p.1 ∈ cmpt)).map (fun p => (p.2.rank).getD 0)
  let m := rs.foldl min (rs.headD 0)
  { g with nodes := g.nodes.map (fun p =>
      if p.1 ∈ cmpt
      then (p.1, { p.2 with rank := p.2.rank.map (fun r => r - m) })
      else p) }

/-- Write the ranks produced by `initRank` into the node values. -/
def applyInitRanks (g : Graph) (f : NId → Option Int) : Graph :=
  { g with nodes := g.nodes.map (fun p =>
      match f p.1 with
      | some r => (p.1, { p.2 with rank := some r })
      | none => p) }

/-- The edge list as `initRank` reads it (`"minLen" in value` test). -/
def toREdges (g : Graph) : List (RankCore.REdge NId) :=
  g.edges.map (fun e => ⟨e.src, e.tgt, e.val.minLen.getD 1⟩)

/-- The Rank stage as invoked by `run` (`useSimplex` falsy).  The subgraph
filter at the head of `rank` is the identity on flat graphs.  `none`
models a fatal ranking error. -/
def rankStage (flips2 : List Nat) (g : Graph) : Option Graph :=
  let reduced := combineRanks flips2 g
  match RankCore.initRank (reduced.nodes.map (fun p => p.1)) (toREdges reduced) with
  | none => none
  | some f =>
      let r1 := applyInitRanks reduced f
      match (componentsOf r1).foldlM
          (fun h c => (feasibleTree h c).map (fun h1 => shiftComponent h1 c)) r1 with
      | none => none
      | some r2 =>
          let g1 : Graph := { g with nodes := g.nodes.map (fun p =>
            match r2.node? p.1 with
            | some nv => (p.1, nv)
            | none => p) }
          some (expandRanks r2 g1)

/-! ## The full pipeline (`run`) -/

/-- Modelled from the spec: the external `order` stage permutes nodes
within ranks and records order attributes; it writes no attribute read by
any modelled claim, so it is the identity here. -/
def orderModel (g : Graph) : Graph := g

/-- Modelled from the spec: the external `position` stage assigns the
`x`/`y` coordinates from the computed ranks and separations.  No modelled
claim depends on the coordinate values, so a simple representative
assignment is used. -/
def positionModel (g : Graph) : Graph :=
  { g with nodes := g.nodes.map (fun p =>
      (p.1, { p.2 with x := 0, y := (p.2.rank.getD 0) })) }

/-- The early-exit value of `run` on an empty build result: the internal
working digraph itself (hence directed, whatever the input was). -/
def digraphAsOut (g : Graph) : OutGraph :=
  { directed := true, nodes := g.nodes, compound := g.compound,
    edges := g.edges.map (fun e => (OutEId.internal e.id, e.src, e.tgt, e.val)) }

/-- The body of `run` (the `try` block): build, early exit on an empty
graph, double `minLen`, halve `rankSep` (state restored by the caller),
break cycles, dedupe undirected edges, rank, normalize, order, position,
denormalize, fix up points, restore edge orientation, emit. -/
def runBody (flips flips2 : List Nat) (ig : InputGraph) :
    Except String OutGraph :=
  let g := initLayoutGraph ig
  if g.nodes.length = 0 then Except.ok (digraphAsOut g)
  else
    let g := doubleMinLen g
    let g := acyclicModel flips g
    let g := if ¬ig.directed then removeDupEdges g else g
    match rankStage flips2 g with
    | none => Except.error "Input graph is not acyclic"
    | some g =>
        let g := normalize g
        let g := orderModel g
        let g := positionModel g
        let g := undoNormalize g
        let g := fixupEdgePoints g
        let g := acyclicUndoModel g
        Except.ok (createFinalGraph g ig.directed)

/-- `run` with its `try`/`finally`: the result of the body together with
the final value of the `rankSep` configuration, which the `finally`
clause restores to its entry value on every exit path. -/
def run (flips flips2 : List Nat) (rankSep : Int) (ig : InputGraph) :
    Except String OutGraph × Int :=
  (runBody flips flips2 ig, rankSep)

end Dagre

/-! ## The network-simplex pivot: `enterEdge`

`enterEdge(graph, tree, e)` receives a leaving tree edge `e` (present in
both the tree and the graph under the same id, possibly with opposite
orientation) on a tree whose nodes carry the `low`/`lim` postorder labels
and the current ranks.  The tree and the graph share their node values,
so a single node-attribute list serves both. -/

namespace Simplex

/-- The node attributes `enterEdge` reads: current rank and the
`low`/`lim` postorder labels. -/
structure SNode where
  rank : Int := 0
  low : Nat := 0
  lim : Nat := 0
deriving DecidableEq, Repr

/-- A graph edge as `enterEdge` reads it; `minLen` is `none` when the
value has no such property. -/
structure SEdge where
  id : Nat
  u : Nat
  v : Nat
  minLen : Option Int := none
deriving DecidableEq, Repr

/-- Attribute lookup (nodes are present on all reachable states). -/
def nodeAttr (ns : List (Nat × SNode)) (n : Nat) : SNode :=
  ((ns.find? (fun p => p.1 = n)).map (fun p => p.2)).getD {}

/-- `inSubtree(tree, n, root)`: the `low`/`lim` ancestor test. -/
def inSubtree (ns : List (Nat × SNode)) (n root : Nat) : Bool :=
  (nodeAttr ns root).low ≤ (nodeAttr ns n).lim ∧
  (nodeAttr ns n).lim ≤ (nodeAttr ns root).lim

/-- The slack computed inside `enterEdge`: absolute rank difference minus
`value.minLen || 1` (so an explicit 0 also reads as 1). -/
def eSlack (ns : List (Nat × SNode)) (d : SEdge) : Int :=
  |(nodeAttr ns d.u).rank - (nodeAttr ns d.v).rank| -
    (match d.minLen with
     | some m => if m = 0 then 1 else m
     | none => 1)

/-- One step of the `eachEdge` scan of `enterEdge`: keep the first strict
minimum of the slack among edges satisfying `keep`. -/
def scanStep (ns : List (Nat × SNode)) (keep : SEdge → Bool)
    (s : Option Nat × Option Int) (d : SEdge) : Option Nat × Option Int :=
  if keep d then
    let sl := eSlack ns d
    match s.2 with
    | some best => if sl < best then (some d.id, some sl) else s
    | none => (some d.id, some sl)
  else s

/-- One `eachEdge` scan keeping the first strict minimum of the slack
among edges satisfying `keep`. -/
def minSlackScan (ns : List (Nat × SNode)) (keep : SEdge → Bool)
    (gEdges : List SEdge) : Option Nat :=
  (gEdges.foldl (scanStep ns keep) (none, none)).1

/-- The crossing test used when the leaving tree edge is aligned with its
graph edge: from inside the lower subtree to outside. -/
def crossAligned (ns : List (Nat × SNode)) (lower : Nat) (eId : Nat)
    (d : SEdge) : Bool :=
  !(decide (d.id = eId)) && inSubtree ns d.u lower && !(inSubtree ns d.v lower)

/-- The crossing test used when the leaving tree edge is anti-aligned:
from outside the lower subtree to inside. -/
def crossAnti (ns : List (Nat × SNode)) (lower : Nat) (eId : Nat)
    (d : SEdge) : Bool :=
  !(decide (d.id = eId)) && !(inSubtree ns d.u lower) && inSubtree ns d.v lower

/-- The crossing predicate `enterEdge` scans with, given the graph edge
`ge` underlying the leaving tree edge: inside-to-outside of the lower
subtree when the tree edge is aligned with `ge`, outside-to-inside
otherwise. -/
def enterKeep (ns : List (Nat × SNode)) (treeSrc treeTgt eId : Nat)
    (ge : SEdge) : SEdge → Bool :=
  let lower := if (nodeAttr ns treeTgt).lim < (nodeAttr ns treeSrc).lim
               then treeTgt else treeSrc
  if treeSrc = ge.u then crossAligned ns lower eId else crossAnti ns lower eId

/-- `enterEdge`: take the endpoint of the leaving edge with the smaller
`lim` as the lower subtree root, scan for the minimum-slack crossing edge
in the direction selected by the alignment of the leaving edge, and fail
(`throw new Error("No edge found from outside of tree to inside")`) when
the scan finds nothing. -/
def enterEdge (ns : List (Nat × SNode)) (gEdges : List SEdge)
    (treeSrc treeTgt eId : Nat) : Except Unit Nat :=
  match gEdges.find? (fun d => d.id = eId) with
  | none => Except.error ()
  | some ge =>
      match minSlackScan ns (enterKeep ns treeSrc treeTgt eId ge) gEdges with
      | some i => Except.ok i
      | none => Except.error ()

/-- The crossing direction asserted by the specification (for comparison
with the code): "from outside that subtree to inside when the tree edge
is aligned with its graph edge; otherwise from inside to outside". -/
def specCross (ns : List (Nat × SNode)) (lower : Nat) (eId : Nat)
    (aligned : Bool) (d : SEdge) : Bool :=
  if aligned then crossAnti ns lower eId d else crossAligned ns lower eId d

end Simplex

/-! ## Concrete instances used by the theorems below -/

namespace Dagre

/-- A ranked working graph with two nodes `a` at rank 0 and `b` at rank
`n`, joined by edge 0, as `normalize` receives it. -/
def spanW (n : Int) : Graph :=
  ((({} : Graph).addNode (NId.orig "a") { rank := some 0 }).addNode
      (NId.orig "b") { rank := some (n) }).addEdgeAuto
    (NId.orig "a") (NId.orig "b") { e := some "e1", minLen := some n }

/-- A working graph (minLen already doubled by `run`) on which the Rank
stage produces an infeasible ranking: the feasible-tree pass attaches `d`
through the slack-4 entry `a, d` before the tight entries are reachable,
pulling `d` and then `b` below the rank of `c`. -/
def c1W : Graph :=
  let g0 := (((({} : Graph).addNode (NId.orig "a") {}).addNode
    (NId.orig "b") {}).addNode (NId.orig "c") {}).addNode (NId.orig "d") {}
  (((g0.addEdgeAuto (NId.orig "a") (NId.orig "d") { minLen := some 2 }).addEdgeAuto
      (NId.orig "b") (NId.orig "d") { minLen := some 4 }).addEdgeAuto
      (NId.orig "c") (NId.orig "d") { minLen := some 2 }).addEdgeAuto
    (NId.orig "c") (NId.orig "b") { minLen := some 2 }

/-- A single edge of `minLen` 2: after doubling it spans 4 ranks, so
`normalize` inserts three dummies and only the two carrying an `index`
are removed again. -/
def c2In : InputGraph :=
  { directed := true,
    nodes := [("a", {}), ("b", {})],
    edges := [{ id := "e1", src := "a", tgt := "b", minLen := some 2 }] }

/-- A path `a b c d` with a shortcut `a d`: after doubling, the shortcut
spans 6 ranks, and the two chain edges between its three interior
(unindexed) dummies survive the pipeline. -/
def c3In : InputGraph :=
  { directed := true,
    nodes := [("a", {}), ("b", {}), ("c", {}), ("d", {})],
    edges := [{ id := "e1", src := "a", tgt := "b", minLen := some 1 },
              { id := "e2", src := "b", tgt := "c", minLen := some 1 },
              { id := "e3", src := "c", tgt := "d", minLen := some 1 },
              { id := "e4", src := "a", tgt := "d", minLen := some 1 }] }

/-- A single default edge, for observing the configuration handling of
`run`. -/
def c6In : InputGraph :=
  { directed := true,
    nodes := [("a", {}), ("b", {})],
    edges := [{ id := "e1", src := "a", tgt := "b", minLen := some 1 }] }

/-- The empty undirected input graph. -/
def c10In : InputGraph :=
  { directed := false, nodes := [], edges := [] }

end Dagre

namespace Simplex

/-- Tree node attributes for the `enterEdge` instance: root 1 with
children 2 and 3 (postorder lims 0, 1, 2), ranks 0, 1, 1. -/
def nsC8 : List (Nat × SNode) :=
  [(1, ⟨0, 0, 2⟩), (2, ⟨1, 0, 0⟩), (3, ⟨1, 1, 1⟩)]

/-- Graph edges for the `enterEdge` instance: the leaving tree edge 0 from
1 to 2 (aligned), a second tree edge 1 from 1 to 3, and the non-tree edge
2 from 2 to 3. -/
def geC8 : List SEdge :=
  [⟨0, 1, 2, some 1⟩, ⟨1, 1, 3, some 1⟩, ⟨2, 2, 3, some 1⟩]

end Simplex

namespace Dagre

/-! ### Specification devices for the rank-constraint proofs -/

/-- The members of one `prefRank` class among a node list, in order. -/
def classMembers (pr : PrefRank) (l : List (NId × NodeVal)) : List NId :=
  (l.filter (fun p => p.2.prefRank = some pr)).map (fun p => p.1)

/-- The `originalNodes` list of a compound node of `g` (empty when the
node is absent). -/
def origOf (g : Graph) (c : NId) : List NId :=
  ((g.node? c).map (fun cv => cv.origNodes)).getD []

/-- Two node entries that agree except possibly in their `rank` field. -/
def ValueRankOnly (p q : NId × NodeVal) : Prop :=
  q.1 = p.1 ∧ q.2 = { p.2 with rank := q.2.rank }

/-- `g2` is `g` with only node ranks changed (the node list keeps its keys
and all other value fields, and the graph attributes are kept): what the
ranking phases between `combineRanks` and `expandRanks` do to the node
set. -/
def RankOnly (g g2 : Graph) : Prop :=
  List.Forall₂ ValueRankOnly g.nodes g2.nodes ∧ g2.compound = g.compound

/-- The invariant of the `combineRanks` member-merging fold: `done` is the
prefix of the node snapshot already processed.  The compound map keys are
distinct and value-injective; every compound is a fresh auto node recorded
in `compoundNodes` whose `originalNodes` are exactly the processed members
of its class; processed members are deleted; classes without a compound
have no processed members; every node key is an original name or a
compound below the id counter. -/
def CombInv (done : List (NId × NodeVal)) (s : Graph × List (PrefRank × NId)) : Prop :=
  ((s.2.map (fun q => q.1)).Nodup) ∧
  (∀ q1 q2, q1 ∈ s.2 → q2 ∈ s.2 → q1.2 = q2.2 → q1.1 = q2.1) ∧
  (∀ pr c, (pr, c) ∈ s.2 →
     (∃ n, c = NId.auto n ∧ n < s.1.nextN) ∧
     (∃ cl, s.1.compound = some cl ∧ c ∈ cl) ∧
     (∃ cv, s.1.node? c = some cv ∧ cv.origNodes = classMembers pr done)) ∧
  (∀ p, p ∈ done → p.2.prefRank.isSome = true → s.1.node? p.1 = none) ∧
  (∀ pr, (∀ q, q ∈ s.2 → ¬ q.1 = pr) → classMembers pr done = []) ∧
  (∃ cl0, s.1.compound = some cl0) ∧
  (∀ p, p ∈ s.1.nodes → (∃ str, p.1 = NId.orig str) ∨ (∃ n, p.1 = NId.auto n ∧ n < s.1.nextN)) ∧
  (∀ cl, s.1.compound = some cl → ∀ c2, c2 ∈ cl → ∃ pr2, (pr2, c2) ∈ s.2)

/-- The two-node one-class input for the rank-constraint witness:
nodes `a` and `b` both carry `prefRank = 0`. -/
def c9In : Graph :=
  { nodes := [(NId.orig "a", { prefRank := some (PrefRank.int 0) }),
              (NId.orig "b", { prefRank := some (PrefRank.int 0) })] }

/-- The polyline-index tag of the dummy at rank `r`, chain position `i`,
as `normalize` computes it. -/
def chainIdx (tr r : Int) (i : Nat) : Option Nat :=
  if i = 0 then some 0 else if r + 1 = tr then some 1 else none

/-- The node entries a dummy chain inserts: `k` dummies continuing at
rank `r`, chain position `i`, dummy counter `c`. -/
def chainNodes (e : Edge) (tr : Int) : Nat → Int → Nat → Nat → List (NId × NodeVal)
  | 0, _, _, _ => []
  | k + 1, r, i, c =>
      (NId.dum (c + 1), dummyVal e r (chainIdx tr r i))
        :: chainNodes e tr k (r + 1) (i + 1) (c + 1)

/-- The edges a dummy chain inserts: from `u` through the `k` dummies
numbered from `c + 1` to the target, with ids from `nE`. -/
def chainEdges (tgt : NId) : Nat → NId → Nat → Nat → List Edge
  | 0, u, _, nE => [⟨nE, u, tgt, {}⟩]
  | k + 1, u, c, nE =>
      ⟨nE, u, NId.dum (c + 1), {}⟩ :: chainEdges tgt k (NId.dum (c + 1)) (c + 1) (nE + 1)

/-- The running invariant of the `normalize` fold, relative to the input
graph `g` and the still-unprocessed snapshot suffix `rest`: nodes are the
original ones plus dummies (keyed below the counter, each carrying a back
reference to an already-processed edge), the id counter has not decreased,
unprocessed edges are still present, and edges with original ids are
original. -/
def NormPre (g : Graph) (rest : List Edge) (s : Graph × Nat) : Prop :=
  (∃ add, s.1.nodes = g.nodes ++ add ∧
      ∀ p ∈ add, (∃ n, p.1 = NId.dum n ∧ n ≤ s.2) ∧ p.2.dummy = true ∧
        (∃ er2, p.2.edge = some er2 ∧ er2.id < g.nextE
          ∧ ∀ e3 ∈ rest, ¬ er2.id = e3.id)) ∧
  g.nextE ≤ s.1.nextE ∧
  (∀ e2 ∈ rest, e2 ∈ s.1.edges) ∧
  (∀ e2 ∈ s.1.edges, e2.id < g.nextE → e2 ∈ g.edges)

/-- What `normalize` has done about one snapshot edge `e` of rank span
`tr - sr`, once `e` has been processed: a span-one edge survives intact
and uniquely owns its id; a longer edge is deleted and replaced by its
dummy chain (the surrounding node entries are dummies of other edges,
with keys outside the chain's key interval). -/
def NormDone (g : Graph) (e : Edge) (sr tr : Int) (s : Graph × Nat) : Prop :=
  (g.nextE ≤ s.1.nextE) ∧
  (¬ sr + 1 < tr →
    e ∈ s.1.edges ∧ (∀ e2 ∈ s.1.edges, e2.id = e.id → e2 = e) ∧
    (∃ add, s.1.nodes = g.nodes ++ add ∧
      ∀ p ∈ add, (∃ n, p.1 = NId.dum n) ∧ p.2.dummy = true ∧
        (∃ er2, p.2.edge = some er2 ∧ ¬ er2.id = e.id))) ∧
  (sr + 1 < tr →
    ∃ (c k : Nat) (add1 add2 : List (NId × NodeVal)),
      ((k : Nat) : Int) = tr - sr - 1 ∧ 1 ≤ k ∧ c + k ≤ s.2 ∧
      s.1.nodes = g.nodes ++ add1 ++ chainNodes e tr k (sr + 1) 0 c ++ add2 ∧
      (∀ p ∈ add1, (∃ n, p.1 = NId.dum n ∧ n ≤ c) ∧ p.2.dummy = true ∧
        (∃ er2, p.2.edge = some er2 ∧ ¬ er2.id = e.id)) ∧
      (∀ p ∈ add2, (∃ n, p.1 = NId.dum n ∧ c + k < n ∧ n ≤ s.2) ∧ p.2.dummy = true ∧
        (∃ er2, p.2.edge = some er2 ∧ ¬ er2.id = e.id)) ∧
      (∀ e2 ∈ s.1.edges, ¬ e2.id = e.id) ∧
      (∃ i, g.nextE ≤ i ∧ (⟨i, e.src, NId.dum (c + 1), {}⟩ : Edge) ∈ s.1.edges) ∧
      (∀ j : Nat, j + 2 ≤ k → ∃ i, g.nextE ≤ i ∧
        (⟨i, NId.dum (c + 1 + j), NId.dum (c + 2 + j), {}⟩ : Edge) ∈ s.1.edges) ∧
      (∃ i, g.nextE ≤ i ∧ (⟨i, NId.dum (c + k), e.tgt, {}⟩ : Edge) ∈ s.1.edges))

/-- No edge of `h` carries id `i`. -/
def NoEdgeId (i : Nat) (h : Graph) : Prop := ∀ e2 ∈ h.edges, ¬ e2.id = i

/-- Some edge of `h` carries id `i`, and every such edge runs from `u` to
`v` with value `val`. -/
def UniqEdge (i : Nat) (u v : NId) (val : EdgeVal) (h : Graph) : Prop :=
  (∃ e2 ∈ h.edges, e2.id = i) ∧
  (∀ e2 ∈ h.edges, e2.id = i → e2.src = u ∧ e2.tgt = v ∧ e2.val = val)

/-- A snapshot node entry whose `undoNormalize` processing cannot affect
the edge of id `i`: a non-dummy node, or a dummy (necessarily keyed by a
dummy name) whose indexed back reference points at a different edge. -/
def HarmlessFor (i : Nat) (p : NId × NodeVal) : Prop :=
  p.2.dummy = false ∨
  ((∃ n, p.1 = NId.dum n) ∧
   (∀ idx er2, p.2.index = some idx → p.2.edge = some er2 → ¬ er2.id = i))

/-- The two-node span-3 input for the Normalize/Denormalize witnesses. -/
def c4In : Graph :=
  { nodes := [(NId.orig "a", { rank := some 0 }), (NId.orig "b", { rank := some 3 })],
    edges := [⟨0, NId.orig "a", NId.orig "b", {}⟩],
    nextE := 1 }

end Dagre

/-! # Theorems

The remainder of the file is the verification itself: helper lemmas first,
then one theorem per settled claim (with a witness where the theorem has
hypotheses). -/

namespace RankCore

variable {α : Type} [DecidableEq α]

theorem pqMinFrom_mem (x : α × Nat) (xs : List (α × Nat)) :
    pqMinFrom x xs = x ∨ pqMinFrom x xs ∈ xs := by
  induction xs generalizing x with
  | nil => exact Or.inl rfl
  | cons y ys ih =>
    have h := ih (if y.2 < x.2 then y else x)
    simp only [pqMinFrom, List.foldl_cons] at *
    rcases h with h | h
    · rw [h]
      by_cases hy : y.2 < x.2 <;> simp [hy]
    · exact Or.inr (List.mem_cons_of_mem _ h)

theorem pqMin_mem {pq : List (α × Nat)} {x : α × Nat}
    (h : pqMin pq = some x) : x ∈ pq := by
  cases pq with
  | nil => simp [pqMin] at h
  | cons y ys =>
    simp only [pqMin, Option.some.injEq] at h
    rcases pqMinFrom_mem y ys with h' | h' <;> rw [← h] at * <;>
      simp_all [pqMinFrom]

theorem pqRemove_length_lt {u : α} {p : Nat} {pq : List (α × Nat)}
    (h : (u, p) ∈ pq) : (pqRemove u pq).length < pq.length := by
  induction pq with
  | nil => cases h
  | cons y ys ih =>
    rcases List.mem_cons.mp h with rfl | h'
    · simp only [pqRemove, List.filter_cons]
      rw [if_neg (by simp)]
      exact Nat.lt_succ_of_le (List.length_filter_le _ _)
    · simp only [pqRemove, List.filter_cons] at *
      by_cases hy : y.1 = u
      · rw [if_neg (by simp [hy])]
        exact Nat.lt_succ_of_lt (ih h')
      · rw [if_pos (by simp [hy])]
        simpa using Nat.succ_lt_succ (ih h')

theorem pqDec_length (v : α) (pq : List (α × Nat)) :
    (pqDec v pq).length = pq.length := by
  simp [pqDec]

theorem pushFold_length (ru : Int) (es : List (REdge α)) (mr : α → Int)
    (pq : List (α × Nat)) :
    ((es.foldl (pushEdge ru) (mr, pq)).2).length = pq.length := by
  induction es generalizing mr pq with
  | nil => rfl
  | cons e es ih =>
    simp only [List.foldl_cons, pushEdge]
    exact (ih _ _).trans (pqDec_length _ _)

theorem step_pq_length {edges : List (REdge α)} {u : α} {p : Nat}
    {st : St α} (h : (u, p) ∈ st.pq) :
    (step edges u st).pq.length < st.pq.length := by
  simp only [step]
  rw [pushFold_length]
  exact pqRemove_length_lt h

end RankCore

/-! ## Concrete claim theorems -/

/-- Claim C1, counterexample: on the working graph `c1W` the Rank stage
succeeds but the ranking it leaves is not feasible: edge `c, b` has
`minLen` 2 yet ends with rank(c) = 2 and rank(b) = 0, so not every edge
of the ranked working graph satisfies rank(v) - rank(u) >= minLen(u, v). -/
theorem rank_stage_infeasible_cex :
    (Dagre.rankStage [] Dagre.c1W).map
        (fun g => g.edges.all (fun e =>
          match g.rankOf e.src, g.rankOf e.tgt, e.val.minLen with
          | some a, some b, some m => decide (b - a ≥ m)
          | _, _, _ => false)) = some false
    ∧ (Dagre.rankStage [] Dagre.c1W).map
        (fun g => (g.rankOf (Dagre.NId.orig "c"), g.rankOf (Dagre.NId.orig "b")))
        = some (some 2, some 0)
    ∧ (Dagre.c1W.edges.filter (fun e =>
          decide (e.src = Dagre.NId.orig "c") && decide (e.tgt = Dagre.NId.orig "b"))).map
        (fun e => e.val.minLen) = [some 2] := by
  exact ⟨by decide, by decide, by decide⟩

/-- Claim C2: after the full pipeline on the single-edge input `c2In`
(minLen 2, doubled to 4 by `run`), the interior dummy node of the
three-dummy chain carries no `index`, is skipped by `undoNormalize`, and
survives into the output graph with `dummy = true`. -/
theorem pipeline_dummy_survives :
    ((Dagre.run [] [] 50 Dagre.c2In).1.toOption.map
        (fun o => (o.nodes.filter (fun p => p.2.dummy)).map (fun p => p.1)))
      = some [Dagre.NId.dum 2] := by decide

/-- Claim C3: on the directed input `c3In` the output edge set does not
equal the input edge set: besides the four original edges the output
keeps two internal chain edges joining the surviving unindexed dummies
of the six-rank edge `e4`. -/
theorem pipeline_edge_set_leak :
    ((Dagre.run [] [] 50 Dagre.c3In).1.toOption.map
        (fun o => o.edges.map (fun q => q.1)))
      = some [Dagre.OutEId.internal 12, Dagre.OutEId.internal 13,
              Dagre.OutEId.orig "e1", Dagre.OutEId.orig "e2",
              Dagre.OutEId.orig "e3", Dagre.OutEId.orig "e4"]
    ∧ Dagre.c3In.edges.map (fun e => e.id) = ["e1", "e2", "e3", "e4"] := by
  exact ⟨by decide, by decide⟩

/-- Claim C5, counterexample: for the rank-3 span edge of `spanW 3`,
dummies marked `index` 0 and 1 both exist, so the claimed formula gives
`points.length` = max(0, 3 - 1) + 2 = 4, but after `undoNormalize` the
points list of the edge has length 2. -/
theorem points_length_formula_cex :
    ((Dagre.undoNormalize (Dagre.normalize (Dagre.spanW 3))).edge? 0).map
        (fun v => v.points.length) = some 2
    ∧ ((Dagre.normalize (Dagre.spanW 3)).nodes.filter
        (fun p => p.2.dummy && decide (p.2.index = some 0))).length = 1
    ∧ ((Dagre.normalize (Dagre.spanW 3)).nodes.filter
        (fun p => p.2.dummy && decide (p.2.index = some 1))).length = 1
    ∧ ¬ ((2 : Int) = max 0 (3 - 1) + 2) := by
  exact ⟨by decide, by decide, by decide, by decide⟩

/-- Claim C6, counterexample: `run` on the single default edge `c6In`
restores `rankSep` but not `minLen`: the returned edge carries the
doubled `minLen` 2 although the input edge had `minLen` 1, so the doubled
`minLen` is not restored to its original value on the successful exit
path. -/
theorem minLen_not_restored_cex :
    ((Dagre.run [] [] 50 Dagre.c6In).1.toOption.map
        (fun o => o.edges.map (fun q => (q.1, q.2.2.2.minLen))))
      = some [(Dagre.OutEId.orig "e1", some 2)]
    ∧ Dagre.c6In.edges.map (fun e => e.minLen) = [some 1]
    ∧ (Dagre.run [] [] 50 Dagre.c6In).2 = 50 := by
  exact ⟨by decide, by decide, rfl⟩

/-- Claim C6, amended: on every exit path of `run` the halved `rankSep` is
restored to its entry value (the `finally` clause), while the doubled
`minLen` is never restored: it persists on the working copies and hence
in the returned graph (here 2 for an input edge of `minLen` 1); the input
graph itself is unaffected because Build copies every edge value. -/
theorem rankSep_restored_minLen_persists :
    (∀ (flips flips2 : List Nat) (rs : Int) (ig : Dagre.InputGraph),
        (Dagre.run flips flips2 rs ig).2 = rs)
    ∧ Dagre.c6In.edges.all (fun e => e.minLen = some 1) = true
    ∧ ((Dagre.run [] [] 50 Dagre.c6In).1.toOption.map
        (fun o => o.edges.map (fun q => q.2.2.2.minLen))) = some [some 2] := by
  exact ⟨fun _ _ _ _ => rfl, by decide, by decide⟩

/-- Claim C8, counterexample: with leaving tree edge 0 (aligned, lower
subtree root 2), `enterEdge` returns the inside-to-outside edge 2 even
though no edge crosses from outside the lower subtree to inside it, so
it neither picks among the crossing edges the claim describes nor raises
the fatal error the claim requires in their absence. -/
theorem enterEdge_direction_cex :
    (Simplex.enterEdge Simplex.nsC8 Simplex.geC8 1 2 0).toOption = some 2
    ∧ Simplex.geC8.filter (Simplex.specCross Simplex.nsC8 2 0 true) = []
    ∧ ((Simplex.geC8.find? (fun d => d.id = 0)).map (fun d => d.u)) = some 1
    ∧ (Simplex.nodeAttr Simplex.nsC8 2).lim < (Simplex.nodeAttr Simplex.nsC8 1).lim := by
  exact ⟨by decide, by decide, by decide, by decide⟩

/-- Claim C10: on an input with no nodes `run` returns right after the
Build stage: the result is the internal working digraph built by
`initLayoutGraph` (directed even for an undirected input), no later stage
runs on it, and `rankSep` is left restored. -/
theorem run_empty_early_exit (flips flips2 : List Nat) (rs : Int)
    (ig : Dagre.InputGraph) (hn : ig.nodes = []) (he : ig.edges = []) :
    (Dagre.run flips flips2 rs ig).1
        = Except.ok (Dagre.digraphAsOut (Dagre.initLayoutGraph ig))
    ∧ (Dagre.digraphAsOut (Dagre.initLayoutGraph ig)).directed = true
    ∧ (Dagre.initLayoutGraph ig).nodes = []
    ∧ (Dagre.initLayoutGraph ig).edges = []
    ∧ (Dagre.run flips flips2 rs ig).2 = rs := by
  have h1 : Dagre.initLayoutGraph ig = {} := by
    simp [Dagre.initLayoutGraph, hn, he]
  refine ⟨?_, rfl, by simp [h1], by simp [h1], rfl⟩
  show (Dagre.runBody flips flips2 ig) = _
  rw [Dagre.runBody, h1]
  simp

/-- Witness for C10 at the empty undirected input. -/
theorem run_empty_early_exit_witness :
    (Dagre.run [] [] 7 Dagre.c10In).1
        = Except.ok (Dagre.digraphAsOut (Dagre.initLayoutGraph Dagre.c10In))
    ∧ (Dagre.digraphAsOut (Dagre.initLayoutGraph Dagre.c10In)).directed = true
    ∧ (Dagre.initLayoutGraph Dagre.c10In).nodes = []
    ∧ (Dagre.initLayoutGraph Dagre.c10In).edges = []
    ∧ (Dagre.run [] [] 7 Dagre.c10In).2 = 7 :=
  run_empty_early_exit [] [] 7 Dagre.c10In rfl rfl

namespace Simplex

theorem scan_go_some (ns : List (Nat × SNode)) (keep : SEdge → Bool)
    (L : List SEdge) : ∀ (i : Nat) (sl : Int),
    ∃ j sl2, L.foldl (scanStep ns keep) (some i, some sl) = (some j, some sl2) ∧
      sl2 ≤ sl ∧
      ((j = i ∧ sl2 = sl) ∨ ∃ d, d ∈ L ∧ keep d = true ∧ d.id = j ∧ eSlack ns d = sl2) ∧
      (∀ d, d ∈ L → keep d = true → sl2 ≤ eSlack ns d) := by
  induction L with
  | nil =>
    intro i sl
    exact ⟨i, sl, rfl, le_refl _, Or.inl ⟨rfl, rfl⟩, fun d hd => by cases hd⟩
  | cons d L ih =>
    intro i sl
    by_cases hk : keep d = true
    · by_cases hlt : eSlack ns d < sl
      · obtain ⟨j, sl2, hfold, hle, hor, hall⟩ := ih d.id (eSlack ns d)
        refine ⟨j, sl2, ?_, hle.trans hlt.le, ?_, ?_⟩
        · simpa [List.foldl_cons, scanStep, hk, hlt] using hfold
        · rcases hor with ⟨rfl, rfl⟩ | ⟨d2, hd2, h1, h2, h3⟩
          · exact Or.inr ⟨d, List.mem_cons_self _ _, hk, rfl, rfl⟩
          · exact Or.inr ⟨d2, List.mem_cons_of_mem _ hd2, h1, h2, h3⟩
        · intro d2 hd2 hk2
          rcases List.mem_cons.mp hd2 with rfl | hd2
          · exact hle
          · exact hall d2 hd2 hk2
      · obtain ⟨j, sl2, hfold, hle, hor, hall⟩ := ih i sl
        refine ⟨j, sl2, ?_, hle, ?_, ?_⟩
        · simpa [List.foldl_cons, scanStep, hk, hlt] using hfold
        · rcases hor with ⟨rfl, rfl⟩ | ⟨d2, hd2, h1, h2, h3⟩
          · exact Or.inl ⟨rfl, rfl⟩
          · exact Or.inr ⟨d2, List.mem_cons_of_mem _ hd2, h1, h2, h3⟩
        · intro d2 hd2 hk2
          rcases List.mem_cons.mp hd2 with rfl | hd2
          · exact hle.trans (not_lt.mp hlt)
          · exact hall d2 hd2 hk2
    · obtain ⟨j, sl2, hfold, hle, hor, hall⟩ := ih i sl
      refine ⟨j, sl2, ?_, hle, ?_, ?_⟩
      · simpa [List.foldl_cons, scanStep, hk] using hfold
      · rcases hor with ⟨rfl, rfl⟩ | ⟨d2, hd2, h1, h2, h3⟩
        · exact Or.inl ⟨rfl, rfl⟩
        · exact Or.inr ⟨d2, List.mem_cons_of_mem _ hd2, h1, h2, h3⟩
      · intro d2 hd2 hk2
        rcases List.mem_cons.mp hd2 with rfl | hd2
        · exact absurd hk2 (by simpa using hk)
        · exact hall d2 hd2 hk2

theorem scan_go_none (ns : List (Nat × SNode)) (keep : SEdge → Bool)
    (L : List SEdge) (h : ∀ d ∈ L, keep d = false) :
    L.foldl (scanStep ns keep) (none, none) = (none, none) := by
  induction L with
  | nil => rfl
  | cons d L ih =>
    have hd := h d (List.mem_cons_self _ _)
    simp only [List.foldl_cons, scanStep, hd]
    exact ih (fun d2 hd2 => h d2 (List.mem_cons_of_mem _ hd2))

theorem minSlackScan_spec (ns : List (Nat × SNode)) (keep : SEdge → Bool)
    (L : List SEdge) :
    (minSlackScan ns keep L = none ↔ ∀ d ∈ L, keep d = false)
    ∧ ∀ i, minSlackScan ns keep L = some i →
        ∃ d, d ∈ L ∧ keep d = true ∧ d.id = i ∧
          ∀ d2, d2 ∈ L → keep d2 = true → eSlack ns d ≤ eSlack ns d2 := by
  induction L with
  | nil =>
    constructor
    · constructor
      · intro _ d hd; cases hd
      · intro _; rfl
    · intro i h; cases h
  | cons d L ih =>
    by_cases hk : keep d = true
    · have hstep : minSlackScan ns keep (d :: L)
          = (L.foldl (scanStep ns keep) (some d.id, some (eSlack ns d))).1 := by
        simp [minSlackScan, List.foldl_cons, scanStep, hk]
      obtain ⟨j, sl2, hfold, hle, hor, hall⟩ := scan_go_some ns keep L d.id (eSlack ns d)
      constructor
      · constructor
        · intro h
          rw [hstep, hfold] at h
          cases h
        · intro h
          exact absurd hk (by simpa using h d (List.mem_cons_self _ _))
      · intro i h
        rw [hstep, hfold] at h
        cases h
        rcases hor with ⟨rfl, rfl⟩ | ⟨d2, hd2, h1, h2, h3⟩
        · refine ⟨d, List.mem_cons_self _ _, hk, rfl, ?_⟩
          intro d2 hd2 hk2
          rcases List.mem_cons.mp hd2 with rfl | hd2
          · exact le_refl _
          · exact hall d2 hd2 hk2
        · refine ⟨d2, List.mem_cons_of_mem _ hd2, h1, h2, ?_⟩
          intro d3 hd3 hk3
          rw [h3]
          rcases List.mem_cons.mp hd3 with rfl | hd3
          · exact hle
          · exact hall d3 hd3 hk3
    · have hstep : minSlackScan ns keep (d :: L) = minSlackScan ns keep L := by
        simp [minSlackScan, List.foldl_cons, scanStep, hk]
      constructor
      · rw [hstep]
        constructor
        · intro h d2 hd2
          rcases List.mem_cons.mp hd2 with rfl | hd2
          · simpa using hk
          · exact (ih.1.mp h) d2 hd2
        · intro h
          exact ih.1.mpr (fun d2 hd2 => h d2 (List.mem_cons_of_mem _ hd2))
      · intro i h
        rw [hstep] at h
        obtain ⟨d2, hd2, h1, h2, h3⟩ := ih.2 i h
        refine ⟨d2, List.mem_cons_of_mem _ hd2, h1, h2, ?_⟩
        intro d3 hd3 hk3
        rcases List.mem_cons.mp hd3 with rfl | hd3
        · exact absurd hk3 (by simpa using hk)
        · exact h3 d3 hd3 hk3

/-- Claim C8, amended: given the graph edge `ge` underlying the leaving
tree edge, `enterEdge` raises the fatal error exactly when no graph edge
other than the leaving one crosses the lower subtree boundary in the
direction the code scans (inside-to-outside when the tree edge is aligned
with `ge`, outside-to-inside otherwise), and any edge it returns is such
a crossing edge of minimum slack. -/
theorem enterEdge_min_slack (ns : List (Nat × SNode)) (gE : List SEdge)
    (tS tT eId : Nat) (ge : SEdge)
    (hge : gE.find? (fun d => d.id = eId) = some ge) :
    (enterEdge ns gE tS tT eId = Except.error () ↔
       ∀ d ∈ gE, enterKeep ns tS tT eId ge d = false)
    ∧ ∀ i, enterEdge ns gE tS tT eId = Except.ok i →
        ∃ d, d ∈ gE ∧ enterKeep ns tS tT eId ge d = true ∧ d.id = i ∧
          ∀ d2, d2 ∈ gE → enterKeep ns tS tT eId ge d2 = true →
            eSlack ns d ≤ eSlack ns d2 := by
  have hspec := minSlackScan_spec ns (enterKeep ns tS tT eId ge) gE
  have hee : enterEdge ns gE tS tT eId
      = match minSlackScan ns (enterKeep ns tS tT eId ge) gE with
        | some i => Except.ok i
        | none => Except.error () := by
    rw [enterEdge, hge]
  rw [hee]
  rcases hsc : minSlackScan ns (enterKeep ns tS tT eId ge) gE with _ | i
  · constructor
    · constructor
      · intro _; exact hspec.1.mp hsc
      · intro _; rfl
    · intro i h; cases h
  · constructor
    · constructor
      · intro h; cases h
      · intro h
        rw [hspec.1.mpr h] at hsc
        cases hsc
    · intro j h
      cases h
      exact hspec.2 i hsc

/-- Witness for the amended C8 theorem at the concrete pivot instance. -/
theorem enterEdge_min_slack_witness :
    (enterEdge nsC8 geC8 1 2 0 = Except.error () ↔
       ∀ d ∈ geC8, enterKeep nsC8 1 2 0 ⟨0, 1, 2, some 1⟩ d = false)
    ∧ ∀ i, enterEdge nsC8 geC8 1 2 0 = Except.ok i →
        ∃ d, d ∈ geC8 ∧ enterKeep nsC8 1 2 0 ⟨0, 1, 2, some 1⟩ d = true ∧ d.id = i ∧
          ∀ d2, d2 ∈ geC8 → enterKeep nsC8 1 2 0 ⟨0, 1, 2, some 1⟩ d2 = true →
            eSlack nsC8 d ≤ eSlack nsC8 d2 :=
  enterEdge_min_slack nsC8 geC8 1 2 0 ⟨0, 1, 2, some 1⟩ (by decide)

end Simplex

namespace Dagre

-- list-level find? lemmas
theorem find?_filter_ne (l : List (NId × NodeVal)) (u : NId) :
    (l.filter (fun p => ¬ p.1 = u)).find? (fun p => p.1 = u) = none := by
  rw [List.find?_eq_none]
  intro x hx
  have := (List.mem_filter.mp hx).2
  simpa using this

theorem find?_filter_other (l : List (NId × NodeVal)) (u w : NId) (h : ¬ w = u) :
    (l.filter (fun p => ¬ p.1 = u)).find? (fun p => p.1 = w)
      = l.find? (fun p => p.1 = w) := by
  induction l with
  | nil => rfl
  | cons p l ih =>
    rw [List.filter_cons]
    by_cases hp : p.1 = u
    · rw [if_neg (by simpa using hp), ih,
        List.find?_cons_of_neg _ (by simp [hp]; intro hh; exact h hh.symm)]
    · rw [if_pos (by simpa using hp)]
      by_cases hw : p.1 = w
      · rw [List.find?_cons_of_pos _ (by simpa using hw),
          List.find?_cons_of_pos _ (by simpa using hw)]
      · rw [List.find?_cons_of_neg _ (by simpa using hw),
          List.find?_cons_of_neg _ (by simpa using hw), ih]

theorem find?_append_fresh (l : List (NId × NodeVal)) (u : NId) (v : NodeVal)
    (h : ∀ p ∈ l, ¬ p.1 = u) :
    (l ++ [(u, v)]).find? (fun p => p.1 = u) = some (u, v) := by
  rw [List.find?_append]
  have h1 : l.find? (fun p => p.1 = u) = none := by
    rw [List.find?_eq_none]
    intro x hx
    simpa using h x hx
  simp [h1, List.find?_cons]

theorem find?_append_other (l : List (NId × NodeVal)) (u w : NId) (v : NodeVal)
    (h : ¬ w = u) :
    (l ++ [(u, v)]).find? (fun p => p.1 = w) = l.find? (fun p => p.1 = w) := by
  rw [List.find?_append]
  rcases hf : l.find? (fun p => p.1 = w) with _ | q
  · have hu : ¬ (u = w) := fun hh => h hh.symm
    simp [List.find?_cons, hu]
  · rw [hf]; rfl

theorem find?_map_key (l : List (NId × NodeVal)) (w x : NId) (f : NodeVal → NodeVal) :
    (l.map (fun p => if p.1 = w then (p.1, f p.2) else p)).find? (fun p => p.1 = x)
      = if x = w then (l.find? (fun p => p.1 = x)).map (fun p => (p.1, f p.2))
        else l.find? (fun p => p.1 = x) := by
  induction l with
  | nil => by_cases h : x = w <;> simp [h]
  | cons p l ih =>
    rw [List.map_cons]
    by_cases hpx : p.1 = x
    · have e1 : (decide ((p.1, f p.2).1 = x)) = true := by simpa using hpx
      have e2 : (decide (p.1 = x)) = true := by simpa using hpx
      by_cases hpw : p.1 = w
      · have hxw : x = w := by rw [← hpx, hpw]
        rw [if_pos hpw, if_pos hxw]
        simp [List.find?_cons, e1, e2]
      · have hxw : ¬ x = w := by rw [← hpx]; exact hpw
        rw [if_neg hpw, if_neg hxw]
        simp [List.find?_cons, e2]
    · have e1 : (decide ((p.1, f p.2).1 = x)) = false := by simpa using hpx
      have e2 : (decide (p.1 = x)) = false := by simpa using hpx
      by_cases hpw : p.1 = w
      · rw [if_pos hpw]
        simp only [List.find?_cons, e1, e2, ih]
      · rw [if_neg hpw]
        simp only [List.find?_cons, e2, ih]

-- graph-level node? lemmas
theorem node?_eq_find (g : Graph) (x : NId) :
    g.node? x = (g.nodes.find? (fun p => p.1 = x)).map (fun p => p.2) := rfl

theorem node?_setNode (g : Graph) (w : NId) (f : NodeVal → NodeVal) (x : NId) :
    (g.setNode w f).node? x
      = if x = w then (g.node? x).map f else g.node? x := by
  rw [node?_eq_find, node?_eq_find]
  show ((g.nodes.map (fun p => if p.1 = w then (p.1, f p.2) else p)).find?
      (fun p => p.1 = x)).map (fun p => p.2) = _
  rw [find?_map_key]
  by_cases h : x = w
  · simp [h, Option.map_map]
    rfl
  · simp [h]

theorem node?_delNode_self (g : Graph) (u : NId) :
    (g.delNode u).node? u = none := by
  rw [node?_eq_find]
  show ((g.nodes.filter (fun p => ¬ p.1 = u)).find? (fun p => p.1 = u)).map _ = none
  rw [find?_filter_ne]
  rfl

theorem node?_delNode_ne (g : Graph) (u w : NId) (h : ¬ w = u) :
    (g.delNode u).node? w = g.node? w := by
  rw [node?_eq_find, node?_eq_find]
  show ((g.nodes.filter (fun p => ¬ p.1 = u)).find? (fun p => p.1 = w)).map _ = _
  rw [find?_filter_other _ _ _ h]

theorem node?_addNode_fresh (g : Graph) (u : NId) (v : NodeVal)
    (h : ∀ p ∈ g.nodes, ¬ p.1 = u) :
    (g.addNode u v).node? u = some v := by
  rw [node?_eq_find]
  show ((g.nodes ++ [(u, v)]).find? (fun p => p.1 = u)).map _ = _
  rw [find?_append_fresh _ _ _ h]
  rfl

theorem node?_addNode_ne (g : Graph) (u w : NId) (v : NodeVal) (h : ¬ w = u) :
    (g.addNode u v).node? w = g.node? w := by
  rw [node?_eq_find, node?_eq_find]
  show ((g.nodes ++ [(u, v)]).find? (fun p => p.1 = w)).map _ = _
  rw [find?_append_other _ _ _ _ h]

theorem classMembers_append (pr : PrefRank) (l : List (NId × NodeVal)) (p : NId × NodeVal) :
    classMembers pr (l ++ [p])
      = classMembers pr l ++ (if p.2.prefRank = some pr then [p.1] else []) := by
  unfold classMembers
  rw [List.filter_append]
  by_cases h : p.2.prefRank = some pr <;> simp [h]

theorem node?_congr {g g2 : Graph} (h : g.nodes = g2.nodes) (x : NId) :
    g.node? x = g2.node? x := by
  rw [node?_eq_find, node?_eq_find, h]

theorem edgesOnly_foldl {β : Type} (body : Graph → β → Graph)
    (hb : ∀ h e, (body h e).nodes = h.nodes ∧ (body h e).compound = h.compound
      ∧ (body h e).nextN = h.nextN)
    (L : List β) (acc : Graph) :
    (L.foldl body acc).nodes = acc.nodes ∧ (L.foldl body acc).compound = acc.compound
      ∧ (L.foldl body acc).nextN = acc.nextN := by
  induction L generalizing acc with
  | nil => exact ⟨rfl, rfl, rfl⟩
  | cons e L ih =>
    rw [List.foldl_cons]
    obtain ⟨h1, h2, h3⟩ := ih (body acc e)
    obtain ⟨g1, g2, g3⟩ := hb acc e
    exact ⟨h1.trans g1, h2.trans g2, h3.trans g3⟩

theorem redirectIn_graph (pr : PrefRank) (c : NId) (h : Graph) (u : NId) :
    (redirectIn pr c h u).nodes = h.nodes ∧ (redirectIn pr c h u).compound = h.compound
      ∧ (redirectIn pr c h u).nextN = h.nextN := by
  unfold redirectIn
  apply edgesOnly_foldl
  intro h2 e
  cases pr <;> exact ⟨rfl, rfl, rfl⟩

theorem redirectOut_graph (pr : PrefRank) (c : NId) (h : Graph) (u : NId) :
    (redirectOut pr c h u).nodes = h.nodes ∧ (redirectOut pr c h u).compound = h.compound
      ∧ (redirectOut pr c h u).nextN = h.nextN := by
  unfold redirectOut
  apply edgesOnly_foldl
  intro h2 e
  cases pr <;> exact ⟨rfl, rfl, rfl⟩

theorem combineStep_none (s : Graph × List (PrefRank × NId)) (p : NId × NodeVal)
    (h : p.2.prefRank = none) : combineStep s p = s := by
  unfold combineStep
  rw [h]

theorem combineStep_found (s : Graph × List (PrefRank × NId)) (p : NId × NodeVal)
    (pr : PrefRank) (qf : PrefRank × NId) (h : p.2.prefRank = some pr)
    (hf : s.2.find? (fun q => q.1 = pr) = some qf) :
    combineStep s p =
      (((redirectOut pr qf.2 (redirectIn pr qf.2 s.1 p.1) p.1).setNode qf.2
          (fun v => { v with origNodes := v.origNodes ++ [p.1] })).delNode p.1, s.2) := by
  unfold combineStep
  rw [h]
  simp only [hf]
  rfl

theorem combineStep_fresh (s : Graph × List (PrefRank × NId)) (p : NId × NodeVal)
    (pr : PrefRank) (h : p.2.prefRank = some pr)
    (hf : s.2.find? (fun q => q.1 = pr) = none) :
    combineStep s p =
      (((redirectOut pr (NId.auto s.1.nextN)
          (redirectIn pr (NId.auto s.1.nextN) (freshCompound s.1) p.1) p.1).setNode
            (NId.auto s.1.nextN)
            (fun v => { v with origNodes := v.origNodes ++ [p.1] })).delNode p.1,
       s.2 ++ [(pr, NId.auto s.1.nextN)]) := by
  unfold combineStep
  rw [h]
  simp only [hf]
  rfl

theorem freshCompound_nodes (h : Graph) :
    (freshCompound h).nodes = h.nodes ++ [(NId.auto h.nextN, ({} : NodeVal))] := rfl

theorem freshCompound_nextN (h : Graph) :
    (freshCompound h).nextN = h.nextN + 1 := rfl

theorem freshCompound_compound (h : Graph) :
    (freshCompound h).compound
      = h.compound.map (fun l => l ++ [NId.auto h.nextN]) := rfl

theorem freshCompound_node?_self (h : Graph)
    (hf : ∀ q ∈ h.nodes, ¬ q.1 = NId.auto h.nextN) :
    (freshCompound h).node? (NId.auto h.nextN) = some {} := by
  rw [node?_eq_find]
  show ((h.nodes ++ [(NId.auto h.nextN, ({} : NodeVal))]).find?
    (fun p => p.1 = NId.auto h.nextN)).map (fun p => p.2) = _
  rw [find?_append_fresh _ _ _ hf]
  rfl

theorem freshCompound_node?_ne (h : Graph) (x : NId)
    (hx : ¬ x = NId.auto h.nextN) :
    (freshCompound h).node? x = h.node? x := by
  rw [node?_eq_find, node?_eq_find]
  show ((h.nodes ++ [(NId.auto h.nextN, ({} : NodeVal))]).find?
    (fun p => p.1 = x)).map (fun p => p.2) = _
  rw [find?_append_other _ _ _ _ hx]

theorem tail_node? (pr : PrefRank) (c : NId) (g0 : Graph) (pu x : NId) :
    (((redirectOut pr c (redirectIn pr c g0 pu) pu).setNode c
        (fun v => { v with origNodes := v.origNodes ++ [pu] })).delNode pu).node? x
      = if x = pu then none
        else if x = c
          then (g0.node? x).map (fun v => { v with origNodes := v.origNodes ++ [pu] })
          else g0.node? x := by
  have hGn : (redirectOut pr c (redirectIn pr c g0 pu) pu).nodes = g0.nodes :=
    ((redirectOut_graph _ _ _ _).1).trans ((redirectIn_graph _ _ _ _).1)
  by_cases hx1 : x = pu
  · rw [if_pos hx1, hx1, node?_delNode_self]
  · rw [if_neg hx1, node?_delNode_ne _ _ _ hx1, node?_setNode, node?_congr hGn x]

theorem tail_compound (pr : PrefRank) (c : NId) (g0 : Graph) (pu : NId) :
    (((redirectOut pr c (redirectIn pr c g0 pu) pu).setNode c
        (fun v => { v with origNodes := v.origNodes ++ [pu] })).delNode pu).compound
      = g0.compound :=
  ((redirectOut_graph pr c (redirectIn pr c g0 pu) pu).2.1).trans
    ((redirectIn_graph pr c g0 pu).2.1)

theorem tail_nextN (pr : PrefRank) (c : NId) (g0 : Graph) (pu : NId) :
    (((redirectOut pr c (redirectIn pr c g0 pu) pu).setNode c
        (fun v => { v with origNodes := v.origNodes ++ [pu] })).delNode pu).nextN
      = g0.nextN :=
  ((redirectOut_graph pr c (redirectIn pr c g0 pu) pu).2.2).trans
    ((redirectIn_graph pr c g0 pu).2.2)

theorem tail_nodes (pr : PrefRank) (c : NId) (g0 : Graph) (pu : NId) :
    (((redirectOut pr c (redirectIn pr c g0 pu) pu).setNode c
        (fun v => { v with origNodes := v.origNodes ++ [pu] })).delNode pu).nodes
      = (g0.nodes.map (fun q => if q.1 = c
            then (q.1, { q.2 with origNodes := q.2.origNodes ++ [pu] }) else q)).filter
          (fun q => ¬ q.1 = pu) := by
  have hGn : (redirectOut pr c (redirectIn pr c g0 pu) pu).nodes = g0.nodes :=
    ((redirectOut_graph _ _ _ _).1).trans ((redirectIn_graph _ _ _ _).1)
  show (((redirectOut pr c (redirectIn pr c g0 pu) pu).nodes.map _).filter _) = _
  rw [hGn]

theorem nodup_keys_eq {α β : Type} {l : List (α × β)}
    (hnd : (l.map (fun p => p.1)).Nodup) {a b : α × β}
    (ha : a ∈ l) (hb : b ∈ l) (h : a.1 = b.1) : a = b := by
  induction l with
  | nil => cases ha
  | cons x l ih =>
    rw [List.map_cons, List.nodup_cons] at hnd
    rcases List.mem_cons.mp ha with rfl | ha2 <;>
      rcases List.mem_cons.mp hb with rfl | hb2
    · rfl
    · exfalso
      apply hnd.1
      have : b.1 ∈ l.map (fun p => p.1) := List.mem_map_of_mem _ hb2
      rw [← h] at this
      exact this
    · exfalso
      apply hnd.1
      have : a.1 ∈ l.map (fun p => p.1) := List.mem_map_of_mem _ ha2
      rw [h] at this
      exact this
    · exact ih hnd.2 ha2 hb2

end Dagre

namespace Dagre

theorem combineStep_inv (done : List (NId × NodeVal)) (p : NId × NodeVal)
    (s : Graph × List (PrefRank × NId))
    (hsnap : ∃ str, p.1 = NId.orig str)
    (hdone : ∀ q ∈ done, ∃ str, q.1 = NId.orig str)
    (hinv : CombInv done s) :
    CombInv (done ++ [p]) (combineStep s p) := by
  obtain ⟨iA, iA2, iB, iC, iD, ⟨cl0, iE⟩, iF, iG⟩ := hinv
  obtain ⟨pstr, hpstr⟩ := hsnap
  rcases hpr : p.2.prefRank with _ | pr
  · -- prefRank absent: the state is unchanged
    rw [combineStep_none s p hpr]
    refine ⟨iA, iA2, ?_, ?_, ?_, ⟨cl0, iE⟩, iF, iG⟩
    · intro pr c hm
      obtain ⟨hauto, hcl, cv, hcv, horg⟩ := iB pr c hm
      refine ⟨hauto, hcl, cv, hcv, ?_⟩
      rw [classMembers_append, hpr]
      simp [horg]
    · intro q hq hqs
      rcases List.mem_append.mp hq with hq | hq
      · exact iC q hq hqs
      · have hqp : q = p := by simpa using hq
        rw [hqp, hpr] at hqs
        simp at hqs
    · intro pr hnone
      rw [classMembers_append, hpr]
      simp [iD pr hnone]
  · rcases hf : s.2.find? (fun q => q.1 = pr) with _ | qf
    · -- a fresh compound node is created
      rw [combineStep_fresh s p pr hpr hf]
      have hkeysnone : ∀ q ∈ s.2, ¬ q.1 = pr := by
        intro q hq
        simpa using List.find?_eq_none.mp hf q hq
      have hfreshkey : ∀ q ∈ s.1.nodes, ¬ q.1 = NId.auto s.1.nextN := by
        intro q hq hk
        rcases iF q hq with ⟨str, hstr⟩ | ⟨n, hn, hlt⟩
        · rw [hstr] at hk; cases hk
        · rw [hn] at hk
          injection hk with hk2
          exact absurd hk2 (Nat.ne_of_lt hlt)
      have hnotp : ¬ (NId.auto s.1.nextN) = p.1 := by rw [hpstr]; simp
      have hcomp := tail_compound pr (NId.auto s.1.nextN) (freshCompound s.1) p.1
      have hnext := tail_nextN pr (NId.auto s.1.nextN) (freshCompound s.1) p.1
      have hnodes := tail_nodes pr (NId.auto s.1.nextN) (freshCompound s.1) p.1
      rw [freshCompound_compound, iE] at hcomp
      rw [freshCompound_nextN] at hnext
      rw [freshCompound_nodes] at hnodes
      refine ⟨?_, ?_, ?_, ?_, ?_, ⟨cl0 ++ [NId.auto s.1.nextN], by rw [hcomp]; rfl⟩, ?_, ?_⟩
      · -- keys still distinct
        rw [List.map_append, List.nodup_append]
        refine ⟨iA, List.nodup_singleton _, ?_⟩
        intro x hx hx2
        have hxpr : x = pr := by simpa using hx2
        obtain ⟨q, hq, hqx⟩ := List.mem_map.mp hx
        exact hkeysnone q hq (by rw [hqx, hxpr])
      · -- value-injectivity
        intro q1 q2 h1 h2 hv
        rcases List.mem_append.mp h1 with h1 | h1 <;>
          rcases List.mem_append.mp h2 with h2 | h2
        · exact iA2 q1 q2 h1 h2 hv
        · exfalso
          have hq2 : q2 = (pr, NId.auto s.1.nextN) := by simpa using h2
          obtain ⟨⟨n1, hcn1, hlt1⟩, _, _⟩ := iB q1.1 q1.2 (by simpa using h1)
          rw [hq2] at hv
          rw [hv] at hcn1
          injection hcn1 with hc
          exact absurd hc.symm (Nat.ne_of_lt hlt1)
        · exfalso
          have hq1 : q1 = (pr, NId.auto s.1.nextN) := by simpa using h1
          obtain ⟨⟨n2, hcn2, hlt2⟩, _, _⟩ := iB q2.1 q2.2 (by simpa using h2)
          rw [hq1] at hv
          rw [← hv] at hcn2
          injection hcn2 with hc
          exact absurd hc.symm (Nat.ne_of_lt hlt2)
        · have hq1 : q1 = (pr, NId.auto s.1.nextN) := by simpa using h1
          have hq2 : q2 = (pr, NId.auto s.1.nextN) := by simpa using h2
          rw [hq1, hq2]
      · -- compound data
        intro pr2 c2 hm2
        rcases List.mem_append.mp hm2 with hm2 | hm2
        · obtain ⟨⟨n2, hc2, hlt2⟩, ⟨cl2, hcl2, hmem2⟩, cv2, hcv2, horg2⟩ := iB pr2 c2 hm2
          have hc2ne : ¬ c2 = p.1 := by rw [hc2, hpstr]; simp
          have hc2cn : ¬ c2 = NId.auto s.1.nextN := by
            rw [hc2]
            intro hh
            injection hh with hh2
            exact absurd hh2 (Nat.ne_of_lt hlt2)
          have hcl20 : cl2 = cl0 := by rw [iE] at hcl2; injection hcl2 with h; exact h.symm
          refine ⟨⟨n2, hc2, by rw [hnext]; exact Nat.lt_succ_of_lt hlt2⟩,
            ⟨cl0 ++ [NId.auto s.1.nextN], by rw [hcomp]; rfl,
              List.mem_append_left _ (hcl20 ▸ hmem2)⟩, ?_⟩
          rw [tail_node?, if_neg hc2ne, if_neg hc2cn,
            freshCompound_node?_ne s.1 c2 hc2cn]
          refine ⟨cv2, hcv2, ?_⟩
          have hprne : ¬ (some pr = some pr2) := by
            intro hh
            injection hh with hh2
            exact hkeysnone (pr2, c2) hm2 hh2.symm
          rw [classMembers_append, hpr, horg2]
          simp [hprne]
        · have hq : pr2 = pr ∧ c2 = NId.auto s.1.nextN := by
            have := List.mem_singleton.mp hm2
            exact ⟨congrArg Prod.fst this, congrArg Prod.snd this⟩
          obtain ⟨hqa, hqb⟩ := hq
          subst hqa
          subst hqb
          refine ⟨⟨s.1.nextN, rfl, by rw [hnext]; exact Nat.lt_succ_self _⟩,
            ⟨cl0 ++ [NId.auto s.1.nextN], by rw [hcomp]; rfl,
              List.mem_append_right _ (List.mem_singleton_self _)⟩, ?_⟩
          rw [tail_node?, if_neg hnotp, if_pos rfl,
            freshCompound_node?_self s.1 hfreshkey]
          refine ⟨_, rfl, ?_⟩
          rw [classMembers_append, hpr]
          have hempty : classMembers pr2 done = [] := iD pr2 hkeysnone
          simp [hempty]
      · -- processed members stay deleted
        intro q hq hqs
        rw [tail_node?]
        rcases List.mem_append.mp hq with hq | hq
        · by_cases h1 : q.1 = p.1
          · rw [if_pos h1]
          · rw [if_neg h1]
            obtain ⟨qstr, hqstr⟩ := hdone q hq
            have h2 : ¬ q.1 = NId.auto s.1.nextN := by rw [hqstr]; simp
            rw [if_neg h2, freshCompound_node?_ne s.1 q.1 h2]
            exact iC q hq hqs
        · have : q = p := by simpa using hq
          rw [this, if_pos rfl]
      · -- classes without a compound have no members
        intro pr2 hnone
        have hprne2 : ¬ (some pr = some pr2) := by
          intro hh
          injection hh with hh2
          exact hnone (pr, NId.auto s.1.nextN)
            (List.mem_append_right _ (List.mem_singleton_self _)) hh2
        have hold : ∀ q ∈ s.2, ¬ q.1 = pr2 :=
          fun q hq => hnone q (List.mem_append_left _ hq)
        rw [classMembers_append, hpr]
        simp [iD pr2 hold, hprne2]
      · -- node keys are originals or allocated compounds
        intro q hq
        rw [hnodes] at hq
        obtain ⟨hq1, _⟩ := List.mem_filter.mp hq
        obtain ⟨q0, hq0, hq0e⟩ := List.mem_map.mp hq1
        have hkey : q.1 = q0.1 := by
          rw [← hq0e]
          by_cases hc : q0.1 = NId.auto s.1.nextN <;> simp [hc]
        rw [hkey, hnext]
        rcases List.mem_append.mp hq0 with hq0 | hq0
        · rcases iF q0 hq0 with ⟨str, hstr⟩ | ⟨n, hn, hlt⟩
          · exact Or.inl ⟨str, hstr⟩
          · exact Or.inr ⟨n, hn, Nat.lt_succ_of_lt hlt⟩
        · have : q0 = (NId.auto s.1.nextN, ({} : NodeVal)) := by simpa using hq0
          rw [this]
          exact Or.inr ⟨s.1.nextN, rfl, Nat.lt_succ_self _⟩
      · -- compoundNodes entries all have a class
        intro cl2 hcl2 c2 hc2
        rw [hcomp] at hcl2
        have hcl2e : cl2 = cl0 ++ [NId.auto s.1.nextN] := by
          injection hcl2 with h; exact h.symm
        rw [hcl2e] at hc2
        rcases List.mem_append.mp hc2 with hc2 | hc2
        · obtain ⟨pr2, hpr2⟩ := iG cl0 iE c2 hc2
          exact ⟨pr2, List.mem_append_left _ hpr2⟩
        · have : c2 = NId.auto s.1.nextN := by simpa using hc2
          rw [this]
          exact ⟨pr, List.mem_append_right _ (List.mem_singleton_self _)⟩
    · -- the class already has its compound node
      rw [combineStep_found s p pr qf hpr hf]
      have hqf1 : qf.1 = pr := by simpa using List.find?_some hf
      have hqm : (pr, qf.2) ∈ s.2 := by
        rw [← hqf1]
        simpa using List.mem_of_find?_eq_some hf
      obtain ⟨⟨n, hcn, hnlt⟩, ⟨cl, hclE, hclmem⟩, cv, hcv, horg⟩ := iB pr qf.2 hqm
      have hne_pu : ¬ qf.2 = p.1 := by rw [hcn, hpstr]; simp
      have hcomp := tail_compound pr qf.2 s.1 p.1
      have hnext := tail_nextN pr qf.2 s.1 p.1
      have hnodes := tail_nodes pr qf.2 s.1 p.1
      refine ⟨iA, iA2, ?_, ?_, ?_, ⟨cl0, by rw [hcomp]; exact iE⟩, ?_, ?_⟩
      · intro pr2 c2 hm2
        obtain ⟨⟨n2, hc2, hlt2⟩, ⟨cl2, hcl2, hmem2⟩, cv2, hcv2, horg2⟩ := iB pr2 c2 hm2
        have hc2ne : ¬ c2 = p.1 := by rw [hc2, hpstr]; simp
        refine ⟨⟨n2, hc2, by rw [hnext]; exact hlt2⟩,
          ⟨cl2, by rw [hcomp]; exact hcl2, hmem2⟩, ?_⟩
        rw [tail_node?, if_neg hc2ne]
        by_cases hcc : c2 = qf.2
        · have hpr2 : pr2 = pr := iA2 (pr2, c2) (pr, qf.2) hm2 hqm (by simpa using hcc)
          rw [if_pos hcc, hcc, hcv]
          refine ⟨_, rfl, ?_⟩
          show cv.origNodes ++ [p.1] = _
          rw [hpr2, classMembers_append, hpr, horg]
          simp
        · rw [if_neg hcc]
          refine ⟨cv2, hcv2, ?_⟩
          have hprne : ¬ (some pr = some pr2) := by
            intro hh
            injection hh with hh2
            have heq := nodup_keys_eq iA hm2 hqm (by simpa using hh2.symm)
            exact hcc (congrArg Prod.snd heq)
          rw [classMembers_append, hpr, horg2]
          simp [hprne]
      · intro q hq hqs
        rw [tail_node?]
        rcases List.mem_append.mp hq with hq | hq
        · by_cases h1 : q.1 = p.1
          · rw [if_pos h1]
          · rw [if_neg h1]
            by_cases h2 : q.1 = qf.2
            · rw [if_pos h2, iC q hq hqs]
              rfl
            · rw [if_neg h2]
              exact iC q hq hqs
        · have : q = p := by simpa using hq
          rw [this, if_pos rfl]
      · intro pr2 hnone
        have hprne2 : ¬ (some pr = some pr2) := by
          intro hh
          injection hh with hh2
          exact hnone (pr, qf.2) hqm hh2
        rw [classMembers_append, hpr]
        simp [iD pr2 hnone, hprne2]
      · intro q hq
        rw [hnodes] at hq
        obtain ⟨hq1, _⟩ := List.mem_filter.mp hq
        obtain ⟨q0, hq0, hq0e⟩ := List.mem_map.mp hq1
        have hkey : q.1 = q0.1 := by
          rw [← hq0e]
          by_cases hc : q0.1 = qf.2 <;> simp [hc]
        rw [hkey, hnext]
        exact iF q0 hq0
      · intro cl2 hcl2 c2 hc2
        rw [hcomp] at hcl2
        exact iG cl2 hcl2 c2 hc2

end Dagre

namespace Dagre

theorem combineGo (rest : List (NId × NodeVal)) :
    ∀ (done : List (NId × NodeVal)) (s : Graph × List (PrefRank × NId)),
    (∀ q ∈ rest, ∃ str, q.1 = NId.orig str) →
    (∀ q ∈ done, ∃ str, q.1 = NId.orig str) →
    CombInv done s →
    CombInv (done ++ rest) (rest.foldl combineStep s) := by
  induction rest with
  | nil =>
    intro done s _ _ h
    simpa using h
  | cons p rest ih =>
    intro done s hrest hdone hinv
    rw [List.foldl_cons]
    have h1 := combineStep_inv done p s (hrest p (List.mem_cons_self _ _)) hdone hinv
    have h2 := ih (done ++ [p]) (combineStep s p)
      (fun q hq => hrest q (List.mem_cons_of_mem _ hq))
      (fun q hq => by
        rcases List.mem_append.mp hq with hq | hq
        · exact hdone q hq
        · have hqp : q = p := by simpa using hq
          rw [hqp]
          exact hrest p (List.mem_cons_self _ _))
      h1
    simpa [List.append_assoc] using h2

theorem node?_mem {g : Graph} {u : NId} {nu : NodeVal}
    (h : g.node? u = some nu) : (u, nu) ∈ g.nodes := by
  rw [node?_eq_find] at h
  rcases hfind : g.nodes.find? (fun p => p.1 = u) with _ | q
  · rw [hfind] at h; cases h
  · rw [hfind] at h
    have h1 : q.1 = u := by simpa using List.find?_some hfind
    have h2 : q.2 = nu := by simpa using h
    have hm := List.mem_of_find?_eq_some hfind
    obtain ⟨q1, q2⟩ := q
    simp only at h1 h2
    rw [h1, h2] at hm
    exact hm

theorem mem_classMembers {l : List (NId × NodeVal)} {u : NId} {nu : NodeVal}
    {pr : PrefRank} (hm : (u, nu) ∈ l) (hp : nu.prefRank = some pr) :
    u ∈ classMembers pr l := by
  unfold classMembers
  exact List.mem_map_of_mem _ (List.mem_filter.mpr ⟨hm, by simpa using hp⟩)

theorem of_mem_classMembers {l : List (NId × NodeVal)} {u : NId} {pr : PrefRank}
    (h : u ∈ classMembers pr l) :
    ∃ val, (u, val) ∈ l ∧ val.prefRank = some pr := by
  unfold classMembers at h
  obtain ⟨q, hq, hqe⟩ := List.mem_map.mp h
  obtain ⟨hq1, hq2⟩ := List.mem_filter.mp hq
  refine ⟨q.2, ?_, by simpa using hq2⟩
  rw [← hqe]
  simpa using hq1

theorem addMinMaxEdges_graph (h : Graph) (pm : List (PrefRank × NId)) :
    (addMinMaxEdges h pm).nodes = h.nodes
      ∧ (addMinMaxEdges h pm).compound = h.compound
      ∧ (addMinMaxEdges h pm).nextN = h.nextN := by
  unfold addMinMaxEdges
  cases hmin : (pm.find? (fun q => q.1 = PrefRank.min)).map (fun q => q.2) with
  | none =>
    cases hmax : (pm.find? (fun q => q.1 = PrefRank.max)).map (fun q => q.2) with
    | none => exact ⟨rfl, rfl, rfl⟩
    | some mx =>
      dsimp only
      exact edgesOnly_foldl
        (fun (h2 : Graph) (p : NId × NodeVal) => Graph.addEdgeAuto h2 p.1 mx { minLen := some 0 })
        (fun _ _ => ⟨rfl, rfl, rfl⟩) _ _
  | some m =>
    cases hmax : (pm.find? (fun q => q.1 = PrefRank.max)).map (fun q => q.2) with
    | none =>
      dsimp only
      exact edgesOnly_foldl
        (fun (h2 : Graph) (p : NId × NodeVal) => Graph.addEdgeAuto h2 m p.1 { minLen := some 0 })
        (fun _ _ => ⟨rfl, rfl, rfl⟩) _ _
    | some mx =>
      dsimp only
      obtain ⟨a1, a2, a3⟩ := edgesOnly_foldl
        (fun (h2 : Graph) (p : NId × NodeVal) => Graph.addEdgeAuto h2 m p.1 { minLen := some 0 })
        (fun _ _ => ⟨rfl, rfl, rfl⟩) h.nodes h
      obtain ⟨b1, b2, b3⟩ := edgesOnly_foldl
        (fun (h2 : Graph) (p : NId × NodeVal) => Graph.addEdgeAuto h2 p.1 mx { minLen := some 0 })
        (fun _ _ => ⟨rfl, rfl, rfl⟩) _ _
      exact ⟨b1.trans a1, b2.trans a2, b3.trans a3⟩

end Dagre

namespace Dagre

theorem combineStep_nodes_eq (g : Graph) : ({ g with compound := some [] } : Graph).nodes = g.nodes := rfl

theorem combineRanks_class (flips2 : List Nat) (g : Graph) (u : NId) (k : Int)
    (nu : NodeVal)
    (hnd : (g.nodes.map (fun p => p.1)).Nodup)
    (horig : ∀ p ∈ g.nodes, ∃ str, p.1 = NId.orig str)
    (hu : g.node? u = some nu) (hpu : nu.prefRank = some (PrefRank.int k)) :
    ∃ c cl cv,
      (combineRanks flips2 g).compound = some cl ∧ c ∈ cl ∧
      (combineRanks flips2 g).node? c = some cv ∧
      cv.origNodes = classMembers (PrefRank.int k) g.nodes ∧
      (∀ w, w ∈ classMembers (PrefRank.int k) g.nodes →
        ∀ c2, c2 ∈ cl → ∀ cv2, (combineRanks flips2 g).node? c2 = some cv2 →
          w ∈ cv2.origNodes → c2 = c) := by
  have hmem := node?_mem hu
  have hcond : g.nodes.any (fun p => p.2.prefRank.isSome) = true :=
    List.any_eq_true.mpr ⟨(u, nu), hmem, by rw [hpu]; rfl⟩
  have hinv0 : CombInv [] ({ g with compound := some [] }, []) := by
    refine ⟨by simp, ?_, ?_, ?_, ?_, ⟨[], rfl⟩, ?_, ?_⟩
    · intro q1 q2 h1; cases h1
    · intro pr c h1; cases h1
    · intro p hp; cases hp
    · intro pr _; rfl
    · intro p hp; exact Or.inl (horig p hp)
    · intro cl hcl c2 hc2
      have : cl = [] := by injection hcl with h; exact h.symm
      rw [this] at hc2; cases hc2
  have hinv : CombInv g.nodes
      (g.nodes.foldl combineStep ({ g with compound := some [] }, [])) := by
    have := combineGo g.nodes [] ({ g with compound := some [] }, [])
      horig (fun q hq => absurd hq (List.not_mem_nil q)) hinv0
    simpa using this
  obtain ⟨hA, hA2, hB, hC, hD, hE, hF, hG⟩ := hinv
  have hcr : combineRanks flips2 g
      = acyclicModel flips2 (addMinMaxEdges
          (g.nodes.foldl combineStep ({ g with compound := some [] }, [])).1
          (g.nodes.foldl combineStep ({ g with compound := some [] }, [])).2) := by
    unfold combineRanks
    rw [if_pos hcond]
  have humem : u ∈ classMembers (PrefRank.int k) g.nodes := mem_classMembers hmem hpu
  have hq : ∃ q ∈ (g.nodes.foldl combineStep ({ g with compound := some [] }, [])).2,
      q.1 = PrefRank.int k := by
    by_contra hno
    push_neg at hno
    have := hD (PrefRank.int k) hno
    rw [this] at humem
    cases humem
  obtain ⟨q, hqm, hq1⟩ := hq
  have hqm2 : (PrefRank.int k, q.2)
      ∈ (g.nodes.foldl combineStep ({ g with compound := some [] }, [])).2 := by
    have h2 : (q.1, q.2) = q := rfl
    rw [← hq1, h2]
    exact hqm
  obtain ⟨_, ⟨cl, hclS, hcmem⟩, ⟨cv, hcv, horigN⟩⟩ := hB _ _ hqm2
  have hnodes : (combineRanks flips2 g).nodes
      = (g.nodes.foldl combineStep ({ g with compound := some [] }, [])).1.nodes := by
    rw [hcr]
    exact (addMinMaxEdges_graph _ _).1
  have hcompound : (combineRanks flips2 g).compound = some cl := by
    rw [hcr]
    show (addMinMaxEdges _ _).compound = some cl
    rw [(addMinMaxEdges_graph _ _).2.1]
    exact hclS
  have htrans : ∀ x, (combineRanks flips2 g).node? x
      = (g.nodes.foldl combineStep ({ g with compound := some [] }, [])).1.node? x :=
    fun x => node?_congr hnodes x
  refine ⟨q.2, cl, cv, hcompound, hcmem, ?_, horigN, ?_⟩
  · rw [htrans]; exact hcv
  · intro w hw c2 hc2 cv2 hcv2 hwin
    obtain ⟨pr2, hpr2m⟩ := hG cl hclS c2 hc2
    obtain ⟨_, _, ⟨cvB, hcvB, horigB⟩⟩ := hB pr2 c2 hpr2m
    have hc2v : cvB = cv2 := by
      rw [htrans c2] at hcv2
      exact Option.some.inj (hcvB.symm.trans hcv2)
    rw [← hc2v, horigB] at hwin
    obtain ⟨val2, hval2, hp2⟩ := of_mem_classMembers hwin
    obtain ⟨val1, hval1, hp1⟩ := of_mem_classMembers hw
    have hvv : (w, val1) = (w, val2) := nodup_keys_eq hnd hval1 hval2 rfl
    have hval : val1 = val2 := congrArg Prod.snd hvv
    have hpr2k : pr2 = PrefRank.int k := by
      rw [hval] at hp1
      exact Option.some.inj (hp2.symm.trans hp1)
    rw [hpr2k] at hpr2m
    have := nodup_keys_eq hA hpr2m hqm2 rfl
    exact congrArg Prod.snd this


theorem vro_trans {p q r : NId × NodeVal} (hpq : ValueRankOnly p q)
    (hqr : ValueRankOnly q r) : ValueRankOnly p r := by
  refine ⟨hqr.1.trans hpq.1, ?_⟩
  rw [hqr.2, hpq.2]

theorem forall2_vro_trans : ∀ {l1 l2 l3 : List (NId × NodeVal)},
    List.Forall₂ ValueRankOnly l1 l2 → List.Forall₂ ValueRankOnly l2 l3 →
    List.Forall₂ ValueRankOnly l1 l3 := by
  intro l1 l2 l3 h12
  induction h12 generalizing l3 with
  | nil => intro h23; cases h23; exact .nil
  | cons hpq h ih =>
    intro h23
    cases h23 with
    | cons hqr h23 => exact .cons (vro_trans hpq hqr) (ih h23)

theorem rankOnly_refl (g : Graph) : RankOnly g g :=
  ⟨List.forall₂_same.mpr (fun p _ => ⟨rfl, rfl⟩), rfl⟩

theorem rankOnly_trans {g1 g2 g3 : Graph} (h12 : RankOnly g1 g2)
    (h23 : RankOnly g2 g3) : RankOnly g1 g3 :=
  ⟨forall2_vro_trans h12.1 h23.1, h23.2.trans h12.2⟩

theorem rankOnly_map (g : Graph) (F : NId × NodeVal → NId × NodeVal)
    (hF : ∀ p, ValueRankOnly p (F p)) :
    RankOnly g { g with nodes := g.nodes.map F } := by
  refine ⟨?_, rfl⟩
  show List.Forall₂ ValueRankOnly g.nodes (g.nodes.map F)
  rw [List.forall₂_map_right_iff]
  exact List.forall₂_same.mpr (fun p _ => hF p)

theorem rankOnly_setNode_rank (g : Graph) (w : NId) (r : Option Int) :
    RankOnly g (g.setNode w (fun v => { v with rank := r })) := by
  unfold Graph.setNode
  apply rankOnly_map
  intro p
  by_cases h : p.1 = w
  · rw [if_pos (by simpa using h)]
    exact ⟨rfl, rfl⟩
  · rw [if_neg (by simpa using h)]
    exact ⟨rfl, rfl⟩

theorem rankOnly_applyInitRanks (g : Graph) (f : NId → Option Int) :
    RankOnly g (applyInitRanks g f) := by
  unfold applyInitRanks
  apply rankOnly_map
  intro p
  cases f p.1 with
  | none => exact ⟨rfl, rfl⟩
  | some r => exact ⟨rfl, rfl⟩

theorem rankOnly_shiftComponent (g : Graph) (cmpt : List NId) :
    RankOnly g (shiftComponent g cmpt) := by
  unfold shiftComponent
  apply rankOnly_map
  intro p
  by_cases h : p.1 ∈ cmpt
  · rw [if_pos (by simpa using h)]
    exact ⟨rfl, rfl⟩
  · rw [if_neg (by simpa using h)]
    exact ⟨rfl, rfl⟩

theorem rankOnly_ftLoop (mles : List Mle) :
    ∀ (fuel : Nat) (h : Graph) (rem : List NId) (h2 : Graph),
    ftLoop mles fuel h rem = some h2 → RankOnly h h2 := by
  intro fuel
  induction fuel with
  | zero =>
    intro h rem h2 heq
    cases rem with
    | nil =>
      have : h = h2 := by simpa [ftLoop] using heq
      rw [← this]; exact rankOnly_refl h
    | cons x rest => simp [ftLoop] at heq
  | succ fuel ih =>
    intro h rem h2 heq
    cases rem with
    | nil =>
      have : h = h2 := by simpa [ftLoop] using heq
      rw [← this]; exact rankOnly_refl h
    | cons x rest =>
      simp only [ftLoop] at heq
      cases hf : findMinSlack h mles (x :: rest) with
      | none => rw [hf] at heq; cases heq
      | some cand =>
        rw [hf] at heq
        dsimp only at heq
        exact rankOnly_trans (rankOnly_setNode_rank h cand.graphNode _) (ih _ _ _ heq)

theorem rankOnly_feasibleTree (g : Graph) (cmpt : List NId) (h2 : Graph)
    (heq : feasibleTree g cmpt = some h2) : RankOnly g h2 := by
  unfold feasibleTree at heq
  cases hns : g.nodes.filter (fun p => p.1 ∈ cmpt) with
  | nil => rw [hns] at heq; cases heq
  | cons r rest =>
    rw [hns] at heq
    dsimp only at heq
    exact rankOnly_ftLoop _ _ _ _ _ heq

theorem rankOnly_ftStep (h : Graph) (c : List NId) (h2 : Graph)
    (heq : (feasibleTree h c).map (fun h1 => shiftComponent h1 c) = some h2) :
    RankOnly h h2 := by
  cases hft : feasibleTree h c with
  | none => rw [hft] at heq; cases heq
  | some h1 =>
    rw [hft] at heq
    have : shiftComponent h1 c = h2 := by simpa using heq
    rw [← this]
    exact rankOnly_trans (rankOnly_feasibleTree h c h1 hft) (rankOnly_shiftComponent h1 c)

theorem rankOnly_foldlM (cs : List (List NId)) :
    ∀ (h h2 : Graph),
    cs.foldlM (fun h c => (feasibleTree h c).map (fun h1 => shiftComponent h1 c)) h
      = some h2 → RankOnly h h2 := by
  induction cs with
  | nil =>
    intro h h2 heq
    have : h = h2 := by simpa using heq
    rw [← this]; exact rankOnly_refl h
  | cons c cs ih =>
    intro h h2 heq
    rw [List.foldlM_cons] at heq
    cases hstep : (feasibleTree h c).map (fun h1 => shiftComponent h1 c) with
    | none => rw [hstep] at heq; cases heq
    | some h1 =>
      rw [hstep] at heq
      have heq2 : cs.foldlM
          (fun h c => (feasibleTree h c).map (fun h1 => shiftComponent h1 c)) h1
          = some h2 := heq
      exact rankOnly_trans (rankOnly_ftStep h c h1 hstep) (ih h1 h2 heq2)


theorem find?_vro : ∀ {l l2 : List (NId × NodeVal)},
    List.Forall₂ ValueRankOnly l l2 → ∀ x : NId,
    (l.find? (fun p => p.1 = x) = none ∧ l2.find? (fun p => p.1 = x) = none)
    ∨ ∃ p q, l.find? (fun p => p.1 = x) = some p
        ∧ l2.find? (fun p => p.1 = x) = some q ∧ ValueRankOnly p q := by
  intro l l2 h
  induction h with
  | nil => intro x; exact Or.inl ⟨rfl, rfl⟩
  | @cons p q l l2 hpq hrest ih =>
    intro x
    by_cases hx : p.1 = x
    · exact Or.inr ⟨p, q,
        List.find?_cons_of_pos _ (by simpa using hx),
        List.find?_cons_of_pos _ (by simp [hpq.1, hx]),
        hpq⟩
    · have hqx : ¬ q.1 = x := by rw [hpq.1]; exact hx
      rw [List.find?_cons_of_neg _ (by simpa using hx),
        List.find?_cons_of_neg _ (by simpa using hqx)]
      exact ih x

theorem rankOnly_node?_some {g g2 : Graph} (h : RankOnly g g2) {x : NId}
    {w : NodeVal} (hx : g.node? x = some w) :
    ∃ w2, g2.node? x = some w2 ∧ w2 = { w with rank := w2.rank } := by
  rcases find?_vro h.1 x with ⟨h1, _⟩ | ⟨p, q, h1, h2, hvro⟩
  · rw [node?_eq_find, h1] at hx; cases hx
  · rw [node?_eq_find, h1] at hx
    have hpw : p.2 = w := by simpa using hx
    refine ⟨q.2, by rw [node?_eq_find, h2]; rfl, ?_⟩
    calc q.2 = { p.2 with rank := q.2.rank } := hvro.2
    _ = { w with rank := q.2.rank } := by rw [hpw]

theorem rankOnly_node?_some_rev {g g2 : Graph} (h : RankOnly g g2) {x : NId}
    {w2 : NodeVal} (hx : g2.node? x = some w2) :
    ∃ w, g.node? x = some w ∧ w2 = { w with rank := w2.rank } := by
  rcases find?_vro h.1 x with ⟨_, h2⟩ | ⟨p, q, h1, h2, hvro⟩
  · rw [node?_eq_find, h2] at hx; cases hx
  · rw [node?_eq_find, h2] at hx
    have hqw : q.2 = w2 := by simpa using hx
    refine ⟨p.2, by rw [node?_eq_find, h1]; rfl, ?_⟩
    rw [← hqw]
    exact hvro.2

theorem find?_isSome_map_keys (l : List (NId × NodeVal))
    (F : NId × NodeVal → NId × NodeVal) (hF : ∀ p, (F p).1 = p.1) (x : NId) :
    ((l.map F).find? (fun p => p.1 = x)).isSome
      = (l.find? (fun p => p.1 = x)).isSome := by
  induction l with
  | nil => rfl
  | cons p l ih =>
    rw [List.map_cons]
    by_cases hp : p.1 = x
    · rw [List.find?_cons_of_pos _ (by simp [hF p, hp]),
        List.find?_cons_of_pos _ (by simpa using hp)]
      rfl
    · rw [List.find?_cons_of_neg _ (by simp [hF p, hp]),
        List.find?_cons_of_neg _ (by simpa using hp), ih]

theorem setFold_rank (r2 : Option Int) (u : NId) :
    ∀ (ws : List NId) (h : Graph), (h.node? u).isSome = true →
    ∃ w, ((ws.foldl (fun h3 x =>
        h3.setNode x (fun nv2 => { nv2 with rank := r2 })) h).node? u = some w)
      ∧ (u ∈ ws → w.rank = r2)
      ∧ (¬ u ∈ ws → h.node? u = some w) := by
  intro ws
  induction ws with
  | nil =>
    intro h hs
    obtain ⟨w, hw⟩ := Option.isSome_iff_exists.mp hs
    exact ⟨w, hw, fun hmem => absurd hmem (List.not_mem_nil u), fun _ => hw⟩
  | cons x ws ih =>
    intro h hs
    rw [List.foldl_cons]
    have hset : (h.setNode x (fun nv2 => { nv2 with rank := r2 })).node? u
        = if u = x then (h.node? u).map (fun nv2 => { nv2 with rank := r2 })
          else h.node? u := node?_setNode h x _ u
    have hs2 : ((h.setNode x (fun nv2 => { nv2 with rank := r2 })).node? u).isSome
        = true := by
      rw [hset]
      by_cases hux : u = x
      · rw [if_pos hux]
        simpa using hs
      · rw [if_neg hux]
        exact hs
    obtain ⟨w, hw, hmem, hnmem⟩ := ih _ hs2
    refine ⟨w, hw, ?_, ?_⟩
    · intro hin
      by_cases hws : u ∈ ws
      · exact hmem hws
      · have hux : u = x := by
          rcases List.mem_cons.mp hin with h1 | h1
          · exact h1
          · exact absurd h1 hws
        have hv := hnmem hws
        rw [hset, if_pos hux] at hv
        obtain ⟨nv0, hnv0⟩ := Option.isSome_iff_exists.mp hs
        rw [hnv0] at hv
        have hwv : ({ nv0 with rank := r2 } : NodeVal) = w := by
          simpa using hv
        rw [← hwv]
    · intro hnin
      have hux : ¬ u = x := fun hh => hnin (List.mem_cons.mpr (Or.inl hh))
      have hws : ¬ u ∈ ws := fun hh => hnin (List.mem_cons.mpr (Or.inr hh))
      have hv := hnmem hws
      rw [hset, if_neg hux] at hv
      exact hv

theorem expandFold_rank (R : Graph) (r0 : Option Int) (u : NId) (c : NId)
    (cv : NodeVal) :
    ∀ (cl : List NId) (h : Graph),
    (∀ c2 ∈ cl, ∀ cv2, R.node? c2 = some cv2 → u ∈ cv2.origNodes → cv2.rank = r0) →
    (h.node? u).isSome = true →
    ((∃ w, h.node? u = some w ∧ w.rank = r0)
      ∨ (c ∈ cl ∧ R.node? c = some cv ∧ u ∈ cv.origNodes ∧ cv.rank = r0)) →
    ∃ w, ((cl.foldl (fun h2 c2 =>
        match R.node? c2 with
        | some cv2 => cv2.origNodes.foldl
            (fun h3 x => h3.setNode x (fun nv2 => { nv2 with rank := cv2.rank })) h2
        | none => h2) h).node? u = some w) ∧ w.rank = r0 := by
  intro cl
  induction cl with
  | nil =>
    intro h _ _ hdisj
    rcases hdisj with ⟨w, hw, hr⟩ | ⟨hc, _⟩
    · exact ⟨w, hw, hr⟩
    · exact absurd hc (List.not_mem_nil c)
  | cons c2 cl ih =>
    intro h hall hs hdisj
    rw [List.foldl_cons]
    cases hR : R.node? c2 with
    | none =>
      simp only [hR]
      refine ih h (fun c3 h3 => hall c3 (List.mem_cons_of_mem _ h3)) hs ?_
      rcases hdisj with hleft | ⟨hc, hcv, huin, hr⟩
      · exact Or.inl hleft
      · rcases List.mem_cons.mp hc with rfl | hc2
        · rw [hcv] at hR; cases hR
        · exact Or.inr ⟨hc2, hcv, huin, hr⟩
    | some cv2 =>
      simp only [hR]
      obtain ⟨w2, hw2, hwmem, hwnmem⟩ := setFold_rank cv2.rank u cv2.origNodes h hs
      have hs2 : ((cv2.origNodes.foldl (fun h3 x =>
          h3.setNode x (fun nv2 => { nv2 with rank := cv2.rank })) h).node? u).isSome
          = true := by rw [hw2]; rfl
      refine ih _ (fun c3 h3 => hall c3 (List.mem_cons_of_mem _ h3)) hs2 ?_
      rcases hdisj with ⟨w, hw, hr⟩ | ⟨hc, hcv, huin, hr⟩
      · by_cases hin : u ∈ cv2.origNodes
        · refine Or.inl ⟨w2, hw2, ?_⟩
          rw [hwmem hin]
          exact hall c2 (List.mem_cons_self _ _) cv2 hR hin
        · have := hwnmem hin
          rw [hw] at this
          refine Or.inl ⟨w2, hw2, ?_⟩
          have hww : w = w2 := Option.some.inj this
          rw [← hww]
          exact hr
      · rcases List.mem_cons.mp hc with rfl | hc2
        · have hcve : cv = cv2 := Option.some.inj (hcv.symm.trans hR)
          refine Or.inl ⟨w2, hw2, ?_⟩
          rw [hwmem (by rw [← hcve]; exact huin), ← hcve]
          exact hr
        · exact Or.inr ⟨hc2, hcv, huin, hr⟩

theorem expandRanks_rank (R g1 : Graph) (cl : List NId) (u c : NId)
    (cv : NodeVal) (r0 : Option Int)
    (hcomp : R.compound = some cl)
    (hall : ∀ c2 ∈ cl, ∀ cv2, R.node? c2 = some cv2 → u ∈ cv2.origNodes →
      cv2.rank = r0)
    (hs : (g1.node? u).isSome = true)
    (hc : c ∈ cl) (hcv : R.node? c = some cv) (huin : u ∈ cv.origNodes)
    (hr : cv.rank = r0) :
    (expandRanks R g1).rankOf u = r0 := by
  obtain ⟨w, hw, hrw⟩ := expandFold_rank R r0 u c cv cl g1 hall hs
    (Or.inr ⟨hc, hcv, huin, hr⟩)
  have hx : (expandRanks R g1).node? u = some w := by
    unfold expandRanks
    rw [hcomp]
    exact hw
  unfold Graph.rankOf
  rw [hx]
  simpa using hrw


theorem node?_map_keys_isSome (g : Graph) (F : NId × NodeVal → NId × NodeVal)
    (hF : ∀ p, (F p).1 = p.1) (x : NId) :
    (Graph.node? { g with nodes := g.nodes.map F } x).isSome = (g.node? x).isSome := by
  rw [node?_eq_find, node?_eq_find]
  show (((g.nodes.map F).find? (fun p => p.1 = x)).map (fun p => p.2)).isSome = _
  rw [Option.isSome_map', Option.isSome_map', find?_isSome_map_keys g.nodes F hF x]

/-- C9: on a working graph with duplicate-free original node names, any two
nodes that carry the same integer `prefRank` end the Rank stage with the
same rank: `combineRanks` collapses the class into one compound node, the
ranking phases only reassign ranks, and `expandRanks` broadcasts the
compound's final rank to every member. -/
theorem prefRank_class_same_rank (flips2 : List Nat) (g g2 : Graph) (u v : NId)
    (k : Int) (nu nv : NodeVal)
    (hnd : (g.nodes.map (fun p => p.1)).Nodup)
    (horig : ∀ p ∈ g.nodes, ∃ str, p.1 = NId.orig str)
    (hu : g.node? u = some nu) (hpu : nu.prefRank = some (PrefRank.int k))
    (hv : g.node? v = some nv) (hpv : nv.prefRank = some (PrefRank.int k))
    (hrun : rankStage flips2 g = some g2) :
    g2.rankOf u = g2.rankOf v := by
  obtain ⟨c, cl, cv, hcomp, hcmem, hcv, horigN, huniq⟩ :=
    combineRanks_class flips2 g u k nu hnd horig hu hpu
  unfold rankStage at hrun
  dsimp only at hrun
  cases hir : RankCore.initRank ((combineRanks flips2 g).nodes.map (fun p => p.1))
      (toREdges (combineRanks flips2 g)) with
  | none => rw [hir] at hrun; cases hrun
  | some f =>
    rw [hir] at hrun
    dsimp only at hrun
    cases hfm : (componentsOf (applyInitRanks (combineRanks flips2 g) f)).foldlM
        (fun h c => (feasibleTree h c).map (fun h1 => shiftComponent h1 c))
        (applyInitRanks (combineRanks flips2 g) f) with
    | none => rw [hfm] at hrun; cases hrun
    | some r2 =>
      rw [hfm] at hrun
      dsimp only at hrun
      have hg2 : g2 = expandRanks r2 ({ g with nodes := g.nodes.map (fun p =>
          match r2.node? p.1 with
          | some nv2 => (p.1, nv2)
          | none => p) }) := (Option.some.inj hrun).symm
      have hRO : RankOnly (combineRanks flips2 g) r2 :=
        rankOnly_trans (rankOnly_applyInitRanks _ f) (rankOnly_foldlM _ _ _ hfm)
      have hcomp2 : r2.compound = some cl := hRO.2.trans hcomp
      obtain ⟨cv2, hcv2, hcve⟩ := rankOnly_node?_some hRO hcv
      have horig2 : cv2.origNodes = classMembers (PrefRank.int k) g.nodes := by
        rw [hcve]
        exact horigN
      have hall : ∀ w0, w0 ∈ classMembers (PrefRank.int k) g.nodes →
          ∀ c2 ∈ cl, ∀ cv3, r2.node? c2 = some cv3 → w0 ∈ cv3.origNodes →
            cv3.rank = cv2.rank := by
        intro w0 hw0 c2 hc2 cv3 hcv3 hin
        obtain ⟨cvR, hcvR, hcv3e⟩ := rankOnly_node?_some_rev hRO hcv3
        have hinR : w0 ∈ cvR.origNodes := by
          rw [hcv3e] at hin
          exact hin
        have hceq : c2 = c := huniq w0 hw0 c2 hc2 cvR hcvR hinR
        rw [hceq] at hcv3
        have hce : cv3 = cv2 := Option.some.inj (hcv3.symm.trans hcv2)
        rw [hce]
      have humem : u ∈ classMembers (PrefRank.int k) g.nodes :=
        mem_classMembers (node?_mem hu) hpu
      have hvmem : v ∈ classMembers (PrefRank.int k) g.nodes :=
        mem_classMembers (node?_mem hv) hpv
      have huin : u ∈ cv2.origNodes := by rw [horig2]; exact humem
      have hvin : v ∈ cv2.origNodes := by rw [horig2]; exact hvmem
      have hFkeys : ∀ p : NId × NodeVal, ((fun (p : NId × NodeVal) =>
          match r2.node? p.1 with
          | some nv2 => (p.1, nv2)
          | none => p) p).1 = p.1 := by
        intro p
        dsimp only
        cases hx : r2.node? p.1 with
        | none => rfl
        | some nv2 => rfl
      have hsu : ((Graph.node? { g with nodes := g.nodes.map (fun p =>
          match r2.node? p.1 with
          | some nv2 => (p.1, nv2)
          | none => p) } u).isSome) = true := by
        rw [node?_map_keys_isSome g _ hFkeys u, hu]
        rfl
      have hsv : ((Graph.node? { g with nodes := g.nodes.map (fun p =>
          match r2.node? p.1 with
          | some nv2 => (p.1, nv2)
          | none => p) } v).isSome) = true := by
        rw [node?_map_keys_isSome g _ hFkeys v, hv]
        rfl
      have hru : g2.rankOf u = cv2.rank := by
        rw [hg2]
        exact expandRanks_rank r2 _ cl u c cv2 cv2.rank hcomp2 (hall u humem)
          hsu hcmem hcv2 huin rfl
      have hrv : g2.rankOf v = cv2.rank := by
        rw [hg2]
        exact expandRanks_rank r2 _ cl v c cv2 cv2.rank hcomp2 (hall v hvmem)
          hsv hcmem hcv2 hvin rfl
      rw [hru, hrv]


theorem prefRank_class_same_rank_witness :
    (rankStage [] c9In).isSome = true ∧
    ((rankStage [] c9In).getD {}).rankOf (NId.orig "a")
      = ((rankStage [] c9In).getD {}).rankOf (NId.orig "b") :=
  ⟨by decide,
   prefRank_class_same_rank [] c9In ((rankStage [] c9In).getD {})
     (NId.orig "a") (NId.orig "b") 0
     { prefRank := some (PrefRank.int 0) } { prefRank := some (PrefRank.int 0) }
     (by decide)
     (by
       intro p hp
       rcases List.mem_cons.mp hp with rfl | hp
       · exact ⟨"a", rfl⟩
       · rcases List.mem_cons.mp hp with rfl | hp
         · exact ⟨"b", rfl⟩
         · cases hp)
     rfl rfl rfl rfl rfl⟩

end Dagre

namespace RankCore

variable {α : Type} [DecidableEq α]

theorem pushFold_pq (r : Int) (L : List (REdge α)) :
    ∀ (mr0 : α → Int) (pq0 : List (α × Nat)),
    (L.foldl (pushEdge r) (mr0, pq0)).2
      = pq0.map (fun q => (q.1, q.2 - (L.filter (fun e => e.tgt = q.1)).length)) := by
  induction L with
  | nil =>
    intro mr0 pq0
    simp [Prod.mk.eta]
  | cons e L ih =>
    intro mr0 pq0
    rw [List.foldl_cons]
    have hstep : pushEdge r (mr0, pq0) e
        = ((pushEdge r (mr0, pq0) e).1, pqDec e.tgt pq0) := rfl
    rw [hstep, ih]
    unfold pqDec
    rw [List.map_map]
    apply List.map_congr_left
    intro q _
    by_cases h : q.1 = e.tgt
    · simp only [Function.comp, if_pos h]
      rw [List.filter_cons]
      rw [if_pos (by simpa using h.symm)]
      simp [Nat.sub_sub, Nat.add_comm]
    · simp only [Function.comp, if_neg h]
      rw [List.filter_cons]
      rw [if_neg (by simpa using fun hh => h hh.symm)]

theorem pushFold_mr_ge (r : Int) (L : List (REdge α)) :
    ∀ (mr0 : α → Int) (pq0 : List (α × Nat)) (x : α),
    mr0 x ≤ (L.foldl (pushEdge r) (mr0, pq0)).1 x := by
  induction L with
  | nil => intro mr0 pq0 x; exact le_refl _
  | cons e L ih =>
    intro mr0 pq0 x
    rw [List.foldl_cons]
    refine le_trans ?_ (ih _ _ x)
    show mr0 x ≤ (fun y => if y = e.tgt then max (mr0 e.tgt) (r + e.len) else mr0 y) x
    dsimp only
    by_cases h : x = e.tgt
    · rw [if_pos h, h]
      exact le_max_left _ _
    · rw [if_neg h]

theorem pushFold_mr_edge (r : Int) (L : List (REdge α)) :
    ∀ (mr0 : α → Int) (pq0 : List (α × Nat)) (e : REdge α), e ∈ L →
    r + e.len ≤ (L.foldl (pushEdge r) (mr0, pq0)).1 e.tgt := by
  induction L with
  | nil => intro mr0 pq0 e he; cases he
  | cons e2 L ih =>
    intro mr0 pq0 e he
    rw [List.foldl_cons]
    rcases List.mem_cons.mp he with rfl | he2
    · refine le_trans ?_ (pushFold_mr_ge r L _ _ e.tgt)
      show r + e.len ≤ (fun y => if y = e.tgt then max (mr0 e.tgt) (r + e.len) else mr0 y) e.tgt
      dsimp only
      rw [if_pos rfl]
      exact le_max_right _ _
    · exact ih _ _ e he2

theorem length_filter_split (l : List (REdge α)) (p q p2 : REdge α → Bool)
    (hsub : ∀ x ∈ l, q x = true → p x = true)
    (hp2 : ∀ x ∈ l, p2 x = (p x && !(q x))) :
    (l.filter p).length = (l.filter p2).length + (l.filter q).length := by
  induction l with
  | nil => rfl
  | cons x l ih =>
    have ih2 := ih (fun y hy => hsub y (List.mem_cons_of_mem _ hy))
      (fun y hy => hp2 y (List.mem_cons_of_mem _ hy))
    have hx2 := hp2 x (List.mem_cons_self _ _)
    have hxs := hsub x (List.mem_cons_self _ _)
    by_cases hq : q x = true
    · have hpx : p x = true := hxs hq
      have hp2x : p2 x = false := by rw [hx2, hq]; simp
      simp [List.filter_cons, hq, hpx, hp2x, ih2]
      omega
    · have hq' : q x = false := by simpa using hq
      by_cases hp : p x = true
      · have hp2x : p2 x = true := by rw [hx2, hq', hp]; simp
        simp [List.filter_cons, hq', hp, hp2x, ih2]
        omega
      · have hp' : p x = false := by simpa using hp
        have hp2x : p2 x = false := by rw [hx2, hp']; simp
        simp [List.filter_cons, hq', hp', hp2x, ih2]


theorem step_inv (nodes : List α) (edges : List (REdge α)) (st : St α) (u : α)
    (hmem : (u, 0) ∈ st.pq) (hinv : RkInv nodes edges st) :
    RkInv nodes edges (step edges u st) := by
  obtain ⟨hNd, hSub, hIff, hPr, hFeas, hRkSrc⟩ := hinv
  have humem_n : u ∈ nodes := hSub (u, 0) hmem
  have hu_none : st.rk u = none := by
    rw [hIff u humem_n]
    exact List.mem_map_of_mem _ hmem
  have hfil_nil : edges.filter
      (fun e => decide (e.tgt = u) && (st.rk e.src).isNone) = [] := by
    have h0 := hPr (u, 0) hmem
    exact List.length_eq_zero.mp h0.symm
  have hin_ranked : ∀ e ∈ edges, e.tgt = u → (st.rk e.src).isSome = true := by
    intro e he htgt
    by_contra hns
    have hnone : (st.rk e.src).isNone = true := by
      cases hx : st.rk e.src
      · rfl
      · rw [hx] at hns; exact absurd rfl hns
    have : e ∈ edges.filter
        (fun e => decide (e.tgt = u) && (st.rk e.src).isNone) :=
      List.mem_filter.mpr ⟨he, by rw [hnone]; simpa using htgt⟩
    rw [hfil_nil] at this
    cases this
  have hnoself : ∀ e ∈ edges, e.src = u → ¬ e.tgt = u := by
    intro e he hsrc htgt
    have := hin_ranked e he htgt
    rw [hsrc, hu_none] at this
    cases this
  have hpqF : (step edges u st).pq
      = (pqRemove u st.pq).map (fun q => (q.1, q.2
          - ((outE edges u).filter (fun e => e.tgt = q.1)).length)) :=
    pushFold_pq (st.mr u) (outE edges u) st.mr (pqRemove u st.pq)
  have hmrF_ge : ∀ x, st.mr x ≤ (step edges u st).mr x :=
    fun x => pushFold_mr_ge (st.mr u) (outE edges u) st.mr (pqRemove u st.pq) x
  have hmrF_edge : ∀ e ∈ outE edges u,
      st.mr u + e.len ≤ (step edges u st).mr e.tgt :=
    fun e he => pushFold_mr_edge (st.mr u) (outE edges u) st.mr (pqRemove u st.pq) e he
  have hrk : (step edges u st).rk
      = fun x => if x = u then some (st.mr u) else st.rk x := rfl
  refine ⟨?_, ?_, ?_, ?_, ?_, ?_⟩
  · rw [hpqF, List.map_map]
    show ((pqRemove u st.pq).map (fun q => q.1)).Nodup
    exact hNd.sublist ((List.filter_sublist _).map _)
  · rw [hpqF]
    intro q hq
    obtain ⟨q0, hq0, rfl⟩ := List.mem_map.mp hq
    exact hSub q0 (List.mem_of_mem_filter hq0)
  · intro w hw
    rw [hrk, hpqF, List.map_map]
    show (if w = u then some (st.mr u) else st.rk w) = none
      ↔ w ∈ (pqRemove u st.pq).map (fun q => q.1)
    by_cases hwu : w = u
    · rw [if_pos hwu]
      constructor
      · intro hc; cases hc
      · intro hc
        obtain ⟨q0, hq0, hq0e⟩ := List.mem_map.mp hc
        have := (List.mem_filter.mp hq0).2
        rw [hq0e, hwu] at this
        simp at this
    · rw [if_neg hwu]
      rw [hIff w hw]
      constructor
      · intro hc
        obtain ⟨q0, hq0, hq0e⟩ := List.mem_map.mp hc
        refine List.mem_map.mpr ⟨q0, List.mem_filter.mpr ⟨hq0, ?_⟩, hq0e⟩
        rw [hq0e]
        simpa using hwu
      · intro hc
        obtain ⟨q0, hq0, hq0e⟩ := List.mem_map.mp hc
        exact List.mem_map.mpr ⟨q0, List.mem_of_mem_filter hq0, hq0e⟩
  · rw [hpqF]
    intro q hq
    obtain ⟨q0, hq0, rfl⟩ := List.mem_map.mp hq
    have hq0m : q0 ∈ st.pq := List.mem_of_mem_filter hq0
    have hold := hPr q0 hq0m
    have hsplit := length_filter_split edges
      (fun e => decide (e.tgt = q0.1) && (st.rk e.src).isNone)
      (fun e => decide (e.tgt = q0.1) && decide (e.src = u))
      (fun e => decide (e.tgt = q0.1) && ((step edges u st).rk e.src).isNone)
      (by
        intro e _ hqp
        have h1 : e.tgt = q0.1 := by
          have := (Bool.and_eq_true _ _).mp hqp
          simpa using this.1
        have h2 : e.src = u := by
          have := (Bool.and_eq_true _ _).mp hqp
          simpa using this.2
        have h3 : (st.rk e.src).isNone = true := by rw [h2, hu_none]; rfl
        show (decide (e.tgt = q0.1) && (st.rk e.src).isNone) = true
        rw [h3]
        simpa using h1)
      (by
        intro e _
        dsimp only
        rw [hrk]
        dsimp only
        by_cases hsrc : e.src = u
        · rw [if_pos hsrc]
          have h2 : decide (e.src = u) = true := by simpa using hsrc
          rw [h2]
          cases decide (e.tgt = q0.1) <;> cases (st.rk e.src).isNone <;> rfl
        · rw [if_neg hsrc]
          have h2 : decide (e.src = u) = false := by simpa using hsrc
          rw [h2]
          cases decide (e.tgt = q0.1) <;> cases (st.rk e.src).isNone <;> rfl)
    have hcnt : ((outE edges u).filter (fun e => e.tgt = q0.1)).length
        = (edges.filter (fun e => decide (e.tgt = q0.1) && decide (e.src = u))).length := by
      unfold outE
      rw [List.filter_filter]
    dsimp only
    rw [hcnt, hold, hsplit]
    omega
  · intro e he ru hsrc
    rw [hrk] at hsrc
    dsimp only at hsrc
    by_cases hsu : e.src = u
    · rw [if_pos hsu] at hsrc
      have hru : ru = st.mr u := (Option.some.inj hsrc).symm
      have htne : ¬ e.tgt = u := hnoself e he hsu
      constructor
      · intro _
        rw [hru]
        exact hmrF_edge e (List.mem_filter.mpr ⟨he, by simpa using hsu⟩)
      · intro rv hrv
        exfalso
        rw [hrk] at hrv
        dsimp only at hrv
        rw [if_neg htne] at hrv
        have h1 : (st.rk e.tgt).isSome = true := by rw [hrv]; rfl
        have := hRkSrc e he h1
        rw [hsu, hu_none] at this
        cases this
    · rw [if_neg hsu] at hsrc
      obtain ⟨hf1, hf2⟩ := hFeas e he ru hsrc
      by_cases htu : e.tgt = u
      · constructor
        · intro hc
          rw [hrk] at hc
          dsimp only at hc
          rw [if_pos htu] at hc
          cases hc
        · intro rv hrv
          rw [hrk] at hrv
          dsimp only at hrv
          rw [if_pos htu] at hrv
          have hrvm : rv = st.mr u := (Option.some.inj hrv).symm
          rw [hrvm, ← htu]
          exact hf1 (by rw [htu]; exact hu_none)
      · have hdt : (step edges u st).rk e.tgt = st.rk e.tgt := by
          rw [hrk]
          dsimp only
          exact if_neg htu
        constructor
        · intro hc
          rw [hdt] at hc
          exact le_trans (hf1 hc) (hmrF_ge e.tgt)
        · intro rv hrv
          rw [hdt] at hrv
          exact hf2 rv hrv
  · intro e he h
    rw [hrk]
    by_cases hsu : e.src = u
    · show ((if e.src = u then some (st.mr u) else st.rk e.src)).isSome = true
      rw [if_pos hsu]
      rfl
    · show ((if e.src = u then some (st.mr u) else st.rk e.src)).isSome = true
      rw [if_neg hsu]
      by_cases htu : e.tgt = u
      · exact hin_ranked e he htu
      · apply hRkSrc e he
        rw [hrk] at h
        dsimp only at h
        rw [if_neg htu] at h
        exact h


theorem rkinv_done (nodes : List α) (edges : List (REdge α)) (st : St α)
    (hinv : RkInv nodes edges st) (hpq : st.pq = []) :
    (∀ w ∈ nodes, ∃ rw2, st.rk w = some rw2) ∧
    (∀ e ∈ edges, ∀ ru rv, st.rk e.src = some ru → st.rk e.tgt = some rv →
      ru + e.len ≤ rv) := by
  obtain ⟨_, _, hIff, _, hFeas, _⟩ := hinv
  constructor
  · intro w hw
    have h1 := hIff w hw
    rw [hpq] at h1
    cases hx : st.rk w with
    | none =>
      exfalso
      have := h1.mp hx
      cases this
    | some rv => exact ⟨rv, rfl⟩
  · intro e he ru rv h1 h2
    exact (hFeas e he ru h1).2 rv h2

theorem loop_inv_feasible (nodes : List α) (edges : List (REdge α)) :
    ∀ (fuel : Nat) (st : St α) (r : α → Option Int),
    RkInv nodes edges st → loop edges fuel st = some r →
    (∀ w ∈ nodes, ∃ rw2, r w = some rw2) ∧
    (∀ e ∈ edges, ∀ ru rv, r e.src = some ru → r e.tgt = some rv →
      ru + e.len ≤ rv) := by
  intro fuel
  induction fuel with
  | zero =>
    intro st r hinv heq
    cases hpm : pqMin st.pq with
    | some up => simp only [loop, hpm] at heq; cases heq
    | none =>
      have hpq : st.pq = [] := by
        cases hl : st.pq with
        | nil => rfl
        | cons y ys => rw [hl] at hpm; cases hpm
      simp only [loop, hpm] at heq
      have hre : st.rk = r := Option.some.inj heq
      rw [← hre]
      exact rkinv_done nodes edges st hinv hpq
  | succ fuel ih =>
    intro st r hinv heq
    cases hpm : pqMin st.pq with
    | none =>
      have hpq : st.pq = [] := by
        cases hl : st.pq with
        | nil => rfl
        | cons y ys => rw [hl] at hpm; cases hpm
      simp only [loop, hpm] at heq
      have hre : st.rk = r := Option.some.inj heq
      rw [← hre]
      exact rkinv_done nodes edges st hinv hpq
    | some up =>
      simp only [loop, hpm] at heq
      by_cases hp : 0 < up.2
      · rw [if_pos hp] at heq; cases heq
      · rw [if_neg hp] at heq
        have hup0 : up.2 = 0 := Nat.eq_zero_of_not_pos hp
        have hmem : (up.1, 0) ∈ st.pq := by
          rw [← hup0]
          have h2 : (up.1, up.2) = up := rfl
          rw [h2]
          exact pqMin_mem hpm
        exact ih (step edges up.1 st) r
          (step_inv nodes edges st up.1 hmem hinv) heq

/-- C1 (amended): whenever `initRank` completes without the `NotAcyclic`
error, every node receives a rank and the ranking is feasible:
`rank(src) + len <= rank(tgt)` for every edge. -/
theorem initRank_feasible (nodes : List α) (edges : List (REdge α))
    (r : α → Option Int) (hnd : nodes.Nodup)
    (hwf : ∀ e ∈ edges, e.src ∈ nodes ∧ e.tgt ∈ nodes)
    (hr : initRank nodes edges = some r) :
    (∀ w ∈ nodes, ∃ rw2, r w = some rw2) ∧
    (∀ e ∈ edges, ∀ ru rv, r e.src = some ru → r e.tgt = some rv →
      ru + e.len ≤ rv) := by
  unfold initRank at hr
  refine loop_inv_feasible nodes edges nodes.length _ r ?_ hr
  refine ⟨?_, ?_, ?_, ?_, ?_, ?_⟩
  · rw [List.map_map]
    show (nodes.map (fun u => u)).Nodup
    simpa using hnd
  · intro q hq
    obtain ⟨w, hw, rfl⟩ := List.mem_map.mp hq
    exact hw
  · intro w hw
    constructor
    · intro _
      rw [List.map_map]
      show w ∈ nodes.map (fun u => u)
      simpa using hw
    · intro _
      rfl
  · intro q hq
    obtain ⟨w, hw, rfl⟩ := List.mem_map.mp hq
    show (edges.filter (fun e => e.tgt = w)).length = _
    apply congrArg
    apply List.filter_congr
    intro e _
    show decide (e.tgt = w) = (decide (e.tgt = w) && ((none : Option Int)).isNone)
    cases decide (e.tgt = w) <;> rfl
  · intro e _ ru h
    cases h
  · intro e _ h
    cases h


theorem initRank_feasible_witness :
    (∀ w ∈ ([0, 1] : List Nat), ∃ rw2,
        ((initRank [0, 1] ([⟨0, 1, 1⟩] : List (REdge Nat))).getD
          (fun _ => none)) w = some rw2) ∧
    (∀ e ∈ ([⟨0, 1, 1⟩] : List (REdge Nat)), ∀ ru rv,
        ((initRank [0, 1] [⟨0, 1, 1⟩]).getD (fun _ => none)) e.src = some ru →
        ((initRank [0, 1] [⟨0, 1, 1⟩]).getD (fun _ => none)) e.tgt = some rv →
        ru + e.len ≤ rv) :=
  initRank_feasible [0, 1] [⟨0, 1, 1⟩] _ (by decide) (by decide) (by rfl)


theorem pqMinFrom_min (x : α × Nat) (xs : List (α × Nat)) :
    ∀ q ∈ x :: xs, (pqMinFrom x xs).2 ≤ q.2 := by
  induction xs generalizing x with
  | nil =>
    intro q hq
    rcases List.mem_cons.mp hq with rfl | h
    · exact le_refl _
    · cases h
  | cons y ys ih =>
    intro q hq
    have hstep : pqMinFrom x (y :: ys) = pqMinFrom (if y.2 < x.2 then y else x) ys := rfl
    rw [hstep]
    have hzx : (if y.2 < x.2 then y else x).2 ≤ x.2
        ∧ (if y.2 < x.2 then y else x).2 ≤ y.2 := by
      by_cases h : y.2 < x.2
      · rw [if_pos h]; exact ⟨le_of_lt h, le_refl _⟩
      · rw [if_neg h]; exact ⟨le_refl _, Nat.le_of_not_lt h⟩
    have hhead := ih (if y.2 < x.2 then y else x) _
      (List.mem_cons_self (if y.2 < x.2 then y else x) ys)
    rcases List.mem_cons.mp hq with rfl | hq2
    · exact le_trans hhead hzx.1
    · rcases List.mem_cons.mp hq2 with rfl | hq3
      · exact le_trans hhead hzx.2
      · exact ih (if y.2 < x.2 then y else x) q (List.mem_cons_of_mem _ hq3)

theorem pqMin_min {pq : List (α × Nat)} {up : α × Nat}
    (h : pqMin pq = some up) : ∀ q ∈ pq, up.2 ≤ q.2 := by
  cases pq with
  | nil => cases h
  | cons x xs =>
    have hx : pqMinFrom x xs = up := by simpa [pqMin] using h
    intro q hq
    rw [← hx]
    exact pqMinFrom_min x xs q hq

theorem exists_min_image_nat (l : List α) (f : α → Nat) (h : l ≠ []) :
    ∃ a ∈ l, ∀ b ∈ l, f a ≤ f b := by
  induction l with
  | nil => exact absurd rfl h
  | cons x l ih =>
    by_cases hl : l = []
    · refine ⟨x, List.mem_cons_self _ _, ?_⟩
      intro b hb
      rcases List.mem_cons.mp hb with rfl | hb2
      · exact le_refl _
      · rw [hl] at hb2; cases hb2
    · obtain ⟨a, ha, hamin⟩ := ih hl
      by_cases hc : f x ≤ f a
      · refine ⟨x, List.mem_cons_self _ _, ?_⟩
        intro b hb
        rcases List.mem_cons.mp hb with rfl | hb2
        · exact le_refl _
        · exact le_trans hc (hamin b hb2)
      · refine ⟨a, List.mem_cons_of_mem _ ha, ?_⟩
        intro b hb
        rcases List.mem_cons.mp hb with rfl | hb2
        · exact Nat.le_of_not_le hc
        · exact hamin b hb2

theorem exists_zero_priority (nodes : List α) (edges : List (REdge α))
    (f : α → Nat) (st : St α) (hinv : RkInv nodes edges st)
    (hwf : ∀ e ∈ edges, e.src ∈ nodes ∧ e.tgt ∈ nodes)
    (hacy : ∀ e ∈ edges, f e.src < f e.tgt)
    (hne : st.pq ≠ []) :
    ∃ q ∈ st.pq, q.2 = 0 := by
  obtain ⟨hNd, hSub, hIff, hPr, hFeas, hRkSrc⟩ := hinv
  have hkeysne : st.pq.map (fun q => q.1) ≠ [] := by
    intro hc
    exact hne (List.map_eq_nil.mp hc)
  obtain ⟨w, hwk, hwmin⟩ := exists_min_image_nat _ f hkeysne
  obtain ⟨q, hq, hq1⟩ := List.mem_map.mp hwk
  refine ⟨q, hq, ?_⟩
  rw [hPr q hq, List.length_eq_zero, List.filter_eq_nil]
  intro e he
  intro hcontra
  have h1 : e.tgt = q.1 := by
    have := (Bool.and_eq_true _ _).mp hcontra
    simpa using this.1
  have h2 : st.rk e.src = none := by
    have := (Bool.and_eq_true _ _).mp hcontra
    cases hx : st.rk e.src
    · rfl
    · rw [hx] at this; cases this.2
  have hsrc_un : e.src ∈ st.pq.map (fun q => q.1) :=
    (hIff e.src (hwf e he).1).mp h2
  have h3 : f e.src < f e.tgt := hacy e he
  have h4 : f w ≤ f e.src := hwmin e.src hsrc_un
  rw [h1, hq1] at h3
  omega

theorem initRank_init_inv (nodes : List α) (edges : List (REdge α))
    (hnd : nodes.Nodup) (hwf : ∀ e ∈ edges, e.src ∈ nodes ∧ e.tgt ∈ nodes) :
    RkInv nodes edges
      ⟨nodes.map (fun u => (u, (edges.filter (fun e => e.tgt = u)).length)),
       fun _ => 0, fun _ => none⟩ := by
  refine ⟨?_, ?_, ?_, ?_, ?_, ?_⟩
  · rw [List.map_map]
    show (nodes.map (fun u => u)).Nodup
    simpa using hnd
  · intro q hq
    obtain ⟨w, hw, rfl⟩ := List.mem_map.mp hq
    exact hw
  · intro w hw
    constructor
    · intro _
      rw [List.map_map]
      show w ∈ nodes.map (fun u => u)
      simpa using hw
    · intro _
      rfl
  · intro q hq
    obtain ⟨w, hw, rfl⟩ := List.mem_map.mp hq
    show (edges.filter (fun e => e.tgt = w)).length = _
    apply congrArg
    apply List.filter_congr
    intro e _
    show decide (e.tgt = w) = (decide (e.tgt = w) && ((none : Option Int)).isNone)
    cases decide (e.tgt = w) <;> rfl
  · intro e _ ru h
    cases h
  · intro e _ h
    cases h

theorem loop_acyclic_some (nodes : List α) (edges : List (REdge α)) (f : α → Nat)
    (hwf : ∀ e ∈ edges, e.src ∈ nodes ∧ e.tgt ∈ nodes)
    (hacy : ∀ e ∈ edges, f e.src < f e.tgt) :
    ∀ (fuel : Nat) (st : St α), RkInv nodes edges st → st.pq.length ≤ fuel →
    ∃ r, loop edges fuel st = some r := by
  intro fuel
  induction fuel with
  | zero =>
    intro st hinv hlen
    have hpq : st.pq = [] := List.length_eq_zero.mp (Nat.le_zero.mp hlen)
    refine ⟨st.rk, ?_⟩
    have hpm : pqMin st.pq = none := by rw [hpq]; rfl
    simp only [loop, hpm]
  | succ fuel ih =>
    intro st hinv hlen
    cases hpm : pqMin st.pq with
    | none =>
      refine ⟨st.rk, ?_⟩
      simp only [loop, hpm]
    | some up =>
      have hne : st.pq ≠ [] := by
        intro hc
        rw [hc] at hpm
        cases hpm
      obtain ⟨q0, hq0, hq00⟩ := exists_zero_priority nodes edges f st hinv hwf hacy hne
      have hup : up.2 = 0 := Nat.le_zero.mp (by rw [← hq00]; exact pqMin_min hpm q0 hq0)
      have hmem : (up.1, 0) ∈ st.pq := by
        rw [← hup]
        have h2 : (up.1, up.2) = up := rfl
        rw [h2]
        exact pqMin_mem hpm
      have hinv2 := step_inv nodes edges st up.1 hmem hinv
      have hlen2 : (step edges up.1 st).pq.length ≤ fuel := by
        have := @step_pq_length α _ edges up.1 0 st hmem
        omega
      obtain ⟨r, hr⟩ := ih (step edges up.1 st) hinv2 hlen2
      refine ⟨r, ?_⟩
      simp only [loop, hpm]
      rw [if_neg (by omega : ¬ 0 < up.2)]
      exact hr

/-- C7: with a non-empty queue whose minimum priority is positive the loop
raises the fatal `NotAcyclic` error (returns `none`, at any fuel);
conversely on an acyclic edge set (witnessed by a topological numbering)
`initRank` succeeds and ranks every node. -/
theorem initRank_acyclic (nodes : List α) (edges : List (REdge α))
    (hnd : nodes.Nodup)
    (hwf : ∀ e ∈ edges, e.src ∈ nodes ∧ e.tgt ∈ nodes) :
    (∀ (fuel : Nat) (st : St α) (up : α × Nat),
        pqMin st.pq = some up → 0 < up.2 → loop edges fuel st = none) ∧
    ((∃ f : α → Nat, ∀ e ∈ edges, f e.src < f e.tgt) →
      ∃ r, initRank nodes edges = some r ∧ ∀ w ∈ nodes, ∃ rw2, r w = some rw2) := by
  constructor
  · intro fuel st up hpm hpos
    cases fuel with
    | zero => simp only [loop, hpm]
    | succ fuel =>
      simp only [loop, hpm]
      rw [if_pos hpos]
  · rintro ⟨f, hacy⟩
    obtain ⟨r, hr⟩ := loop_acyclic_some nodes edges f hwf hacy nodes.length
      ⟨nodes.map (fun u => (u, (edges.filter (fun e => e.tgt = u)).length)),
       fun _ => 0, fun _ => none⟩
      (initRank_init_inv nodes edges hnd hwf)
      (by simp)
    refine ⟨r, hr, ?_⟩
    exact (initRank_feasible nodes edges r hnd hwf hr).1

theorem initRank_acyclic_witness :
    (loop ([⟨0, 1, 1⟩] : List (REdge Nat)) 0
        ⟨[(5, 3)], fun _ => 0, fun _ => none⟩ = none) ∧
    ∃ r, initRank ([0, 1] : List Nat) [⟨0, 1, 1⟩] = some r
      ∧ ∀ w ∈ ([0, 1] : List Nat), ∃ rw2, r w = some rw2 :=
  have T := initRank_acyclic [0, 1] [⟨0, 1, 1⟩] (by decide) (by decide)
  ⟨T.1 0 ⟨[(5, 3)], fun _ => 0, fun _ => none⟩ (5, 3) rfl (by decide),
   T.2 ⟨id, by decide⟩⟩

end RankCore

namespace Dagre


theorem chainGo_spec (e : Edge) (tr : Int) :
    ∀ (k : Nat) (u : NId) (r : Int) (i : Nat) (h : Graph) (c : Nat),
    chainGo e tr k u r i (h, c)
      = ({ h with nodes := h.nodes ++ chainNodes e tr k r i c,
                  edges := h.edges ++ chainEdges e.tgt k u c h.nextE,
                  nextE := h.nextE + (k + 1) }, c + k) := by
  intro k
  induction k with
  | zero =>
    intro u r i h c
    show (h.addEdgeAuto u e.tgt {}, c) = _
    unfold Graph.addEdgeAuto
    simp [chainNodes, chainEdges]
  | succ k ih =>
    intro u r i h c
    show chainGo e tr k (NId.dum (c + 1)) (r + 1) (i + 1)
        ((h.addNode (NId.dum (c + 1)) (dummyVal e r (chainIdx tr r i))).addEdgeAuto
           u (NId.dum (c + 1)) {}, c + 1) = _
    rw [ih]
    unfold Graph.addNode Graph.addEdgeAuto
    simp only [chainNodes, chainEdges]
    refine Prod.ext ?_ ?_
    · show ({ h with
          nodes := (h.nodes ++ [(NId.dum (c + 1), dummyVal e r (chainIdx tr r i))])
                     ++ chainNodes e tr k (r + 1) (i + 1) (c + 1),
          edges := (h.edges ++ [⟨h.nextE, u, NId.dum (c + 1), {}⟩])
                     ++ chainEdges e.tgt k (NId.dum (c + 1)) (c + 1) (h.nextE + 1),
          nextE := h.nextE + 1 + (k + 1) } : Graph) = _
      simp [List.append_assoc]
      omega
    · show c + 1 + k = c + (k + 1)
      omega


theorem chainNodes_props (e : Edge) (tr : Int) :
    ∀ (k : Nat) (r : Int) (i c : Nat), ∀ p ∈ chainNodes e tr k r i c,
    (∃ n, p.1 = NId.dum n ∧ c < n ∧ n ≤ c + k) ∧ p.2.dummy = true
      ∧ p.2.edge = some ⟨e.id, e.src, e.tgt, e.val⟩ := by
  intro k
  induction k with
  | zero => intro r i c p hp; cases hp
  | succ k ih =>
    intro r i c p hp
    rcases List.mem_cons.mp hp with rfl | hp2
    · exact ⟨⟨c + 1, rfl, by omega, by omega⟩, rfl, rfl⟩
    · obtain ⟨⟨n, h1, h2, h3⟩, h4, h5⟩ := ih (r + 1) (i + 1) (c + 1) p hp2
      exact ⟨⟨n, h1, by omega, by omega⟩, h4, h5⟩

theorem chainNodes_find (e : Edge) (tr : Int) :
    ∀ (k : Nat) (r : Int) (i c : Nat) (j : Nat), j < k →
    (chainNodes e tr k r i c).find? (fun p => p.1 = NId.dum (c + 1 + j))
      = some (NId.dum (c + 1 + j), dummyVal e (r + j) (chainIdx tr (r + j) (i + j))) := by
  intro k
  induction k with
  | zero => intro r i c j hj; omega
  | succ k ih =>
    intro r i c j hj
    cases j with
    | zero =>
      simp only [chainNodes]
      rw [List.find?_cons_of_pos _ (by simp)]
      simp
    | succ j =>
      simp only [chainNodes]
      rw [List.find?_cons_of_neg _ (by simp)]
      have hrec := ih (r + 1) (i + 1) (c + 1) j (by omega)
      rw [show c + 1 + 1 + j = c + 1 + (j + 1) by omega] at hrec
      rw [hrec]
      have h1 : r + 1 + (j : Int) = r + ((j : Nat) + 1 : Nat) := by push_cast; ring
      have h2 : i + 1 + j = i + (j + 1) := by omega
      rw [h1, h2]

theorem chainEdges_ids (tgt : NId) :
    ∀ (k : Nat) (u : NId) (c nE : Nat), ∀ e2 ∈ chainEdges tgt k u c nE,
    nE ≤ e2.id ∧ e2.val = ({} : EdgeVal) := by
  intro k
  induction k with
  | zero =>
    intro u c nE e2 he2
    rcases List.mem_cons.mp he2 with rfl | h
    · exact ⟨le_refl _, rfl⟩
    · cases h
  | succ k ih =>
    intro u c nE e2 he2
    rcases List.mem_cons.mp he2 with rfl | h
    · exact ⟨le_refl _, rfl⟩
    · obtain ⟨h1, h2⟩ := ih (NId.dum (c + 1)) (c + 1) (nE + 1) e2 h
      exact ⟨by omega, h2⟩

theorem chainEdges_head (tgt : NId) (k : Nat) (u : NId) (c nE : Nat) (hk : 1 ≤ k) :
    (⟨nE, u, NId.dum (c + 1), {}⟩ : Edge) ∈ chainEdges tgt k u c nE := by
  cases k with
  | zero => omega
  | succ k => exact List.mem_cons_self _ _

theorem chainEdges_interior (tgt : NId) :
    ∀ (k : Nat) (u : NId) (c nE : Nat) (j : Nat), j + 2 ≤ k →
    (⟨nE + 1 + j, NId.dum (c + 1 + j), NId.dum (c + 2 + j), {}⟩ : Edge)
      ∈ chainEdges tgt k u c nE := by
  intro k
  induction k with
  | zero => intro u c nE j hj; omega
  | succ k ih =>
    intro u c nE j hj
    cases j with
    | zero =>
      apply List.mem_cons_of_mem
      have hk : 1 ≤ k := by omega
      have := chainEdges_head tgt k (NId.dum (c + 1)) (c + 1) (nE + 1) hk
      rw [show nE + 1 + 0 = nE + 1 by omega, show c + 1 + 0 = c + 1 by omega,
        show c + 2 + 0 = c + 1 + 1 by omega]
      exact this
    | succ j =>
      apply List.mem_cons_of_mem
      have := ih (NId.dum (c + 1)) (c + 1) (nE + 1) j (by omega)
      rw [show nE + 1 + (j + 1) = nE + 1 + 1 + j by omega,
        show c + 1 + (j + 1) = c + 1 + 1 + j by omega,
        show c + 2 + (j + 1) = c + 1 + 2 + j by omega]
      exact this

theorem chainEdges_last (tgt : NId) :
    ∀ (k : Nat) (u : NId) (c nE : Nat), 1 ≤ k →
    (⟨nE + k, NId.dum (c + k), tgt, {}⟩ : Edge) ∈ chainEdges tgt k u c nE := by
  intro k
  induction k with
  | zero => intro u c nE h; omega
  | succ k ih =>
    intro u c nE _
    simp only [chainEdges]
    apply List.mem_cons_of_mem
    by_cases hk : 1 ≤ k
    · have hrec := ih (NId.dum (c + 1)) (c + 1) (nE + 1) hk
      rw [show nE + (k + 1) = nE + 1 + k by omega,
        show c + (k + 1) = c + 1 + k by omega]
      exact hrec
    · have hk0 : k = 0 := by omega
      subst hk0
      rw [show nE + (0 + 1) = nE + 1 by omega, show c + (0 + 1) = c + 1 by omega]
      simp only [chainEdges]
      exact List.mem_cons_self _ _


theorem find?_append_left3 {γ : Type} (l1 l2 : List γ) (pr : γ → Bool) (x : γ)
    (h : l1.find? pr = some x) : (l1 ++ l2).find? pr = some x := by
  induction l1 with
  | nil => cases h
  | cons a l1 ih =>
    cases ha : pr a with
    | true =>
      rw [List.find?_cons_of_pos _ ha] at h
      rw [List.cons_append, List.find?_cons_of_pos _ ha]
      exact h
    | false =>
      rw [List.find?_cons_of_neg _ (by rw [ha]; exact Bool.false_ne_true)] at h
      rw [List.cons_append, List.find?_cons_of_neg _ (by rw [ha]; exact Bool.false_ne_true)]
      exact ih h

theorem find?_append_none3 {γ : Type} (l1 l2 : List γ) (pr : γ → Bool)
    (h : l1.find? pr = none) : (l1 ++ l2).find? pr = l2.find? pr := by
  induction l1 with
  | nil => rfl
  | cons a l1 ih =>
    rw [List.find?_eq_none] at h
    have ha : pr a = false := by
      have := h a (List.mem_cons_self _ _)
      cases hx : pr a
      · rfl
      · exact absurd hx this
    rw [List.cons_append, List.find?_cons_of_neg _ (by rw [ha]; exact Bool.false_ne_true)]
    apply ih
    rw [List.find?_eq_none]
    intro b hb
    exact h b (List.mem_cons_of_mem _ hb)

theorem normStep_missing (s : Graph × Nat) (e : Edge)
    (h : s.1.rankOf e.src = none ∨ s.1.rankOf e.tgt = none) :
    normStep s e = s := by
  unfold normStep
  rcases h with h | h
  · rw [h]
  · rw [h]
    cases s.1.rankOf e.src <;> rfl

theorem normStep_short (s : Graph × Nat) (e : Edge) (sr tr : Int)
    (hsr : s.1.rankOf e.src = some sr) (htr : s.1.rankOf e.tgt = some tr)
    (h : ¬ sr + 1 < tr) : normStep s e = s := by
  unfold normStep
  rw [hsr, htr]
  dsimp only
  rw [if_neg h]

theorem normStep_long (s : Graph × Nat) (e : Edge) (sr tr : Int)
    (hsr : s.1.rankOf e.src = some sr) (htr : s.1.rankOf e.tgt = some tr)
    (h : sr + 1 < tr) :
    normStep s e
      = ({ s.1 with
            nodes := s.1.nodes ++ chainNodes e tr (tr - sr - 1).toNat (sr + 1) 0 s.2,
            edges := (s.1.edges
                ++ chainEdges e.tgt (tr - sr - 1).toNat e.src s.2 s.1.nextE).filter
                  (fun e2 => ¬ e2.id = e.id),
            nextE := s.1.nextE + ((tr - sr - 1).toNat + 1) }, s.2 + (tr - sr - 1).toNat) := by
  obtain ⟨g0, c0⟩ := s
  unfold normStep
  dsimp only at hsr htr ⊢
  rw [hsr, htr]
  dsimp only
  rw [if_pos h]
  rw [chainGo_spec]
  rfl



theorem rank_stable (g : Graph) (h : Graph) (add : List (NId × NodeVal))
    (hadd : h.nodes = g.nodes ++ add) (hdum : ∀ p ∈ add, ∃ n, p.1 = NId.dum n)
    (u : NId) (str : String) (hu : u = NId.orig str) (ru : Int)
    (hr : g.rankOf u = some ru) : h.rankOf u = some ru := by
  unfold Graph.rankOf at hr ⊢
  cases hnq : g.node? u with
  | none => rw [hnq] at hr; cases hr
  | some nu =>
    rw [hnq] at hr
    have : h.node? u = some nu := by
      rw [node?_eq_find] at hnq ⊢
      rw [hadd]
      cases hf : g.nodes.find? (fun p => p.1 = u) with
      | none => rw [hf] at hnq; cases hnq
      | some q =>
        rw [hf] at hnq
        rw [find?_append_left3 _ _ _ _ hf]
        exact hnq
    rw [this]
    exact hr


theorem normPre_weaken (g : Graph) (rest : List Edge) (e : Edge)
    (s : Graph × Nat) (hpre : NormPre g (e :: rest) s) : NormPre g rest s := by
  obtain ⟨⟨add, hadd, haddp⟩, hnE, hpres, hback⟩ := hpre
  refine ⟨⟨add, hadd, ?_⟩, hnE, ?_, hback⟩
  · intro p hp
    obtain ⟨h1, h2, er2, h3, h4, h5⟩ := haddp p hp
    exact ⟨h1, h2, er2, h3, h4, fun e3 h6 => h5 e3 (List.mem_cons_of_mem _ h6)⟩
  · intro e2 h2
    exact hpres e2 (List.mem_cons_of_mem _ h2)

theorem normPre_step (g : Graph) (rest : List Edge) (e : Edge) (s : Graph × Nat)
    (hpre : NormPre g (e :: rest) s)
    (hid : e.id < g.nextE) (hne : ∀ e3 ∈ rest, ¬ e.id = e3.id) :
    NormPre g rest (normStep s e) := by
  rcases hsrc : s.1.rankOf e.src with _ | sr
  · rw [normStep_missing s e (Or.inl hsrc)]
    exact normPre_weaken g rest e s hpre
  rcases htgt : s.1.rankOf e.tgt with _ | tr
  · rw [normStep_missing s e (Or.inr htgt)]
    exact normPre_weaken g rest e s hpre
  by_cases hspan : sr + 1 < tr
  · obtain ⟨⟨add, hadd, haddp⟩, hnE, hpres, hback⟩ := hpre
    rw [normStep_long s e sr tr hsrc htgt hspan]
    refine ⟨⟨add ++ chainNodes e tr (tr - sr - 1).toNat (sr + 1) 0 s.2, ?_, ?_⟩,
      ?_, ?_, ?_⟩
    · show s.1.nodes ++ chainNodes e tr (tr - sr - 1).toNat (sr + 1) 0 s.2
        = g.nodes ++ (add ++ chainNodes e tr (tr - sr - 1).toNat (sr + 1) 0 s.2)
      rw [hadd, List.append_assoc]
    · intro p hp
      rcases List.mem_append.mp hp with hp | hp
      · obtain ⟨⟨n, h1, h2⟩, h3, er2, h4, h5, h6⟩ := haddp p hp
        refine ⟨⟨n, h1, ?_⟩, h3, er2, h4, h5,
          fun e3 h7 => h6 e3 (List.mem_cons_of_mem _ h7)⟩
        show n ≤ s.2 + (tr - sr - 1).toNat
        omega
      · obtain ⟨⟨n, h1, h2, h2b⟩, h3, h4⟩ := chainNodes_props e tr _ _ _ _ p hp
        refine ⟨⟨n, h1, ?_⟩, h3, ⟨e.id, e.src, e.tgt, e.val⟩, h4, hid,
          fun e3 h7 => hne e3 h7⟩
        show n ≤ s.2 + (tr - sr - 1).toNat
        omega
    · show g.nextE ≤ s.1.nextE + ((tr - sr - 1).toNat + 1)
      omega
    · intro e2 h2
      have hmem := hpres e2 (List.mem_cons_of_mem _ h2)
      show e2 ∈ (s.1.edges
          ++ chainEdges e.tgt (tr - sr - 1).toNat e.src s.2 s.1.nextE).filter
            (fun e3 => ¬ e3.id = e.id)
      refine List.mem_filter.mpr ⟨List.mem_append.mpr (Or.inl hmem), ?_⟩
      have : ¬ e2.id = e.id := fun hc => hne e2 h2 hc.symm
      simpa using this
    · intro e2 h2 hlt
      have h2b := List.mem_filter.mp h2
      rcases List.mem_append.mp h2b.1 with h3 | h3
      · exact hback e2 h3 hlt
      · obtain ⟨h4, _⟩ := chainEdges_ids e.tgt _ _ _ _ e2 h3
        omega
  · rw [normStep_short s e sr tr hsrc htgt hspan]
    exact normPre_weaken g rest e s hpre


theorem normDone_step (g : Graph) (rest : List Edge) (e : Edge) (s : Graph × Nat)
    (hpre : NormPre g (e :: rest) s)
    (sr tr : Int) (hstr : ∃ str, e.src = NId.orig str)
    (hsr : g.rankOf e.src = some sr) (htr : g.rankOf e.tgt = some tr)
    (httr : ∃ str, e.tgt = NId.orig str)
    (hid : e.id < g.nextE)
    (huniq : ∀ e2 ∈ g.edges, e2.id = e.id → e2 = e) :
    NormDone g e sr tr (normStep s e) := by
  obtain ⟨⟨add, hadd, haddp⟩, hnE, hpres, hback⟩ := hpre
  obtain ⟨str1, hstr1⟩ := hstr
  obtain ⟨str2, hstr2⟩ := httr
  have hdum : ∀ p ∈ add, ∃ n, p.1 = NId.dum n := by
    intro p hp
    obtain ⟨⟨n, h1, _⟩, _, _⟩ := haddp p hp
    exact ⟨n, h1⟩
  have hsrc : s.1.rankOf e.src = some sr :=
    rank_stable g s.1 add hadd hdum e.src str1 hstr1 sr hsr
  have htgt : s.1.rankOf e.tgt = some tr :=
    rank_stable g s.1 add hadd hdum e.tgt str2 hstr2 tr htr
  by_cases hspan : sr + 1 < tr
  · rw [normStep_long s e sr tr hsrc htgt hspan]
    refine ⟨?_, fun hc => absurd hspan hc, fun _ => ?_⟩
    · show g.nextE ≤ s.1.nextE + ((tr - sr - 1).toNat + 1)
      omega
    refine ⟨s.2, (tr - sr - 1).toNat, add, [], ?_, ?_, ?_, ?_, ?_, ?_, ?_, ?_, ?_, ?_⟩
    · omega
    · omega
    · show s.2 + (tr - sr - 1).toNat ≤ s.2 + (tr - sr - 1).toNat
      exact le_refl _
    · show s.1.nodes ++ chainNodes e tr (tr - sr - 1).toNat (sr + 1) 0 s.2
        = g.nodes ++ add ++ chainNodes e tr (tr - sr - 1).toNat (sr + 1) 0 s.2 ++ []
      rw [hadd, List.append_nil, List.append_assoc]
    · intro p hp
      obtain ⟨⟨n, h1, h2⟩, h3, er2, h4, h5, h6⟩ := haddp p hp
      exact ⟨⟨n, h1, h2⟩, h3, er2, h4, h6 e (List.mem_cons_self _ _)⟩
    · intro p hp
      cases hp
    · intro e2 h2
      have := (List.mem_filter.mp h2).2
      simpa using this
    · refine ⟨s.1.nextE, hnE, ?_⟩
      refine List.mem_filter.mpr ⟨List.mem_append.mpr (Or.inr ?_), by simp; omega⟩
      exact chainEdges_head e.tgt _ e.src s.2 s.1.nextE (by omega)
    · intro j hj
      refine ⟨s.1.nextE + 1 + j, by omega, ?_⟩
      refine List.mem_filter.mpr ⟨List.mem_append.mpr (Or.inr ?_), by simp; omega⟩
      exact chainEdges_interior e.tgt _ e.src s.2 s.1.nextE j hj
    · refine ⟨s.1.nextE + (tr - sr - 1).toNat, by omega, ?_⟩
      refine List.mem_filter.mpr ⟨List.mem_append.mpr (Or.inr ?_), by simp; omega⟩
      exact chainEdges_last e.tgt _ e.src s.2 s.1.nextE (by omega)
  · rw [normStep_short s e sr tr hsrc htgt hspan]
    refine ⟨hnE, fun _ => ?_, fun hc => absurd hc hspan⟩
    refine ⟨hpres e (List.mem_cons_self _ _), ?_, add, hadd, ?_⟩
    · intro e2 h2 hide
      have h3 : e2 ∈ g.edges := hback e2 h2 (by omega)
      exact huniq e2 h3 hide
    · intro p hp
      obtain ⟨⟨n, h1, _⟩, h3, er2, h4, h5, h6⟩ := haddp p hp
      exact ⟨⟨n, h1⟩, h3, er2, h4, h6 e (List.mem_cons_self _ _)⟩


theorem normDone_persist (g : Graph) (e e3 : Edge) (sr tr : Int)
    (s : Graph × Nat)
    (hdone : NormDone g e sr tr s)
    (hid : e.id < g.nextE)
    (hid3 : e3.id < g.nextE) (hne : ¬ e3.id = e.id) :
    NormDone g e sr tr (normStep s e3) := by
  rcases hsrc : s.1.rankOf e3.src with _ | sr3
  · rw [normStep_missing s e3 (Or.inl hsrc)]
    exact hdone
  rcases htgt : s.1.rankOf e3.tgt with _ | tr3
  · rw [normStep_missing s e3 (Or.inr htgt)]
    exact hdone
  by_cases hspan : sr3 + 1 < tr3
  · obtain ⟨hnE, hshort, hlong⟩ := hdone
    rw [normStep_long s e3 sr3 tr3 hsrc htgt hspan]
    refine ⟨?_, ?_, ?_⟩
    · show g.nextE ≤ s.1.nextE + ((tr3 - sr3 - 1).toNat + 1)
      omega
    · intro hs
      obtain ⟨hmem, huniq2, add, hadd, haddp⟩ := hshort hs
      refine ⟨?_, ?_, add ++ chainNodes e3 tr3 (tr3 - sr3 - 1).toNat (sr3 + 1) 0 s.2,
        ?_, ?_⟩
      · refine List.mem_filter.mpr ⟨List.mem_append.mpr (Or.inl hmem), ?_⟩
        have : ¬ e.id = e3.id := fun hc => hne hc.symm
        simpa using this
      · intro e2 h2 hide
        have h2b := List.mem_filter.mp h2
        rcases List.mem_append.mp h2b.1 with h3 | h3
        · exact huniq2 e2 h3 hide
        · obtain ⟨h4, _⟩ := chainEdges_ids e3.tgt _ _ _ _ e2 h3
          omega
      · show s.1.nodes ++ chainNodes e3 tr3 (tr3 - sr3 - 1).toNat (sr3 + 1) 0 s.2
          = g.nodes ++ (add ++ chainNodes e3 tr3 (tr3 - sr3 - 1).toNat (sr3 + 1) 0 s.2)
        rw [hadd, List.append_assoc]
      · intro p hp
        rcases List.mem_append.mp hp with hp | hp
        · exact haddp p hp
        · obtain ⟨⟨n, h1, h2, h2b⟩, h3, h4⟩ := chainNodes_props e3 tr3 _ _ _ _ p hp
          exact ⟨⟨n, h1⟩, h3, ⟨e3.id, e3.src, e3.tgt, e3.val⟩, h4, hne⟩
    · intro hs
      obtain ⟨c, k, add1, add2, hk, hk1, hck, hadd, h1p, h2p, habs, hhead, hint, hlast⟩ :=
        hlong hs
      refine ⟨c, k, add1,
        add2 ++ chainNodes e3 tr3 (tr3 - sr3 - 1).toNat (sr3 + 1) 0 s.2,
        hk, hk1, ?_, ?_, h1p, ?_, ?_, ?_, ?_, ?_⟩
      · show c + k ≤ s.2 + (tr3 - sr3 - 1).toNat
        omega
      · show s.1.nodes ++ chainNodes e3 tr3 (tr3 - sr3 - 1).toNat (sr3 + 1) 0 s.2
          = g.nodes ++ add1 ++ chainNodes e tr k (sr + 1) 0 c
              ++ (add2 ++ chainNodes e3 tr3 (tr3 - sr3 - 1).toNat (sr3 + 1) 0 s.2)
        rw [hadd]
        simp [List.append_assoc]
      · intro p hp
        rcases List.mem_append.mp hp with hp | hp
        · obtain ⟨⟨n, h1, h2, h2b⟩, h3, h4⟩ := h2p p hp
          refine ⟨⟨n, h1, h2, ?_⟩, h3, h4⟩
          show n ≤ s.2 + (tr3 - sr3 - 1).toNat
          omega
        · obtain ⟨⟨n, h1, h2, h2b⟩, h3, h4⟩ := chainNodes_props e3 tr3 _ _ _ _ p hp
          refine ⟨⟨n, h1, by omega, ?_⟩, h3,
            ⟨e3.id, e3.src, e3.tgt, e3.val⟩, h4, hne⟩
          show n ≤ s.2 + (tr3 - sr3 - 1).toNat
          omega
      · intro e2 h2
        have h2b := List.mem_filter.mp h2
        rcases List.mem_append.mp h2b.1 with h3 | h3
        · exact habs e2 h3
        · obtain ⟨h4, _⟩ := chainEdges_ids e3.tgt _ _ _ _ e2 h3
          intro hc
          omega
      · obtain ⟨i, hi1, hi2⟩ := hhead
        refine ⟨i, hi1, List.mem_filter.mpr ⟨List.mem_append.mpr (Or.inl hi2), ?_⟩⟩
        simp only [decide_not]
        simp
        omega
      · intro j hj
        obtain ⟨i, hi1, hi2⟩ := hint j hj
        refine ⟨i, hi1, List.mem_filter.mpr ⟨List.mem_append.mpr (Or.inl hi2), ?_⟩⟩
        simp only [decide_not]
        simp
        omega
      · obtain ⟨i, hi1, hi2⟩ := hlast
        refine ⟨i, hi1, List.mem_filter.mpr ⟨List.mem_append.mpr (Or.inl hi2), ?_⟩⟩
        simp only [decide_not]
        simp
        omega
  · rw [normStep_short s e3 sr3 tr3 hsrc htgt hspan]
    exact hdone


theorem nodup_map_eq {β γ : Type} (f : β → γ) {l : List β}
    (hnd : (l.map f).Nodup) {a b : β}
    (ha : a ∈ l) (hb : b ∈ l) (h : f a = f b) : a = b := by
  induction l with
  | nil => cases ha
  | cons x l ih =>
    rw [List.map_cons, List.nodup_cons] at hnd
    rcases List.mem_cons.mp ha with rfl | ha2 <;>
      rcases List.mem_cons.mp hb with rfl | hb2
    · rfl
    · exfalso
      apply hnd.1
      have hm : f b ∈ l.map f := List.mem_map_of_mem _ hb2
      rw [← h] at hm
      exact hm
    · exfalso
      apply hnd.1
      have hm : f a ∈ l.map f := List.mem_map_of_mem _ ha2
      rw [h] at hm
      exact hm
    · exact ih hnd.2 ha2 hb2

theorem normDone_fold (g : Graph) (e : Edge) (sr tr : Int) :
    ∀ (rest : List Edge) (s : Graph × Nat),
    NormDone g e sr tr s → e.id < g.nextE →
    (∀ e3 ∈ rest, e3.id < g.nextE ∧ ¬ e3.id = e.id) →
    NormDone g e sr tr (rest.foldl normStep s) := by
  intro rest
  induction rest with
  | nil => intro s hdone _ _; exact hdone
  | cons e3 rest ih =>
    intro s hdone hid hrest
    rw [List.foldl_cons]
    have h1 := hrest e3 (List.mem_cons_self _ _)
    exact ih (normStep s e3)
      (normDone_persist g e e3 sr tr s hdone hid h1.1 h1.2) hid
      (fun e4 h4 => hrest e4 (List.mem_cons_of_mem _ h4))

theorem normMain_fold (g : Graph) (e : Edge) (sr tr : Int)
    (hstr : ∃ str, e.src = NId.orig str) (httr : ∃ str, e.tgt = NId.orig str)
    (hsr : g.rankOf e.src = some sr) (htr : g.rankOf e.tgt = some tr)
    (hid : e.id < g.nextE)
    (huniq : ∀ e2 ∈ g.edges, e2.id = e.id → e2 = e) :
    ∀ (rest : List Edge) (s : Graph × Nat), NormPre g rest s →
    (∀ e3 ∈ rest, e3.id < g.nextE) → ((rest.map (fun e3 => e3.id)).Nodup) →
    e ∈ rest →
    NormDone g e sr tr (rest.foldl normStep s) := by
  intro rest
  induction rest with
  | nil => intro s _ _ _ hmem; cases hmem
  | cons e4 rest ih =>
    intro s hpre hlt hnd hmem
    rw [List.foldl_cons]
    rw [List.map_cons, List.nodup_cons] at hnd
    rcases List.mem_cons.mp hmem with rfl | hmem2
    · have hdone := normDone_step g rest e s hpre sr tr hstr hsr htr httr hid huniq
      refine normDone_fold g e sr tr rest (normStep s e) hdone hid ?_
      intro e3 h3
      refine ⟨hlt e3 (List.mem_cons_of_mem _ h3), ?_⟩
      intro hc
      apply hnd.1
      rw [← hc]
      exact List.mem_map_of_mem _ h3
    · have hne4 : ∀ e3 ∈ rest, ¬ e4.id = e3.id := by
        intro e3 h3 hc
        apply hnd.1
        rw [hc]
        exact List.mem_map_of_mem _ h3
      exact ih (normStep s e4)
        (normPre_step g rest e4 s hpre (hlt e4 (List.mem_cons_self _ _)) hne4)
        (fun e3 h3 => hlt e3 (List.mem_cons_of_mem _ h3)) hnd.2 hmem2

theorem normalize_structure (g : Graph)
    (hids : (g.edges.map (fun e2 => e2.id)).Nodup)
    (hlt : ∀ e2 ∈ g.edges, e2.id < g.nextE)
    (horig : ∀ p ∈ g.nodes, ∃ str, p.1 = NId.orig str)
    (e : Edge) (he : e ∈ g.edges) (sr tr : Int)
    (hsr : g.rankOf e.src = some sr) (htr : g.rankOf e.tgt = some tr) :
    NormDone g e sr tr (g.edges.foldl normStep (g, 0)) := by
  have hstr : ∃ str, e.src = NId.orig str := by
    unfold Graph.rankOf at hsr
    cases hnq : g.node? e.src with
    | none => rw [hnq] at hsr; cases hsr
    | some nu => exact horig (e.src, nu) (node?_mem hnq)
  have httr : ∃ str, e.tgt = NId.orig str := by
    unfold Graph.rankOf at htr
    cases hnq : g.node? e.tgt with
    | none => rw [hnq] at htr; cases htr
    | some nu => exact horig (e.tgt, nu) (node?_mem hnq)
  have hpre : NormPre g g.edges (g, 0) := by
    refine ⟨⟨[], by simp, ?_⟩, le_refl _, fun e2 h2 => h2, fun e2 h2 _ => h2⟩
    intro p hp
    cases hp
  exact normMain_fold g e sr tr hstr httr hsr htr (hlt e he)
    (fun e2 h2 hide => nodup_map_eq (fun e3 => e3.id) hids h2 he hide)
    g.edges (g, 0) hpre hlt hids he


theorem find?_dum_none_of_orig (l : List (NId × NodeVal))
    (h : ∀ p ∈ l, ∃ str, p.1 = NId.orig str) (m : Nat) :
    l.find? (fun p => p.1 = NId.dum m) = none := by
  rw [List.find?_eq_none]
  intro p hp
  obtain ⟨str, hs⟩ := h p hp
  simp [hs]

theorem find?_dum_none_of_bound (l : List (NId × NodeVal)) (c m : Nat)
    (h : ∀ p ∈ l, ∃ n, p.1 = NId.dum n ∧ n ≤ c) (hm : c < m) :
    l.find? (fun p => p.1 = NId.dum m) = none := by
  rw [List.find?_eq_none]
  intro p hp
  obtain ⟨n, h1, h2⟩ := h p hp
  simp [h1]
  omega

/-- C4: during Normalize each snapshot edge whose endpoints are ranked is
left untouched when its rank span is one (or less), and otherwise is
deleted and replaced by a chain of exactly `rank(tgt) - rank(src) - 1`
dummy nodes at the successive intermediate ranks, linked from the source
through the dummies to the target. -/
theorem normalize_chain_replacement (g : Graph)
    (hids : (g.edges.map (fun e2 => e2.id)).Nodup)
    (hlt : ∀ e2 ∈ g.edges, e2.id < g.nextE)
    (horig : ∀ p ∈ g.nodes, ∃ str, p.1 = NId.orig str)
    (e : Edge) (he : e ∈ g.edges) (sr tr : Int)
    (hsr : g.rankOf e.src = some sr) (htr : g.rankOf e.tgt = some tr) :
    (¬ sr + 1 < tr → e ∈ (normalize g).edges) ∧
    (sr + 1 < tr →
      (∀ e2 ∈ (normalize g).edges, ¬ e2.id = e.id) ∧
      ∃ c k : Nat, ((k : Nat) : Int) = tr - sr - 1 ∧ 1 ≤ k ∧
        (∀ j : Nat, j < k → (normalize g).node? (NId.dum (c + 1 + j))
            = some (dummyVal e (sr + 1 + (j : Int))
                (chainIdx tr (sr + 1 + (j : Int)) j))) ∧
        (∃ i, (⟨i, e.src, NId.dum (c + 1), ({} : EdgeVal)⟩ : Edge)
            ∈ (normalize g).edges) ∧
        (∀ j : Nat, j + 2 ≤ k → ∃ i,
            (⟨i, NId.dum (c + 1 + j), NId.dum (c + 2 + j), ({} : EdgeVal)⟩ : Edge)
              ∈ (normalize g).edges) ∧
        (∃ i, (⟨i, NId.dum (c + k), e.tgt, ({} : EdgeVal)⟩ : Edge)
            ∈ (normalize g).edges)) := by
  have hstruct := normalize_structure g hids hlt horig e he sr tr hsr htr
  have hnorm : normalize g = (g.edges.foldl normStep (g, 0)).1 := rfl
  obtain ⟨hnE, hshort, hlong⟩ := hstruct
  constructor
  · intro hs
    rw [hnorm]
    exact (hshort hs).1
  · intro hs
    obtain ⟨c, k, add1, add2, hk, hk1, hck, hadd, h1p, h2p, habs, hhead, hint, hlast⟩ :=
      hlong hs
    refine ⟨?_, c, k, hk, hk1, ?_, ?_, ?_, ?_⟩
    · intro e2 h2
      rw [hnorm] at h2
      exact habs e2 h2
    · intro j hj
      have h0 : (g.nodes ++ add1).find?
          (fun p => p.1 = NId.dum (c + 1 + j)) = none := by
        rw [find?_append_none3 _ _ _
          (find?_dum_none_of_orig g.nodes horig (c + 1 + j))]
        exact find?_dum_none_of_bound add1 c (c + 1 + j)
          (fun p hp => (h1p p hp).1) (by omega)
      have h1 : ((g.nodes ++ add1) ++ chainNodes e tr k (sr + 1) 0 c).find?
          (fun p => p.1 = NId.dum (c + 1 + j))
          = some (NId.dum (c + 1 + j),
              dummyVal e (sr + 1 + (j : Int)) (chainIdx tr (sr + 1 + (j : Int)) (0 + j))) := by
        rw [find?_append_none3 _ _ _ h0]
        exact chainNodes_find e tr k (sr + 1) 0 c j hj
      have h2 := find?_append_left3 _ add2 _ _ h1
      rw [hnorm, node?_eq_find, hadd, h2]
      rw [show 0 + j = j from Nat.zero_add j]
      rfl
    · obtain ⟨i, _, hi⟩ := hhead
      exact ⟨i, by rw [hnorm]; exact hi⟩
    · intro j hj
      obtain ⟨i, _, hi⟩ := hint j hj
      exact ⟨i, by rw [hnorm]; exact hi⟩
    · obtain ⟨i, _, hi⟩ := hlast
      exact ⟨i, by rw [hnorm]; exact hi⟩



theorem normalize_chain_replacement_witness :
    (¬ (0 : Int) + 1 < 3 →
        (⟨0, NId.orig "a", NId.orig "b", {}⟩ : Edge) ∈ (normalize c4In).edges) ∧
    ((0 : Int) + 1 < 3 →
      (∀ e2 ∈ (normalize c4In).edges, ¬ e2.id = 0) ∧
      ∃ c k : Nat, ((k : Nat) : Int) = 3 - 0 - 1 ∧ 1 ≤ k ∧
        (∀ j : Nat, j < k → (normalize c4In).node? (NId.dum (c + 1 + j))
            = some (dummyVal ⟨0, NId.orig "a", NId.orig "b", {}⟩ (0 + 1 + (j : Int))
                (chainIdx 3 (0 + 1 + (j : Int)) j))) ∧
        (∃ i, (⟨i, NId.orig "a", NId.dum (c + 1), ({} : EdgeVal)⟩ : Edge)
            ∈ (normalize c4In).edges) ∧
        (∀ j : Nat, j + 2 ≤ k → ∃ i,
            (⟨i, NId.dum (c + 1 + j), NId.dum (c + 2 + j), ({} : EdgeVal)⟩ : Edge)
              ∈ (normalize c4In).edges) ∧
        (∃ i, (⟨i, NId.dum (c + k), NId.orig "b", ({} : EdgeVal)⟩ : Edge)
            ∈ (normalize c4In).edges)) :=
  normalize_chain_replacement c4In (by decide) (by decide)
    (by
      intro p hp
      rcases List.mem_cons.mp hp with rfl | hp
      · exact ⟨"a", rfl⟩
      · rcases List.mem_cons.mp hp with rfl | hp
        · exact ⟨"b", rfl⟩
        · cases hp)
    ⟨0, NId.orig "a", NId.orig "b", {}⟩ (by decide) 0 3 rfl rfl



theorem undoStep_nondummy (h : Graph) (p : NId × NodeVal)
    (hp : p.2.dummy = false) : undoStep h p = h := by
  unfold undoStep
  dsimp only
  rw [hp]
  rfl

theorem undoStep_noidx (h : Graph) (p : NId × NodeVal)
    (hp : p.2.index = none) : undoStep h p = h := by
  unfold undoStep
  dsimp only
  rw [hp]
  cases p.2.dummy <;> cases p.2.edge <;> rfl

theorem undoStep_indexed (h : Graph) (p : NId × NodeVal) (idx : Nat)
    (er : EdgeRef) (hd : p.2.dummy = true) (hi : p.2.index = some idx)
    (he : p.2.edge = some er) :
    undoStep h p
      = ((if h.hasEdge er.id then h
          else h.addEdgeId er.id er.source er.target er.attrs).setEdgeVal er.id
            (fun v => { v with points := setPoint v.points idx (mkPt p.2) })).delNode
          p.1 := by
  unfold undoStep
  dsimp only
  rw [hd, hi, he]
  rfl

theorem hasEdge_false_of_no (i : Nat) (h : Graph) (hno : NoEdgeId i h) :
    h.hasEdge i = false := by
  unfold Graph.hasEdge
  rw [List.any_eq_false]
  intro e2 he2
  have := hno e2 he2
  simpa using this

theorem hasEdge_true_of_uniq (i : Nat) (u v : NId) (val : EdgeVal) (h : Graph)
    (hu : UniqEdge i u v val h) : h.hasEdge i = true := by
  obtain ⟨⟨e2, he2, hid⟩, _⟩ := hu
  unfold Graph.hasEdge
  rw [List.any_eq_true]
  exact ⟨e2, he2, by simpa using hid⟩

theorem noEdgeId_step (i : Nat) (h : Graph) (p : NId × NodeVal)
    (hp : HarmlessFor i p) (hno : NoEdgeId i h) : NoEdgeId i (undoStep h p) := by
  rcases hp with hp | ⟨⟨n, hn⟩, hp⟩
  · rw [undoStep_nondummy h p hp]
    exact hno
  cases hd : p.2.dummy with
  | false => rw [undoStep_nondummy h p hd]; exact hno
  | true =>
    cases hi : p.2.index with
    | none => rw [undoStep_noidx h p hi]; exact hno
    | some idx =>
      cases he : p.2.edge with
      | none =>
        unfold undoStep
        dsimp only
        rw [hd, hi, he]
        exact hno
      | some er =>
        have hner : ¬ er.id = i := hp idx er hi he
        rw [undoStep_indexed h p idx er hd hi he]
        intro e2 he2
        have he2b := List.mem_filter.mp he2
        obtain ⟨e3, he3, he3e⟩ := List.mem_map.mp he2b.1
        have he3id : e2.id = e3.id := by
          rw [← he3e]
          by_cases hc : e3.id = er.id <;> simp [hc]
        rw [he3id]
        by_cases hbr : h.hasEdge er.id
        · rw [if_pos hbr] at he3
          exact hno e3 he3
        · rw [if_neg hbr] at he3
          rcases List.mem_append.mp he3 with he4 | he4
          · exact hno e3 he4
          · have : e3 = ⟨er.id, er.source, er.target, er.attrs⟩ := by simpa using he4
            rw [this]
            exact hner

theorem uniqEdge_step (i : Nat) (u v : NId) (val : EdgeVal) (h : Graph)
    (p : NId × NodeVal) (hp : HarmlessFor i p)
    (hou : ∃ s, u = NId.orig s) (hov : ∃ s, v = NId.orig s)
    (huq : UniqEdge i u v val h) : UniqEdge i u v val (undoStep h p) := by
  obtain ⟨s1, hs1⟩ := hou
  obtain ⟨s2, hs2⟩ := hov
  rcases hp with hp | ⟨⟨n, hn⟩, hp⟩
  · rw [undoStep_nondummy h p hp]
    exact huq
  cases hd : p.2.dummy with
  | false => rw [undoStep_nondummy h p hd]; exact huq
  | true =>
    cases hi : p.2.index with
    | none => rw [undoStep_noidx h p hi]; exact huq
    | some idx =>
      cases he : p.2.edge with
      | none =>
        unfold undoStep
        dsimp only
        rw [hd, hi, he]
        exact huq
      | some er =>
        have hner : ¬ er.id = i := hp idx er hi he
        rw [undoStep_indexed h p idx er hd hi he]
        obtain ⟨⟨e2, he2, hid⟩, hall⟩ := huq
        have hmem1 : e2 ∈ (if h.hasEdge er.id then h
            else h.addEdgeId er.id er.source er.target er.attrs).edges := by
          by_cases hbr : h.hasEdge er.id
          · rw [if_pos hbr]; exact he2
          · rw [if_neg hbr]
            exact List.mem_append.mpr (Or.inl he2)
        have hall1 : ∀ e3 ∈ (if h.hasEdge er.id then h
            else h.addEdgeId er.id er.source er.target er.attrs).edges,
            e3.id = i → e3.src = u ∧ e3.tgt = v ∧ e3.val = val := by
          by_cases hbr : h.hasEdge er.id
          · rw [if_pos hbr]; exact hall
          · rw [if_neg hbr]
            intro e3 he3 hid3
            rcases List.mem_append.mp he3 with he4 | he4
            · exact hall e3 he4 hid3
            · exfalso
              have : e3 = ⟨er.id, er.source, er.target, er.attrs⟩ := by simpa using he4
              rw [this] at hid3
              exact hner hid3
        constructor
        · refine ⟨{ e2 with val := e2.val }, ?_, hid⟩
          refine List.mem_filter.mpr ⟨?_, ?_⟩
          · refine List.mem_map.mpr ⟨e2, hmem1, ?_⟩
            rw [if_neg (by rw [hid]; exact fun hc => hner hc.symm)]
          · obtain ⟨h1, h2, _⟩ := hall e2 he2 hid
            rw [show ({ e2 with val := e2.val } : Edge) = e2 from rfl, h1, h2, hs1, hs2]
            simp [hn]
        · intro e3 he3 hid3
          have he3b := List.mem_filter.mp he3
          obtain ⟨e4, he4, he4e⟩ := List.mem_map.mp he3b.1
          by_cases hc : e4.id = er.id
          · rw [if_pos hc] at he4e
            rw [← he4e] at hid3
            exact absurd (hid3 ▸ hc : (i : Nat) = er.id).symm hner
          · rw [if_neg hc] at he4e
            rw [← he4e] at hid3 ⊢
            exact hall1 e4 he4 hid3

theorem noEdgeId_fold (i : Nat) :
    ∀ (L : List (NId × NodeVal)) (h : Graph),
    (∀ p ∈ L, HarmlessFor i p) → NoEdgeId i h →
    NoEdgeId i (L.foldl undoStep h) := by
  intro L
  induction L with
  | nil => intro h _ hno; exact hno
  | cons p L ih =>
    intro h hharm hno
    rw [List.foldl_cons]
    exact ih (undoStep h p) (fun q hq => hharm q (List.mem_cons_of_mem _ hq))
      (noEdgeId_step i h p (hharm p (List.mem_cons_self _ _)) hno)

theorem uniqEdge_fold (i : Nat) (u v : NId) (val : EdgeVal)
    (hou : ∃ s, u = NId.orig s) (hov : ∃ s, v = NId.orig s) :
    ∀ (L : List (NId × NodeVal)) (h : Graph),
    (∀ p ∈ L, HarmlessFor i p) → UniqEdge i u v val h →
    UniqEdge i u v val (L.foldl undoStep h) := by
  intro L
  induction L with
  | nil => intro h _ huq; exact huq
  | cons p L ih =>
    intro h hharm huq
    rw [List.foldl_cons]
    exact ih (undoStep h p) (fun q hq => hharm q (List.mem_cons_of_mem _ hq))
      (uniqEdge_step i u v val h p (hharm p (List.mem_cons_self _ _)) hou hov huq)


theorem undo_first_tagged (e : Edge) (r : Int) (m idx : Nat) (h : Graph)
    (hou : ∃ s, e.src = NId.orig s) (hov : ∃ s, e.tgt = NId.orig s)
    (hno : NoEdgeId e.id h) :
    UniqEdge e.id e.src e.tgt
      { e.val with points := setPoint e.val.points idx ({} : Pt) }
      (undoStep h (NId.dum m, dummyVal e r (some idx))) := by
  obtain ⟨s1, hs1⟩ := hou
  obtain ⟨s2, hs2⟩ := hov
  rw [undoStep_indexed h (NId.dum m, dummyVal e r (some idx)) idx
    ⟨e.id, e.src, e.tgt, e.val⟩ rfl rfl rfl]
  rw [if_neg (by rw [hasEdge_false_of_no e.id h hno]; exact Bool.false_ne_true)]
  have hmk : mkPt (dummyVal e r (some idx)) = ({} : Pt) := rfl
  constructor
  · refine ⟨⟨e.id, e.src, e.tgt,
      { e.val with points := setPoint e.val.points idx ({} : Pt) }⟩, ?_, rfl⟩
    refine List.mem_filter.mpr ⟨?_, by simp [hs1, hs2]⟩
    refine List.mem_map.mpr ⟨⟨e.id, e.src, e.tgt, e.val⟩,
      List.mem_append.mpr (Or.inr (List.mem_cons_self _ _)), ?_⟩
    rw [if_pos rfl]
    show (⟨e.id, e.src, e.tgt,
      { e.val with points := setPoint e.val.points idx (mkPt (dummyVal e r (some idx))) }⟩ : Edge) = _
    rw [hmk]
  · intro e3 he3 hid3
    have he3b := List.mem_filter.mp he3
    obtain ⟨e4, he4, he4e⟩ := List.mem_map.mp he3b.1
    rcases List.mem_append.mp he4 with he5 | he5
    · exfalso
      have hne : ¬ e4.id = e.id := hno e4 he5
      rw [if_neg hne] at he4e
      rw [← he4e] at hid3
      exact hne hid3
    · have he6 : e4 = ⟨e.id, e.src, e.tgt, e.val⟩ := by simpa using he5
      rw [he6] at he4e
      rw [if_pos rfl] at he4e
      rw [← he4e]
      exact ⟨rfl, rfl, by rw [show (⟨e.id, e.src, e.tgt,
        { e.val with points := setPoint e.val.points idx (mkPt (dummyVal e r (some idx))) }⟩
          : Edge).val = { e.val with points := setPoint e.val.points idx (mkPt (dummyVal e r (some idx))) } from rfl, hmk]⟩

theorem undo_next_tagged (e : Edge) (r : Int) (m idx : Nat) (h : Graph)
    (val : EdgeVal)
    (hou : ∃ s, e.src = NId.orig s) (hov : ∃ s, e.tgt = NId.orig s)
    (huq : UniqEdge e.id e.src e.tgt val h) :
    UniqEdge e.id e.src e.tgt
      { val with points := setPoint val.points idx ({} : Pt) }
      (undoStep h (NId.dum m, dummyVal e r (some idx))) := by
  obtain ⟨s1, hs1⟩ := hou
  obtain ⟨s2, hs2⟩ := hov
  obtain ⟨⟨e2, he2, hid⟩, hall⟩ := huq
  rw [undoStep_indexed h (NId.dum m, dummyVal e r (some idx)) idx
    ⟨e.id, e.src, e.tgt, e.val⟩ rfl rfl rfl]
  rw [if_pos (hasEdge_true_of_uniq e.id e.src e.tgt val h ⟨⟨e2, he2, hid⟩, hall⟩)]
  have hmk : mkPt (dummyVal e r (some idx)) = ({} : Pt) := rfl
  constructor
  · obtain ⟨hsrc2, htgt2, hval2⟩ := hall e2 he2 hid
    refine ⟨{ e2 with val := { val with points := setPoint val.points idx ({} : Pt) } },
      ?_, hid⟩
    refine List.mem_filter.mpr ⟨?_, by
      show (¬ e2.src = NId.dum m ∧ ¬ e2.tgt = NId.dum m : Bool) = true
      rw [hsrc2, htgt2, hs1, hs2]
      simp⟩
    refine List.mem_map.mpr ⟨e2, he2, ?_⟩
    rw [if_pos hid]
    rw [hval2, hmk]
  · intro e3 he3 hid3
    have he3b := List.mem_filter.mp he3
    obtain ⟨e4, he4, he4e⟩ := List.mem_map.mp he3b.1
    by_cases hc : e4.id = e.id
    · rw [if_pos hc] at he4e
      obtain ⟨hsrc4, htgt4, hval4⟩ := hall e4 he4 hc
      rw [← he4e]
      exact ⟨hsrc4, htgt4, by rw [show (⟨e4.id, e4.src, e4.tgt,
        { e4.val with points := setPoint e4.val.points idx (mkPt (dummyVal e r (some idx))) }⟩
          : Edge).val = { e4.val with points := setPoint e4.val.points idx (mkPt (dummyVal e r (some idx))) } from rfl, hval4, hmk]⟩
    · rw [if_neg hc] at he4e
      rw [← he4e] at hid3
      exact absurd hid3 hc


theorem chainUndoTail (e : Edge) (tr : Int)
    (hou : ∃ s, e.src = NId.orig s) (hov : ∃ s, e.tgt = NId.orig s) :
    ∀ (k : Nat) (r : Int) (i c : Nat) (h : Graph) (val : EdgeVal),
    1 ≤ i → r + (k : Int) ≤ tr →
    UniqEdge e.id e.src e.tgt val h →
    UniqEdge e.id e.src e.tgt
      (if r + (k : Int) = tr ∧ 1 ≤ k
       then { val with points := setPoint val.points 1 ({} : Pt) } else val)
      ((chainNodes e tr k r i c).foldl undoStep h) := by
  intro k
  induction k with
  | zero =>
    intro r i c h val hi hrk huq
    rw [if_neg (by intro hc; exact absurd hc.2 (by omega))]
    exact huq
  | succ k ih =>
    intro r i c h val hi hrk huq
    simp only [chainNodes]
    rw [List.foldl_cons]
    have hidx : chainIdx tr r i = if r + 1 = tr then some 1 else none := by
      unfold chainIdx
      rw [if_neg (by omega)]
    by_cases hr1 : r + 1 = tr
    · have hk0 : k = 0 := by
        push_cast at hrk
        omega
      subst hk0
      rw [hidx, if_pos hr1]
      have hstep := undo_next_tagged e r (c + 1) 1 h val hou hov huq
      simp only [chainNodes, List.foldl_nil]
      rw [if_pos ⟨by push_cast; omega, le_refl 1⟩]
      exact hstep
    · rw [hidx, if_neg hr1]
      have hnoop : undoStep h (NId.dum (c + 1), dummyVal e r none) = h :=
        undoStep_noidx h _ rfl
      rw [hnoop]
      have hrec := ih (r + 1) (i + 1) (c + 1) h val (by omega)
        (by push_cast at hrk ⊢; omega) huq
      have hcond : ((r + 1) + (k : Int) = tr ∧ 1 ≤ k)
          ↔ (r + ((k + 1 : Nat) : Int) = tr ∧ 1 ≤ k + 1) := by
        constructor
        · rintro ⟨h1, h2⟩
          exact ⟨by push_cast; omega, by omega⟩
        · rintro ⟨h1, h2⟩
          refine ⟨by push_cast at h1 ⊢; omega, ?_⟩
          by_contra hc
          have hk0 : k = 0 := by omega
          rw [hk0] at h1
          push_cast at h1
          exact hr1 (by omega)
      rw [if_congr hcond rfl rfl] at hrec
      exact hrec


theorem edge?_of_uniq (i : Nat) (u v : NId) (val : EdgeVal) (h : Graph)
    (huq : UniqEdge i u v val h) : h.edge? i = some val := by
  obtain ⟨⟨e2, he2, hid⟩, hall⟩ := huq
  unfold Graph.edge?
  cases hf : h.edges.find? (fun e3 => e3.id = i) with
  | none =>
    exfalso
    rw [List.find?_eq_none] at hf
    have h3 := hf e2 he2
    simp at h3
    exact h3 hid
  | some e3 =>
    have h1 : e3.id = i := by simpa using List.find?_some hf
    have h2 := hall e3 (List.mem_of_find?_eq_some hf) h1
    show some e3.val = some val
    rw [h2.2.2]

/-- C5 (amended): after Denormalize the points array of an original edge
has length `min (max 0 (span - 1)) 2`: the dummies tagged with indices 0
and 1 each contribute one point and the untagged interior dummies
contribute none. -/
theorem points_length_after_denormalize (g : Graph)
    (hids : (g.edges.map (fun e2 => e2.id)).Nodup)
    (hlt : ∀ e2 ∈ g.edges, e2.id < g.nextE)
    (horig : ∀ p ∈ g.nodes, ∃ str, p.1 = NId.orig str)
    (hnodum : ∀ p ∈ g.nodes, p.2.dummy = false)
    (e : Edge) (he : e ∈ g.edges) (sr tr : Int)
    (hsr : g.rankOf e.src = some sr) (htr : g.rankOf e.tgt = some tr)
    (hpts : e.val.points = []) :
    ∃ ev, (undoNormalize (normalize g)).edge? e.id = some ev ∧
      (ev.points.length : Int) = min (max 0 (tr - sr - 1)) 2 := by
  have hstruct := normalize_structure g hids hlt horig e he sr tr hsr htr
  have hnorm : normalize g = (g.edges.foldl normStep (g, 0)).1 := rfl
  have hou : ∃ s, e.src = NId.orig s := by
    unfold Graph.rankOf at hsr
    cases hnq : g.node? e.src with
    | none => rw [hnq] at hsr; cases hsr
    | some nu => exact horig (e.src, nu) (node?_mem hnq)
  have hov : ∃ s, e.tgt = NId.orig s := by
    unfold Graph.rankOf at htr
    cases hnq : g.node? e.tgt with
    | none => rw [hnq] at htr; cases htr
    | some nu => exact horig (e.tgt, nu) (node?_mem hnq)
  obtain ⟨hnE, hshort, hlong⟩ := hstruct
  have hund : undoNormalize (normalize g)
      = (normalize g).nodes.foldl undoStep (normalize g) := rfl
  by_cases hspan : sr + 1 < tr
  · obtain ⟨c, k, add1, add2, hk, hk1, hck, hadd, h1p, h2p, habs, _, _, _⟩ :=
      hlong hspan
    have hNo : NoEdgeId e.id (normalize g) := by
      intro e2 h2
      rw [hnorm] at h2
      exact habs e2 h2
    have hharm1 : ∀ p ∈ g.nodes ++ add1, HarmlessFor e.id p := by
      intro p hp
      rcases List.mem_append.mp hp with hp | hp
      · exact Or.inl (hnodum p hp)
      · obtain ⟨⟨n, h1, _⟩, _, er2, h4, h5⟩ := h1p p hp
        refine Or.inr ⟨⟨n, h1⟩, ?_⟩
        intro idx er3 _ hedge
        have : er3 = er2 := Option.some.inj (hedge.symm.trans h4)
        rw [this]
        exact h5
    have hharm2 : ∀ p ∈ add2, HarmlessFor e.id p := by
      intro p hp
      obtain ⟨⟨n, h1, _, _⟩, _, er2, h4, h5⟩ := h2p p hp
      refine Or.inr ⟨⟨n, h1⟩, ?_⟩
      intro idx er3 _ hedge
      have : er3 = er2 := Option.some.inj (hedge.symm.trans h4)
      rw [this]
      exact h5
    cases k with
    | zero => omega
    | succ k2 =>
      have hchain : (normalize g).nodes
          = ((g.nodes ++ add1) ++ chainNodes e tr (k2 + 1) (sr + 1) 0 c) ++ add2 := by
        rw [hnorm]
        exact hadd
      rw [hund, hchain, List.foldl_append, List.foldl_append]
      have hNo1 : NoEdgeId e.id
          ((g.nodes ++ add1).foldl undoStep (normalize g)) :=
        noEdgeId_fold e.id (g.nodes ++ add1) (normalize g) hharm1 hNo
      have hhead : chainNodes e tr (k2 + 1) (sr + 1) 0 c
          = (NId.dum (c + 1), dummyVal e (sr + 1) (some 0))
            :: chainNodes e tr k2 (sr + 1 + 1) 1 (c + 1) := by
        simp only [chainNodes]
        rfl
      rw [hhead, List.foldl_cons]
      have hstep := undo_first_tagged e (sr + 1) (c + 1) 0
        ((g.nodes ++ add1).foldl undoStep (normalize g)) hou hov hNo1
      have hval1 : ({ e.val with points := setPoint e.val.points 0 ({} : Pt) } : EdgeVal)
          = { e.val with points := [({} : Pt)] } := by
        rw [hpts]
        rfl
      rw [hval1] at hstep
      have htail := chainUndoTail e tr hou hov k2 (sr + 1 + 1) 1 (c + 1)
        (undoStep ((g.nodes ++ add1).foldl undoStep (normalize g))
          (NId.dum (c + 1), dummyVal e (sr + 1) (some 0)))
        { e.val with points := [({} : Pt)] }
        (le_refl 1) (by push_cast at hk ⊢; omega) hstep
      have hfin := uniqEdge_fold e.id e.src e.tgt _ hou hov add2 _ hharm2 htail
      refine ⟨_, edge?_of_uniq _ _ _ _ _ hfin, ?_⟩
      by_cases hk2 : 1 ≤ k2
      · rw [if_pos ⟨by push_cast at hk ⊢; omega, hk2⟩]
        have hlen : (({ e.val with points := [({} : Pt)] } : EdgeVal).points.length) = 1 := rfl
        show ((setPoint [({} : Pt)] 1 ({} : Pt)).length : Int) = _
        have : setPoint [({} : Pt)] 1 ({} : Pt) = [({} : Pt), ({} : Pt)] := rfl
        rw [this]
        have hmax : max 0 (tr - sr - 1) = tr - sr - 1 := max_eq_right (by omega)
        have hmin : min (tr - sr - 1) 2 = 2 := min_eq_right (by push_cast at hk; omega)
        rw [hmax, hmin]
        rfl
      · rw [if_neg (fun hc => hk2 hc.2)]
        show (([({} : Pt)]).length : Int) = _
        have hk20 : k2 = 0 := by omega
        have hmax : max 0 (tr - sr - 1) = tr - sr - 1 := max_eq_right (by omega)
        have hmin : min (tr - sr - 1) 2 = tr - sr - 1 := min_eq_left (by
          rw [hk20] at hk
          push_cast at hk
          omega)
        rw [hmax, hmin, ← hk, hk20]
        rfl
  · obtain ⟨hmem, huniq2, add, hadd, haddp⟩ := hshort hspan
    have huq : UniqEdge e.id e.src e.tgt e.val (normalize g) := by
      refine ⟨⟨e, by rw [hnorm]; exact hmem, rfl⟩, ?_⟩
      intro e2 h2 hid
      rw [hnorm] at h2
      rw [huniq2 e2 h2 hid]
      exact ⟨rfl, rfl, rfl⟩
    have hharm : ∀ p ∈ (normalize g).nodes, HarmlessFor e.id p := by
      rw [hnorm, hadd]
      intro p hp
      rcases List.mem_append.mp hp with hp | hp
      · exact Or.inl (hnodum p hp)
      · obtain ⟨⟨n, h1⟩, _, er2, h4, h5⟩ := haddp p hp
        refine Or.inr ⟨⟨n, h1⟩, ?_⟩
        intro idx er3 _ hedge
        have : er3 = er2 := Option.some.inj (hedge.symm.trans h4)
        rw [this]
        exact h5
    have hfin := uniqEdge_fold e.id e.src e.tgt e.val hou hov
      (normalize g).nodes (normalize g) hharm huq
    refine ⟨e.val, edge?_of_uniq _ _ _ _ _ hfin, ?_⟩
    rw [hpts]
    have hmax : max 0 (tr - sr - 1) = 0 := max_eq_left (by omega)
    have hmin : min (0 : Int) 2 = 0 := min_eq_left (by norm_num)
    rw [hmax, hmin]
    rfl


theorem points_length_after_denormalize_witness :
    ∃ ev, (undoNormalize (normalize c4In)).edge? 0 = some ev ∧
      (ev.points.length : Int) = min (max 0 ((3 : Int) - 0 - 1)) 2 :=
  points_length_after_denormalize c4In (by decide) (by decide)
    (by
      intro p hp
      rcases List.mem_cons.mp hp with rfl | hp
      · exact ⟨"a", rfl⟩
      · rcases List.mem_cons.mp hp with rfl | hp
        · exact ⟨"b", rfl⟩
        · cases hp)
    (by decide) ⟨0, NId.orig "a", NId.orig "b", {}⟩ (by decide) 0 3 rfl rfl rfl

end Dagre
